import Mathlib

/-!
Delta-neutral position calculator and price aggregator.

A shallow embedding of `calculatePosition` (`src/src/App.jsx`), the valuation and
hedge-calibration arithmetic of the dashboard, and of `handler` (`src/api/prices/index.js`),
the serverless price aggregator with its in-memory cache.

The calculator is embedded twice.  `calculatePosition` is the formula over a linear ordered
field `K` with `Math.sqrt` as a parameter `sqrt : K → K` (the theorems instantiate `K := ℝ` and
`sqrt := Real.sqrt`): it is the program in exact real arithmetic.  `Double.calculatePosition` is
the same program in IEEE 754 binary64 arithmetic, with rounding, signed zeros, infinities and
`NaN`: it is what the code computes.
-/

namespace DeltaNeutral

variable {K : Type} [LinearOrderedField K]

/-- JavaScript `x || d` on numbers: the fallback `d` is taken when `x` is falsy, which for a
real number means `x = 0`. -/
def jsOr (x d : K) : K := if x = 0 then d else x

/-- The local constant `rangeConst` of `calculatePosition`. -/
def rangeConst (sqrt : K → K) (P_entry PL PH : K) : K :=
  let sqrtP := sqrt (jsOr P_entry 1)
  let sqrtPL := sqrt (jsOr PL (1 / 10))
  let sqrtPH := sqrt (jsOr PH 100000)
  (sqrtP - sqrtPL) + (P_entry * (1 / sqrtP - 1 / sqrtPH))

/-- The local constant `L` of `calculatePosition`: `inv / (rangeConst || 1)`. -/
def liquidity (sqrt : K → K) (P_entry PL PH inv : K) : K :=
  inv / jsOr (rangeConst sqrt P_entry PL PH) 1

/-- The closure `getV3Value` of `calculatePosition`; the captured variables `L`, `sqrtPL`,
`sqrtPH`, `PL`, `PH` are explicit arguments. -/
def getV3Value (sqrt : K → K) (L sqrtPL sqrtPH PL PH targetPrice : K) : K :=
  let sT := sqrt targetPrice
  if targetPrice ≤ PL then L * (1 / sqrtPL - 1 / sqrtPH) * targetPrice
  else if targetPrice ≥ PH then L * (sqrtPH - sqrtPL)
  else (L * (sT - sqrtPL)) + (L * (1 / sT - 1 / sqrtPH) * targetPrice)

/-- The object returned by `calculatePosition`. -/
structure PositionStats (K : Type) where
  pnlLP : K
  shortPnL : K
  accumulatedFees : K
  totalNetPnL : K
  balancedShortSize : K
  v3ValueCurrent : K
  liqPrice : K
  distToLiq : K
  isOOR : Bool
  shortValueUSD : K
  tokenAmount : K
  usdcAmount : K
  equityValue : K
  maxLossLow : K
  maxLossHigh : K
  feesToBEP : K

/-- The function `calculatePosition` of `App.jsx`.  The argument `lev` is `none` when the caller
passes `undefined`, in which case the default parameter `lev = 3` applies. -/
def calculatePosition (sqrt : K → K) (P_entry P_current PL PH inv apr hours : K)
    (lev : Option K) (skipFees : Bool) : PositionStats K :=
  let lev := lev.getD 3
  let sqrtP := sqrt (jsOr P_entry 1)
  let sqrtPL := sqrt (jsOr PL (1 / 10))
  let sqrtPH := sqrt (jsOr PH 100000)
  let L := liquidity sqrt P_entry PL PH inv
  let v3ValueCurrent := getV3Value sqrt L sqrtPL sqrtPH PL PH P_current
  let pnlLP := v3ValueCurrent - inv
  let v3atLow := getV3Value sqrt L sqrtPL sqrtPH PL PH PL
  let v3atHigh := getV3Value sqrt L sqrtPL sqrtPH PL PH PH
  let balancedShortSize := (v3atLow - v3atHigh) / jsOr (PL - PH) 1
  let shortPnL := (P_entry - P_current) * balancedShortSize
  let dailyRate := apr / 100 / 365
  let accumulatedFees := if skipFees then 0 else inv * (dailyRate / 24) * hours
  let totalNetPnL := pnlLP + shortPnL + accumulatedFees
  let liqPrice := P_entry * (1 + (1 / jsOr lev 3))
  let distToLiq := ((liqPrice - P_current) / P_current) * 100
  let isOOR := decide (P_current < PL) || decide (P_current > PH)
  let v3ValueAtLow := getV3Value sqrt L sqrtPL sqrtPH PL PH PL
  let v3ValueAtHigh := getV3Value sqrt L sqrtPL sqrtPH PL PH PH
  let shortPnLAtLow := (P_entry - PL) * balancedShortSize
  let shortPnLAtHigh := (P_entry - PH) * balancedShortSize
  let maxLossLow := (v3ValueAtLow - inv) + shortPnLAtLow
  let maxLossHigh := (v3ValueAtHigh - inv) + shortPnLAtHigh
  let rawPricePnL := pnlLP + shortPnL
  let feesToBEP := if rawPricePnL < 0 then |rawPricePnL| else 0
  { pnlLP := pnlLP
    shortPnL := shortPnL
    accumulatedFees := accumulatedFees
    totalNetPnL := totalNetPnL
    balancedShortSize := balancedShortSize
    v3ValueCurrent := v3ValueCurrent
    liqPrice := liqPrice
    distToLiq := distToLiq
    isOOR := isOOR
    shortValueUSD := balancedShortSize * P_current
    tokenAmount := L * (1 / sqrtP - 1 / sqrtPH)
    usdcAmount := L * (sqrtP - sqrtPL)
    equityValue := v3ValueCurrent + shortPnL
    maxLossLow := maxLossLow
    maxLossHigh := maxLossHigh
    feesToBEP := max 0 feesToBEP }

/-! ## Price aggregator (`src/api/prices/index.js`)

JavaScript strings are modelled as lists of characters (`Str`).  `String.prototype.trim` removes
the ECMAScript white space and line terminator characters; `toLowerCase` is modelled on the
basic Latin letters, which is what asset identifiers are made of. -/

/-- A JavaScript string, as its list of characters. -/
abbrev Str := List Char

/-- The constant `CACHE_TTL = 10 * 1000` (milliseconds). -/
def CACHE_TTL : Int := 10 * 1000

/-- The characters removed by `String.prototype.trim`: ECMAScript `WhiteSpace` and
`LineTerminator` code points. -/
def isTrimChar (c : Char) : Bool :=
  let n := c.toNat
  n = 0x09 || n = 0x0A || n = 0x0B || n = 0x0C || n = 0x0D || n = 0x20 || n = 0xA0 ||
  n = 0x1680 || (0x2000 ≤ n && n ≤ 0x200A) || n = 0x2028 || n = 0x2029 || n = 0x202F ||
  n = 0x205F || n = 0x3000 || n = 0xFEFF

/-- The method `s.trim()`. -/
def trim (s : Str) : Str :=
  ((s.dropWhile isTrimChar).reverse.dropWhile isTrimChar).reverse

/-- The method `s.toLowerCase()`, on basic Latin letters. -/
def toLowerCase (s : Str) : Str := s.map Char.toLower

/-- The call `s.split(',')`: the pieces between commas; the empty string gives one empty piece. -/
def splitComma : Str → List Str
  | [] => [[]]
  | c :: cs =>
    if c = ',' then [] :: splitComma cs
    else
      match splitComma cs with
      | [] => [[c]]
      | p :: ps => (c :: p) :: ps

/-- The call `ids.join(',')`. -/
def joinComma : List Str → Str
  | [] => []
  | [p] => p
  | p :: q :: ps => p ++ ',' :: joinComma (q :: ps)

/-- The expression `idsParam.split(',').map(s => s.trim().toLowerCase()).filter(Boolean)` of
`handler`; `filter(Boolean)` drops the empty strings. -/
def normalizeIds (idsParam : Str) : List Str :=
  ((splitComma idsParam).map (fun s => toLowerCase (trim s))).filter (fun s => !s.isEmpty)

/-- A cache entry `{ ts, data }`. -/
structure CacheEntry (D : Type) where
  ts : Int
  data : D
  deriving DecidableEq

/-- The module-scope object `cache`, from key to entry (`none` where `cache[key]` is
`undefined`).  The stored `data` is always an object, hence truthy.  Property names inherited
from `Object.prototype` are outside the model. -/
abbrev Cache (D : Type) := Str → Option (CacheEntry D)

/-- The assignment `cache[key] = entry`. -/
def Cache.set {D : Type} (cache : Cache D) (key : Str) (entry : CacheEntry D) : Cache D :=
  fun k => if k = key then some entry else cache k

/-- A thrown error object: its `status` property (`none` when the error has none) and its
`message`. -/
structure JsError where
  status : Option Nat
  message : String
  deriving DecidableEq

/-- What the upstream does when `fetchFromCoinGecko` queries it: either `fetch`, `res.json()` or
the normalisation throws a native error (which has a message and no `status` property), or
there is an HTTP response with a status, a body text and (when the status is ok) the price
table obtained from its JSON body. -/
inductive UpstreamReply (D : Type) where
  | threw (message : String)
  | response (status : Nat) (text : String) (normalized : D)

/-- The function `fetchFromCoinGecko`, given the upstream's reply for `ids`: it throws an error
carrying the HTTP status when the response is not ok (`res.ok` is `200 ≤ status ≤ 299`), and
returns the normalised data otherwise. -/
def fetchFromCoinGecko {D : Type} (upstream : Str → UpstreamReply D) (ids : Str) :
    Except JsError D :=
  match upstream ids with
  | .threw message => .error { status := none, message := message }
  | .response status text normalized =>
    if ¬ (200 ≤ status ∧ status ≤ 299) then
      .error { status := some status
               message := "CoinGecko responded " ++ toString status ++ ": " ++ text }
    else .ok normalized

/-- The JSON body sent by `handler`: either `{ source, data }` with an optional `warning`, or
`{ error }`. -/
inductive Body (D : Type) where
  | prices (source : String) (data : D) (warning : Option String)
  | error (error : String)
  deriving DecidableEq

/-- The HTTP response sent by `handler`. -/
structure Response (D : Type) where
  status : Nat
  body : Body D
  deriving DecidableEq

/-- The effect of one invocation of `handler`: the response, the cache afterwards, and the list
of identifier strings for which `fetchFromCoinGecko` was called. -/
structure Outcome (D : Type) where
  response : Response D
  cache : Cache D
  upstreamCalls : List Str

/-- The expression `err.status || 500`. -/
def statusOr500 (status : Option Nat) : Nat :=
  match status with
  | some s => if s = 0 then 500 else s
  | none => 500

/-- The expression `err.message || 'failed'`. -/
def messageOrFailed (message : String) : String :=
  if message = "" then "failed" else message

/-- The inner `try { ... } catch (err) { ... }` block of `handler` ("fetch fresh"), reached with
the looked-up `entry` when there is no fresh cache hit; `storeNow` is the value of `Date.now()`
when the fetched data is stored. -/
def fetchFresh {D : Type} (cache : Cache D) (storeNow : Int) (upstream : Str → UpstreamReply D)
    (key : Str) (entry : Option (CacheEntry D)) : Outcome D :=
  match fetchFromCoinGecko upstream key with
  | .ok data =>
    { response := { status := 200, body := .prices "coingecko" data none }
      cache := cache.set key { ts := storeNow, data := data }
      upstreamCalls := [key] }
  | .error err =>
    match (if err.status = some 429 then entry else none) with
    | some e =>
      { response := { status := 200, body := .prices "stale-cache" e.data (some "rate_limited") }
        cache := cache
        upstreamCalls := [key] }
    | none =>
      { response := { status := statusOr500 err.status
                      body := .error (messageOrFailed err.message) }
        cache := cache
        upstreamCalls := [key] }

/-- The part of `handler` after `const key = ids.join(',')`: cache lookup, fresh hit, or
`fetchFresh`.  `now` is the value of `Date.now()` at the lookup. -/
def serveKey {D : Type} (cache : Cache D) (now storeNow : Int)
    (upstream : Str → UpstreamReply D) (key : Str) : Outcome D :=
  let entry := cache key
  match entry with
  | some e =>
    if now - e.ts < CACHE_TTL then
      { response := { status := 200, body := .prices "cache" e.data none }
        cache := cache
        upstreamCalls := [] }
    else fetchFresh cache storeNow upstream key entry
  | none => fetchFresh cache storeNow upstream key entry

/-- The function `handler`.  `queryIds` is `req.query.ids` as a string (`none` when absent);
`now` is the value of `Date.now()` at the cache lookup and `storeNow` its value when fetched
data is stored. -/
def handler {D : Type} (cache : Cache D) (now storeNow : Int)
    (upstream : Str → UpstreamReply D) (queryIds : Option Str) : Outcome D :=
  let idsParam := queryIds.getD []
  if idsParam.isEmpty then
    { response := { status := 400, body := .error "missing ids query param" }
      cache := cache
      upstreamCalls := [] }
  else
    let ids := normalizeIds idsParam
    if ids.length = 0 then
      { response := { status := 400, body := .error "no valid ids" }
        cache := cache
        upstreamCalls := [] }
    else serveKey cache now storeNow upstream (joinComma ids)

/-- The cache key `handler` computes for a request: `none` when the request is answered 400 by
the validation of `ids`, and `ids.join(',')` of the normalised list otherwise. -/
def requestKey (queryIds : Option Str) : Option Str :=
  let idsParam := queryIds.getD []
  if idsParam.isEmpty then none
  else
    let ids := normalizeIds idsParam
    if ids.length = 0 then none else some (joinComma ids)

/-- The cache of a cold start: the object literal with no keys. -/
def emptyCache {D : Type} : Cache D := fun _ => none


/-! ## Price aggregator with the lower-casing function as a parameter

`String.prototype.toLowerCase` lower-cases every Unicode letter.  The definitions below are the
ones above with that function as a parameter `lower`; `toLowerCase` is its restriction to basic
Latin letters. -/

/-- The expression `idsParam.split(',').map(s => s.trim().toLowerCase()).filter(Boolean)` of
`handler`, with `toLowerCase` given by `lower`. -/
def normalizeIdsWith (lower : Str → Str) (idsParam : Str) : List Str :=
  ((splitComma idsParam).map (fun s => lower (trim s))).filter (fun s => !s.isEmpty)

/-- The function `handler`, with `toLowerCase` given by `lower`. -/
def handlerWith {D : Type} (lower : Str → Str) (cache : Cache D) (now storeNow : Int)
    (upstream : Str → UpstreamReply D) (queryIds : Option Str) : Outcome D :=
  let idsParam := queryIds.getD []
  if idsParam.isEmpty then
    { response := { status := 400, body := .error "missing ids query param" }
      cache := cache
      upstreamCalls := [] }
  else
    let ids := normalizeIdsWith lower idsParam
    if ids.length = 0 then
      { response := { status := 400, body := .error "no valid ids" }
        cache := cache
        upstreamCalls := [] }
    else serveKey cache now storeNow upstream (joinComma ids)

/-- The cache key `handlerWith lower` computes for a request: `none` when the request is
answered 400 by the validation of `ids`. -/
def requestKeyWith (lower : Str → Str) (queryIds : Option Str) : Option Str :=
  let idsParam := queryIds.getD []
  if idsParam.isEmpty then none
  else
    let ids := normalizeIdsWith lower idsParam
    if ids.length = 0 then none else some (joinComma ids)

/-! ## IEEE 754 binary64 arithmetic

JavaScript numbers are binary64 values.  A finite value is kept as a sign and a rational
magnitude; every operation returns the correctly rounded exact result (round to nearest, ties
to even), with the IEEE rules for signed zeros, infinities and NaN. -/

/-- A JavaScript number: `NaN`, an infinity with its sign, or a finite value `± mag` with
`mag ≥ 0` (so that `+0` and `-0` are distinct). -/
inductive Double where
  | nan
  | inf (neg : Bool)
  | fin (neg : Bool) (mag : ℚ)
  deriving DecidableEq

namespace Double

/-- The power `2 ^ k` as a rational, for an integer exponent. -/
def pow2 (k : Int) : ℚ :=
  if 0 ≤ k then mkRat ((2 ^ k.toNat : Nat) : Int) 1 else mkRat 1 (2 ^ (-k).toNat)

/-- Halving `n` until it is below 2, counting the steps. -/
def log2Fuel : Nat → Nat → Nat
  | 0, _ => 0
  | fuel + 1, n => if n < 2 then 0 else log2Fuel fuel (n / 2) + 1

/-- The binary logarithm of a natural number, rounded down (0 at 0); the fuel `n` is more than
the number of halvings. -/
def log2 (n : Nat) : Nat := log2Fuel n n

/-- The exponent `e` with `2 ^ e ≤ a < 2 ^ (e + 1)`, for a positive rational `a`. -/
def floorLog2 (a : ℚ) : Int :=
  let k : Int := (log2 a.num.toNat : Int) - (log2 a.den : Int)
  if pow2 k ≤ a then k else k - 1

/-- Rounding of a non-negative rational to the nearest natural number, ties to even. -/
def roundHalfEven (x : ℚ) : Nat :=
  let f := x.num.toNat / x.den
  let r := x - (f : ℚ)
  if r < 1 / 2 then f else if 1 / 2 < r then f + 1 else if f % 2 = 0 then f else f + 1

/-- Rounding of a positive rational to binary64: 53 significant bits, least exponent -1022
(below it the spacing stays `2 ^ (-1074)`), round to nearest, ties to even; `none` when the
rounded value reaches `2 ^ 1024` (overflow). -/
def roundMag (a : ℚ) : Option ℚ :=
  let e := max (floorLog2 a) (-1022)
  let ulp := pow2 (e - 52)
  let r := (roundHalfEven (a / ulp) : ℚ) * ulp
  if r < pow2 1024 then some r else none

/-- The binary64 value nearest to `± a`, for an exact magnitude `a ≥ 0`. -/
def round (neg : Bool) (a : ℚ) : Double :=
  if a = 0 then fin neg 0
  else
    match roundMag a with
    | some r => fin neg r
    | none => inf neg

/-- The binary64 value of a numeric literal. -/
def ofRat (q : ℚ) : Double := round (decide (q < 0)) |q|

/-- The exact value of a finite number with sign `neg` and magnitude `mag`. -/
def signed (neg : Bool) (mag : ℚ) : ℚ := if neg then -mag else mag

/-- Unary minus. -/
def neg : Double → Double
  | nan => nan
  | inf s => inf (!s)
  | fin s a => fin (!s) a

/-- Addition.  An exact zero sum is `-0` only when both operands are negative zeros. -/
def add : Double → Double → Double
  | nan, _ => nan
  | _, nan => nan
  | inf s, inf t => if s = t then inf s else nan
  | inf s, fin _ _ => inf s
  | fin _ _, inf t => inf t
  | fin s a, fin t b =>
    let x := signed s a + signed t b
    if x = 0 then fin (s && t) 0 else round (decide (x < 0)) |x|

/-- Subtraction. -/
def sub (x y : Double) : Double := add x (neg y)

/-- Multiplication. -/
def mul : Double → Double → Double
  | nan, _ => nan
  | _, nan => nan
  | inf s, inf t => inf (xor s t)
  | inf s, fin t b => if b = 0 then nan else inf (xor s t)
  | fin s a, inf t => if a = 0 then nan else inf (xor s t)
  | fin s a, fin t b => round (xor s t) (a * b)

/-- Division. -/
def div : Double → Double → Double
  | nan, _ => nan
  | _, nan => nan
  | inf _, inf _ => nan
  | inf s, fin t _ => inf (xor s t)
  | fin s _, inf t => fin (xor s t) 0
  | fin s a, fin t b =>
    if b = 0 then (if a = 0 then nan else inf (xor s t)) else round (xor s t) (a / b)

/-- Newton iteration for the integer square root, from a guess above the root. -/
def isqrtIter (n : Nat) : Nat → Nat → Nat
  | 0, g => g
  | fuel + 1, g =>
    let next := (g + n / g) / 2
    if next < g then isqrtIter n fuel next else g

/-- The integer square root: the largest `r` with `r * r ≤ n`. -/
def isqrt (n : Nat) : Nat :=
  if n ≤ 1 then n else isqrtIter n (log2 n + 2) (2 ^ (log2 n / 2 + 1))

/-- The correctly rounded square root of a positive finite magnitude.  With `e` the exponent of
`a`, the root has exponent `⌊e / 2⌋`, so `t = a / ulp ^ 2` is at least `2 ^ 104`, and the nearest
integer to the square root of `t` is its integer square root `f` or `f + 1`. -/
def sqrtMag (a : ℚ) : ℚ :=
  let e := floorLog2 a
  let ulp := pow2 (Int.fdiv e 2 - 52)
  let t := a / (ulp * ulp)
  let f := isqrt (t.num.toNat / t.den)
  let mid : ℚ := (f : ℚ) + 1 / 2
  let m := if t < mid * mid then f else if mid * mid < t then f + 1
    else if f % 2 = 0 then f else f + 1
  (m : ℚ) * ulp

/-- The function `Math.sqrt`. -/
def sqrt : Double → Double
  | nan => nan
  | inf s => if s then nan else inf false
  | fin s a => if a = 0 then fin s 0 else if s then nan else fin false (sqrtMag a)

/-- The comparison `x < y` (false when an operand is `NaN`). -/
def lt : Double → Double → Bool
  | nan, _ => false
  | _, nan => false
  | inf s, inf t => s && !t
  | inf s, fin _ _ => s
  | fin _ _, inf t => !t
  | fin s a, fin t b => decide (signed s a < signed t b)

/-- The comparison `x <= y` (false when an operand is `NaN`). -/
def le : Double → Double → Bool
  | nan, _ => false
  | _, nan => false
  | inf s, inf t => s || !t
  | inf s, fin _ _ => s
  | fin _ _, inf t => !t
  | fin s a, fin t b => decide (signed s a ≤ signed t b)

/-- The comparison `x === y` on numbers (false when an operand is `NaN`; `+0` equals `-0`). -/
def eq : Double → Double → Bool
  | nan, _ => false
  | _, nan => false
  | inf s, inf t => s == t
  | inf _, fin _ _ => false
  | fin _ _, inf _ => false
  | fin s a, fin t b => decide (signed s a = signed t b)

/-- The function `Number.isFinite`: neither `NaN` nor an infinity. -/
def isFinite : Double → Bool
  | fin _ _ => true
  | _ => false

/-- Truthiness of a number: `NaN`, `+0` and `-0` are falsy. -/
def truthy : Double → Bool
  | nan => false
  | inf _ => true
  | fin _ a => decide (a ≠ 0)

/-- The expression `x || d` on numbers. -/
def or (x d : Double) : Double := if truthy x then x else d

/-- The function `Math.abs`. -/
def abs : Double → Double
  | nan => nan
  | inf _ => inf false
  | fin _ a => fin false a

/-- The function `Math.max` of two arguments (`NaN` when an operand is `NaN`; `+0` is larger
than `-0`). -/
def max (x y : Double) : Double :=
  match x, y with
  | nan, _ => nan
  | _, nan => nan
  | _, _ =>
    if lt x y then y else if lt y x then x
    else
      match x with
      | fin true _ => y
      | _ => x

instance : Add Double := ⟨add⟩
instance : Sub Double := ⟨sub⟩
instance : Mul Double := ⟨mul⟩
instance : Div Double := ⟨div⟩
instance : Neg Double := ⟨neg⟩
instance (n : Nat) : OfNat Double n := ⟨ofRat n⟩

/-- The closure `getV3Value` of `calculatePosition`, in binary64 arithmetic. -/
def getV3Value (L sqrtPL sqrtPH PL PH targetPrice : Double) : Double :=
  let sT := sqrt targetPrice
  if le targetPrice PL then L * (1 / sqrtPL - 1 / sqrtPH) * targetPrice
  else if le PH targetPrice then L * (sqrtPH - sqrtPL)
  else (L * (sT - sqrtPL)) + (L * (1 / sT - 1 / sqrtPH) * targetPrice)

/-- The local constant `rangeConst` of `calculatePosition`, in binary64 arithmetic. -/
def rangeConst (P_entry PL PH : Double) : Double :=
  let sqrtP := sqrt (or P_entry 1)
  let sqrtPL := sqrt (or PL (ofRat (1 / 10)))
  let sqrtPH := sqrt (or PH 100000)
  (sqrtP - sqrtPL) + (P_entry * (1 / sqrtP - 1 / sqrtPH))

/-- The local constant `L` of `calculatePosition`, in binary64 arithmetic. -/
def liquidity (P_entry PL PH inv : Double) : Double :=
  inv / or (rangeConst P_entry PL PH) 1

/-- The function `calculatePosition` of `App.jsx` in binary64 arithmetic, as the program
computes it.  The argument `lev` is `none` when the caller passes `undefined`. -/
def calculatePosition (P_entry P_current PL PH inv apr hours : Double)
    (lev : Option Double) (skipFees : Bool) : PositionStats Double :=
  let lev := lev.getD 3
  let sqrtP := sqrt (or P_entry 1)
  let sqrtPL := sqrt (or PL (ofRat (1 / 10)))
  let sqrtPH := sqrt (or PH 100000)
  let L := liquidity P_entry PL PH inv
  let v3ValueCurrent := getV3Value L sqrtPL sqrtPH PL PH P_current
  let pnlLP := v3ValueCurrent - inv
  let v3atLow := getV3Value L sqrtPL sqrtPH PL PH PL
  let v3atHigh := getV3Value L sqrtPL sqrtPH PL PH PH
  let balancedShortSize := (v3atLow - v3atHigh) / or (PL - PH) 1
  let shortPnL := (P_entry - P_current) * balancedShortSize
  let dailyRate := apr / 100 / 365
  let accumulatedFees := if skipFees then 0 else inv * (dailyRate / 24) * hours
  let totalNetPnL := pnlLP + shortPnL + accumulatedFees
  let liqPrice := P_entry * (1 + (1 / or lev 3))
  let distToLiq := ((liqPrice - P_current) / P_current) * 100
  let isOOR := lt P_current PL || lt PH P_current
  let v3ValueAtLow := getV3Value L sqrtPL sqrtPH PL PH PL
  let v3ValueAtHigh := getV3Value L sqrtPL sqrtPH PL PH PH
  let shortPnLAtLow := (P_entry - PL) * balancedShortSize
  let shortPnLAtHigh := (P_entry - PH) * balancedShortSize
  let maxLossLow := (v3ValueAtLow - inv) + shortPnLAtLow
  let maxLossHigh := (v3ValueAtHigh - inv) + shortPnLAtHigh
  let rawPricePnL := pnlLP + shortPnL
  let feesToBEP := if lt rawPricePnL 0 then abs rawPricePnL else 0
  { pnlLP := pnlLP
    shortPnL := shortPnL
    accumulatedFees := accumulatedFees
    totalNetPnL := totalNetPnL
    balancedShortSize := balancedShortSize
    v3ValueCurrent := v3ValueCurrent
    liqPrice := liqPrice
    distToLiq := distToLiq
    isOOR := isOOR
    shortValueUSD := balancedShortSize * P_current
    tokenAmount := L * (1 / sqrtP - 1 / sqrtPH)
    usdcAmount := L * (sqrtP - sqrtPL)
    equityValue := v3ValueCurrent + shortPnL
    maxLossLow := maxLossLow
    maxLossHigh := maxLossHigh
    feesToBEP := max 0 feesToBEP }

end Double

/-! ## Auxiliary facts -/

theorem jsOr_of_ne_zero {x : K} (d : K) (h : x ≠ 0) : jsOr x d = x := by
  unfold jsOr
  exact if_neg h

/-- A positive real is the square of its (positive) square root. -/
theorem sqrt_repr {x : ℝ} (h : 0 < x) : ∃ a : ℝ, 0 < a ∧ a * a = x ∧ Real.sqrt x = a :=
  ⟨Real.sqrt x, Real.sqrt_pos.mpr h, Real.mul_self_sqrt h.le, rfl⟩

/-- On an in-range entry the conversion constant is strictly positive. -/
theorem rangeConst_pos {Pe PL PH : ℝ} (hL : 0 < PL) (hLH : PL < PH)
    (h1 : PL ≤ Pe) (h2 : Pe ≤ PH) : 0 < rangeConst Real.sqrt Pe PL PH := by
  have hPe : 0 < Pe := lt_of_lt_of_le hL h1
  have hPH : 0 < PH := lt_trans hL hLH
  unfold rangeConst
  simp only [jsOr_of_ne_zero _ hPe.ne', jsOr_of_ne_zero _ hL.ne', jsOr_of_ne_zero _ hPH.ne']
  obtain ⟨a, ha, haa, hsa⟩ := sqrt_repr hL
  obtain ⟨p, hp, hpp, hsp⟩ := sqrt_repr hPe
  obtain ⟨b, hb, hbb, hsb⟩ := sqrt_repr hPH
  rw [hsa, hsp, hsb]
  subst haa hpp hbb
  have hap : a ≤ p := (mul_self_le_mul_self_iff ha.le hp.le).mpr h1
  have hpb : p ≤ b := (mul_self_le_mul_self_iff hp.le hb.le).mpr h2
  have hab : a < b := (mul_self_lt_mul_self_iff ha.le hb.le).mpr hLH
  have key : p * p * (1 / p - 1 / b) = p * (b - p) / b := by
    field_simp
    ring
  rw [key]
  have h3 : 0 ≤ p * (b - p) / b := div_nonneg (mul_nonneg hp.le (sub_nonneg.mpr hpb)) hb.le
  rcases eq_or_lt_of_le hap with h | h
  · have h4 : p < b := h ▸ hab
    have h5 : 0 < p * (b - p) / b := div_pos (mul_pos hp (sub_pos.mpr h4)) hb
    linarith
  · linarith

/-- On an in-range entry with positive capital the liquidity is `inv / rangeConst` and positive. -/
theorem liquidity_pos {Pe PL PH inv : ℝ} (hL : 0 < PL) (hLH : PL < PH)
    (h1 : PL ≤ Pe) (h2 : Pe ≤ PH) (hinv : 0 < inv) :
    liquidity Real.sqrt Pe PL PH inv = inv / rangeConst Real.sqrt Pe PL PH ∧
      0 < liquidity Real.sqrt Pe PL PH inv := by
  have hr := rangeConst_pos hL hLH h1 h2
  unfold liquidity
  rw [jsOr_of_ne_zero _ hr.ne']
  exact ⟨rfl, div_pos hinv hr⟩

/-- Claim C1 (conservation).  For `0 < PL < PH`, an entry price with `PL ≤ P_entry ≤ PH` (bounds
included) and capital `inv > 0`, the liquidity is `inv / rangeConst`, the LP value at the entry
price equals the capital, and `calculatePosition` called with `P_current = P_entry` returns
`v3ValueCurrent = inv` and `pnlLP = 0`. -/
theorem conservation_at_entry (Pe PL PH inv apr hours : ℝ) (lev : Option ℝ) (skipFees : Bool)
    (hL : 0 < PL) (hLH : PL < PH) (h1 : PL ≤ Pe) (h2 : Pe ≤ PH) (hinv : 0 < inv) :
    liquidity Real.sqrt Pe PL PH inv = inv / rangeConst Real.sqrt Pe PL PH ∧
    getV3Value Real.sqrt (liquidity Real.sqrt Pe PL PH inv) (Real.sqrt PL) (Real.sqrt PH)
        PL PH Pe = inv ∧
    (calculatePosition Real.sqrt Pe Pe PL PH inv apr hours lev skipFees).v3ValueCurrent = inv ∧
    (calculatePosition Real.sqrt Pe Pe PL PH inv apr hours lev skipFees).pnlLP = 0 := by
  have hPe : 0 < Pe := lt_of_lt_of_le hL h1
  have hPH : 0 < PH := lt_trans hL hLH
  obtain ⟨hLeq, -⟩ := liquidity_pos hL hLH h1 h2 hinv
  have hr := rangeConst_pos hL hLH h1 h2
  have main : getV3Value Real.sqrt (liquidity Real.sqrt Pe PL PH inv) (Real.sqrt PL)
      (Real.sqrt PH) PL PH Pe = inv := by
    rw [hLeq]
    have hr' := hr.ne'
    revert hr'
    unfold getV3Value rangeConst
    simp only [jsOr_of_ne_zero _ hPe.ne', jsOr_of_ne_zero _ hL.ne', jsOr_of_ne_zero _ hPH.ne']
    obtain ⟨a, ha, haa, hsa⟩ := sqrt_repr hL
    obtain ⟨p, hp, hpp, hsp⟩ := sqrt_repr hPe
    obtain ⟨b, hb, hbb, hsb⟩ := sqrt_repr hPH
    rw [hsa, hsp, hsb]
    subst haa hpp hbb
    have hap : a ≤ p := (mul_self_le_mul_self_iff ha.le hp.le).mpr h1
    have hpb : p ≤ b := (mul_self_le_mul_self_iff hp.le hb.le).mpr h2
    intro hr'
    have hcancel : inv / (p - a + p * p * (1 / p - 1 / b)) * (p - a + p * p * (1 / p - 1 / b))
        = inv := div_mul_cancel₀ inv hr'
    by_cases c1 : p * p ≤ a * a
    · have hpa : p = a := le_antisymm ((mul_self_le_mul_self_iff hp.le ha.le).mpr c1) hap
      subst hpa
      rw [if_pos c1]
      refine Eq.trans ?_ hcancel
      ring
    · rw [if_neg c1]
      by_cases c2 : p * p ≥ b * b
      · have hpb' : p = b := le_antisymm hpb ((mul_self_le_mul_self_iff hb.le hp.le).mpr c2)
        subst hpb'
        rw [if_pos c2]
        refine Eq.trans ?_ hcancel
        ring
      · rw [if_neg c2]
        refine Eq.trans ?_ hcancel
        ring
  refine ⟨hLeq, main, ?_, ?_⟩
  · simp only [calculatePosition, jsOr_of_ne_zero _ hL.ne', jsOr_of_ne_zero _ hPH.ne']
    exact main
  · simp only [calculatePosition, jsOr_of_ne_zero _ hL.ne', jsOr_of_ne_zero _ hPH.ne']
    rw [main, sub_self]

/-- Witness for C1: entry 2500, range [2000, 3000], capital 1000. -/
theorem conservation_at_entry_witness :
    getV3Value Real.sqrt (liquidity Real.sqrt 2500 2000 3000 1000) (Real.sqrt 2000)
        (Real.sqrt 3000) 2000 3000 2500 = 1000 ∧
    (calculatePosition Real.sqrt 2500 2500 2000 3000 1000 50 24 (some 3) false).pnlLP = 0 :=
  have h := conservation_at_entry 2500 2000 3000 1000 50 24 (some 3) false
    (by norm_num) (by norm_num) (by norm_num) (by norm_num) (by norm_num)
  ⟨h.2.1, h.2.2.2⟩

/-- For a positive lower bound, `getV3Value` agrees everywhere with a piecewise function whose
middle piece is written without a division by `sqrt T`. -/
theorem getV3Value_eq_aux (L PL PH : ℝ) (hL : 0 < PL) (T : ℝ) :
    getV3Value Real.sqrt L (Real.sqrt PL) (Real.sqrt PH) PL PH T =
      if T ≤ PL then L * (1 / Real.sqrt PL - 1 / Real.sqrt PH) * T
      else if PH ≤ T then L * (Real.sqrt PH - Real.sqrt PL)
      else L * (Real.sqrt T - Real.sqrt PL) + L * (Real.sqrt T - T / Real.sqrt PH) := by
  unfold getV3Value
  by_cases c1 : T ≤ PL
  · simp only [if_pos c1]
  · simp only [if_neg c1]
    by_cases c2 : PH ≤ T
    · simp only [ge_iff_le, if_pos c2]
    · simp only [ge_iff_le, if_neg c2]
      have hT : 0 < T := lt_trans hL (not_le.mp c1)
      obtain ⟨t, ht, htt, hst⟩ := sqrt_repr hT
      rw [hst]
      subst htt
      have e : (1 / t - 1 / Real.sqrt PH) * (t * t) = t - t * t / Real.sqrt PH := by
        field_simp
        ring
      rw [mul_assoc, e]

/-- Claim C2 (continuity).  For `0 < PL < PH` and every `L`, `getV3Value` is continuous in the
target price on `T > 0`; the in-range formula evaluated at `T = PL` equals the below-range
value at `PL`, and evaluated at `T = PH` equals the above-range value. -/
theorem getV3Value_continuous (L PL PH : ℝ) (hL : 0 < PL) (hLH : PL < PH) :
    ContinuousOn (fun T => getV3Value Real.sqrt L (Real.sqrt PL) (Real.sqrt PH) PL PH T)
        (Set.Ioi 0) ∧
    L * (Real.sqrt PL - Real.sqrt PL) + L * (1 / Real.sqrt PL - 1 / Real.sqrt PH) * PL
        = getV3Value Real.sqrt L (Real.sqrt PL) (Real.sqrt PH) PL PH PL ∧
    getV3Value Real.sqrt L (Real.sqrt PL) (Real.sqrt PH) PL PH PL
        = L * (1 / Real.sqrt PL - 1 / Real.sqrt PH) * PL ∧
    L * (Real.sqrt PH - Real.sqrt PL) + L * (1 / Real.sqrt PH - 1 / Real.sqrt PH) * PH
        = getV3Value Real.sqrt L (Real.sqrt PL) (Real.sqrt PH) PL PH PH ∧
    getV3Value Real.sqrt L (Real.sqrt PL) (Real.sqrt PH) PL PH PH
        = L * (Real.sqrt PH - Real.sqrt PL) := by
  have hPH : 0 < PH := lt_trans hL hLH
  have vLow : getV3Value Real.sqrt L (Real.sqrt PL) (Real.sqrt PH) PL PH PL
      = L * (1 / Real.sqrt PL - 1 / Real.sqrt PH) * PL := by
    unfold getV3Value
    simp only [if_pos (le_refl PL)]
  have vHigh : getV3Value Real.sqrt L (Real.sqrt PL) (Real.sqrt PH) PL PH PH
      = L * (Real.sqrt PH - Real.sqrt PL) := by
    unfold getV3Value
    simp only [if_neg (not_le.mpr hLH), ge_iff_le, if_pos (le_refl PH)]
  refine ⟨?_, ?_, vLow, ?_, vHigh⟩
  · have hfun : (fun T => getV3Value Real.sqrt L (Real.sqrt PL) (Real.sqrt PH) PL PH T) =
        fun T => if T ≤ PL then L * (1 / Real.sqrt PL - 1 / Real.sqrt PH) * T
          else if PH ≤ T then L * (Real.sqrt PH - Real.sqrt PL)
          else L * (Real.sqrt T - Real.sqrt PL) + L * (Real.sqrt T - T / Real.sqrt PH) :=
      funext (getV3Value_eq_aux L PL PH hL)
    rw [hfun]
    apply Continuous.continuousOn
    have hmid : Continuous fun T : ℝ =>
        L * (Real.sqrt T - Real.sqrt PL) + L * (Real.sqrt T - T / Real.sqrt PH) := by
      have hs : Continuous fun T : ℝ => Real.sqrt T := Real.continuous_sqrt
      exact (continuous_const.mul (hs.sub continuous_const)).add
        (continuous_const.mul (hs.sub (continuous_id.div_const _)))
    have hinner : Continuous fun T : ℝ =>
        if PH ≤ T then L * (Real.sqrt PH - Real.sqrt PL)
        else L * (Real.sqrt T - Real.sqrt PL) + L * (Real.sqrt T - T / Real.sqrt PH) := by
      refine Continuous.if_le continuous_const hmid continuous_const continuous_id ?_
      intro T hT
      subst hT
      obtain ⟨b, hb, hbb, hsb⟩ := sqrt_repr hPH
      rw [hsb]
      subst hbb
      field_simp
    refine Continuous.if_le (continuous_const.mul continuous_id) hinner continuous_id
      continuous_const ?_
    intro T hT
    subst hT
    rw [if_neg (not_le.mpr hLH)]
    obtain ⟨a, ha, haa, hsa⟩ := sqrt_repr hL
    rw [hsa]
    subst haa
    have e : (1 / a - 1 / Real.sqrt PH) * (a * a) = a - a * a / Real.sqrt PH := by
      field_simp
      ring
    rw [mul_assoc, e]
    ring
  · rw [vLow]
    ring
  · rw [vHigh]
    ring

/-- Witness for C2: range [2000, 3000] and `L = 7`. -/
theorem getV3Value_continuous_witness :
    ContinuousOn (fun T => getV3Value Real.sqrt 7 (Real.sqrt 2000) (Real.sqrt 3000) 2000 3000 T)
        (Set.Ioi 0) :=
  (getV3Value_continuous 7 2000 3000 (by norm_num) (by norm_num)).1

/-- Claim C3, amended (entry split).  Over real arithmetic (exact square roots, no rounding):
for `0 < PL < PH`, `PL ≤ P_entry ≤ PH` and capital `inv > 0`, the amounts returned by
`calculatePosition` are `tokenAmount = L * (1/sqrtP - 1/sqrtPH) ≥ 0` and
`usdcAmount = L * (sqrtP - sqrtPL) ≥ 0`, they satisfy `tokenAmount * P_entry + usdcAmount = inv`,
and the two percentage shares shown by the dashboard add up to 100. -/
theorem entry_split (Pe Pc PL PH inv apr hours : ℝ) (lev : Option ℝ) (skipFees : Bool)
    (hL : 0 < PL) (hLH : PL < PH) (h1 : PL ≤ Pe) (h2 : Pe ≤ PH) (hinv : 0 < inv) :
    (calculatePosition Real.sqrt Pe Pc PL PH inv apr hours lev skipFees).tokenAmount
        = liquidity Real.sqrt Pe PL PH inv * (1 / Real.sqrt Pe - 1 / Real.sqrt PH) ∧
    (calculatePosition Real.sqrt Pe Pc PL PH inv apr hours lev skipFees).usdcAmount
        = liquidity Real.sqrt Pe PL PH inv * (Real.sqrt Pe - Real.sqrt PL) ∧
    0 ≤ (calculatePosition Real.sqrt Pe Pc PL PH inv apr hours lev skipFees).tokenAmount ∧
    0 ≤ (calculatePosition Real.sqrt Pe Pc PL PH inv apr hours lev skipFees).usdcAmount ∧
    (calculatePosition Real.sqrt Pe Pc PL PH inv apr hours lev skipFees).tokenAmount * Pe
        + (calculatePosition Real.sqrt Pe Pc PL PH inv apr hours lev skipFees).usdcAmount = inv ∧
    ((calculatePosition Real.sqrt Pe Pc PL PH inv apr hours lev skipFees).tokenAmount * Pe / inv)
        * 100
      + ((calculatePosition Real.sqrt Pe Pc PL PH inv apr hours lev skipFees).usdcAmount / inv)
        * 100 = 100 := by
  have hPe : 0 < Pe := lt_of_lt_of_le hL h1
  have hPH : 0 < PH := lt_trans hL hLH
  obtain ⟨hLeq, hLpos⟩ := liquidity_pos hL hLH h1 h2 hinv
  have hr := (rangeConst_pos hL hLH h1 h2).ne'
  have htok : (calculatePosition Real.sqrt Pe Pc PL PH inv apr hours lev skipFees).tokenAmount
      = liquidity Real.sqrt Pe PL PH inv * (1 / Real.sqrt Pe - 1 / Real.sqrt PH) := by
    simp only [calculatePosition, jsOr_of_ne_zero _ hPe.ne', jsOr_of_ne_zero _ hPH.ne']
  have husd : (calculatePosition Real.sqrt Pe Pc PL PH inv apr hours lev skipFees).usdcAmount
      = liquidity Real.sqrt Pe PL PH inv * (Real.sqrt Pe - Real.sqrt PL) := by
    simp only [calculatePosition, jsOr_of_ne_zero _ hPe.ne', jsOr_of_ne_zero _ hL.ne']
  have hap : Real.sqrt PL ≤ Real.sqrt Pe := Real.sqrt_le_sqrt h1
  have hpb : Real.sqrt Pe ≤ Real.sqrt PH := Real.sqrt_le_sqrt h2
  have hp : 0 < Real.sqrt Pe := Real.sqrt_pos.mpr hPe
  have hinvle : 1 / Real.sqrt PH ≤ 1 / Real.sqrt Pe := one_div_le_one_div_of_le hp hpb
  have hsum : liquidity Real.sqrt Pe PL PH inv * (1 / Real.sqrt Pe - 1 / Real.sqrt PH) * Pe
      + liquidity Real.sqrt Pe PL PH inv * (Real.sqrt Pe - Real.sqrt PL) = inv := by
    rw [hLeq]
    have hcancel : inv / rangeConst Real.sqrt Pe PL PH * rangeConst Real.sqrt Pe PL PH = inv :=
      div_mul_cancel₀ inv hr
    refine Eq.trans ?_ hcancel
    unfold rangeConst
    simp only [jsOr_of_ne_zero _ hPe.ne', jsOr_of_ne_zero _ hL.ne', jsOr_of_ne_zero _ hPH.ne']
    ring
  rw [htok, husd]
  refine ⟨rfl, rfl, mul_nonneg hLpos.le (sub_nonneg.mpr hinvle),
    mul_nonneg hLpos.le (sub_nonneg.mpr hap), hsum, ?_⟩
  have e : liquidity Real.sqrt Pe PL PH inv * (1 / Real.sqrt Pe - 1 / Real.sqrt PH) * Pe / inv
        * 100
      + liquidity Real.sqrt Pe PL PH inv * (Real.sqrt Pe - Real.sqrt PL) / inv * 100
      = (liquidity Real.sqrt Pe PL PH inv * (1 / Real.sqrt Pe - 1 / Real.sqrt PH) * Pe
        + liquidity Real.sqrt Pe PL PH inv * (Real.sqrt Pe - Real.sqrt PL)) / inv * 100 := by
    ring
  rw [e, hsum, div_self hinv.ne', one_mul]

/-- Witness for the amended C3: entry 2500, range [2000, 3000], capital 1000. -/
theorem entry_split_witness :
    (calculatePosition Real.sqrt 2500 2600 2000 3000 1000 50 24 (some 3) false).tokenAmount * 2500
      + (calculatePosition Real.sqrt 2500 2600 2000 3000 1000 50 24 (some 3) false).usdcAmount
      = 1000 :=
  (entry_split 2500 2600 2000 3000 1000 50 24 (some 3) false
    (by norm_num) (by norm_num) (by norm_num) (by norm_num) (by norm_num)).2.2.2.2.1

/-- The two boundary losses coincide as soon as the two bounds differ. -/
theorem boundary_losses_coincide (Pe Pc PL PH inv apr hours : ℝ) (lev : Option ℝ)
    (skipFees : Bool) (hLH : PL < PH) :
    (calculatePosition Real.sqrt Pe Pc PL PH inv apr hours lev skipFees).maxLossLow
      = (calculatePosition Real.sqrt Pe Pc PL PH inv apr hours lev skipFees).maxLossHigh := by
  have hd : PL - PH ≠ 0 := (sub_neg.mpr hLH).ne
  simp only [calculatePosition, jsOr_of_ne_zero _ hd]
  field_simp
  ring

/-- Claim C4, amended (delta neutrality at the calibration points).  Over real arithmetic
(exact square roots, no rounding): for `PL < PH` (in particular for `0 < PL < PH` and
`P_entry > 0`) and any capital, `calculatePosition` returns
`maxLossLow = maxLossHigh`, whatever the current price, APR, hours, leverage and fee mode are. -/
theorem maxLoss_low_eq_high (Pe Pc PL PH inv apr hours : ℝ) (lev : Option ℝ) (skipFees : Bool)
    (hLH : PL < PH) :
    (calculatePosition Real.sqrt Pe Pc PL PH inv apr hours lev skipFees).maxLossLow
      = (calculatePosition Real.sqrt Pe Pc PL PH inv apr hours lev skipFees).maxLossHigh :=
  boundary_losses_coincide Pe Pc PL PH inv apr hours lev skipFees hLH

/-- Witness for the amended C4: entry 2500, range [2000, 3000], capital 1000, current price 2750. -/
theorem maxLoss_low_eq_high_witness :
    (calculatePosition Real.sqrt 2500 2750 2000 3000 1000 50 24 (some 3) false).maxLossLow
      = (calculatePosition Real.sqrt 2500 2750 2000 3000 1000 50 24 (some 3) false).maxLossHigh :=
  maxLoss_low_eq_high 2500 2750 2000 3000 1000 50 24 (some 3) false (by norm_num)

/-- The hedge size returned by `calculatePosition`, for a range with `0 < PL < PH`. -/
theorem balancedShortSize_eq (Pe Pc PL PH inv apr hours : ℝ) (lev : Option ℝ) (skipFees : Bool)
    (hL : 0 < PL) (hLH : PL < PH) :
    (calculatePosition Real.sqrt Pe Pc PL PH inv apr hours lev skipFees).balancedShortSize
      = (getV3Value Real.sqrt (liquidity Real.sqrt Pe PL PH inv) (Real.sqrt PL) (Real.sqrt PH)
            PL PH PL
          - getV3Value Real.sqrt (liquidity Real.sqrt Pe PL PH inv) (Real.sqrt PL) (Real.sqrt PH)
            PL PH PH) / (PL - PH) := by
  have hd : PL - PH ≠ 0 := (sub_neg.mpr hLH).ne
  have hPH : 0 < PH := lt_trans hL hLH
  simp only [calculatePosition, jsOr_of_ne_zero _ hd, jsOr_of_ne_zero _ hL.ne',
    jsOr_of_ne_zero _ hPH.ne']

/-- With positive liquidity the value at the lower bound is below the value at the upper bound. -/
theorem getV3Value_low_lt_high (L PL PH : ℝ) (hLpos : 0 < L) (hL : 0 < PL) (hLH : PL < PH) :
    getV3Value Real.sqrt L (Real.sqrt PL) (Real.sqrt PH) PL PH PL
      < getV3Value Real.sqrt L (Real.sqrt PL) (Real.sqrt PH) PL PH PH := by
  have hPH : 0 < PH := lt_trans hL hLH
  unfold getV3Value
  simp only [if_pos (le_refl PL), if_neg (not_le.mpr hLH), ge_iff_le, if_pos (le_refl PH)]
  obtain ⟨a, ha, haa, hsa⟩ := sqrt_repr hL
  obtain ⟨b, hb, hbb, hsb⟩ := sqrt_repr hPH
  rw [hsa, hsb]
  subst haa hbb
  have hab : a < b := (mul_self_lt_mul_self_iff ha.le hb.le).mpr hLH
  have e : L * (b - a) - L * (1 / a - 1 / b) * (a * a) = L * ((b - a) * (b - a)) / b := by
    field_simp
    ring
  have hpos : 0 < L * ((b - a) * (b - a)) / b :=
    div_pos (mul_pos hLpos (mul_pos (sub_pos.mpr hab) (sub_pos.mpr hab))) hb
  linarith

/-- Claim C5, amended (hedge size and short PnL sign).  Over real arithmetic (exact square
roots, no rounding): for `0 < PL < PH`, `PL ≤ P_entry ≤ PH` and capital `inv > 0`,
`balancedShortSize = (getV3Value PL - getV3Value PH) / (PL - PH)` is strictly
positive, and `shortPnL = (P_entry - P_current) * balancedShortSize` is positive exactly when
`P_current < P_entry`, zero exactly when they are equal, negative exactly when
`P_current > P_entry`. -/
theorem short_size_pos_and_pnl_sign (Pe Pc PL PH inv apr hours : ℝ) (lev : Option ℝ)
    (skipFees : Bool)
    (hL : 0 < PL) (hLH : PL < PH) (h1 : PL ≤ Pe) (h2 : Pe ≤ PH) (hinv : 0 < inv) :
    (calculatePosition Real.sqrt Pe Pc PL PH inv apr hours lev skipFees).balancedShortSize
      = (getV3Value Real.sqrt (liquidity Real.sqrt Pe PL PH inv) (Real.sqrt PL) (Real.sqrt PH)
            PL PH PL
          - getV3Value Real.sqrt (liquidity Real.sqrt Pe PL PH inv) (Real.sqrt PL) (Real.sqrt PH)
            PL PH PH) / (PL - PH) ∧
    0 < (calculatePosition Real.sqrt Pe Pc PL PH inv apr hours lev skipFees).balancedShortSize ∧
    (calculatePosition Real.sqrt Pe Pc PL PH inv apr hours lev skipFees).shortPnL
      = (Pe - Pc)
        * (calculatePosition Real.sqrt Pe Pc PL PH inv apr hours lev skipFees).balancedShortSize ∧
    (0 < (calculatePosition Real.sqrt Pe Pc PL PH inv apr hours lev skipFees).shortPnL
      ↔ Pc < Pe) ∧
    ((calculatePosition Real.sqrt Pe Pc PL PH inv apr hours lev skipFees).shortPnL = 0
      ↔ Pc = Pe) ∧
    ((calculatePosition Real.sqrt Pe Pc PL PH inv apr hours lev skipFees).shortPnL < 0
      ↔ Pe < Pc) := by
  obtain ⟨-, hLpos⟩ := liquidity_pos hL hLH h1 h2 hinv
  have hsize := balancedShortSize_eq Pe Pc PL PH inv apr hours lev skipFees hL hLH
  have hlt := getV3Value_low_lt_high (liquidity Real.sqrt Pe PL PH inv) PL PH hLpos hL hLH
  have hpos : 0 < (calculatePosition Real.sqrt Pe Pc PL PH inv apr hours lev
      skipFees).balancedShortSize := by
    rw [hsize]
    exact div_pos_of_neg_of_neg (sub_neg.mpr hlt) (sub_neg.mpr hLH)
  have hpnl : (calculatePosition Real.sqrt Pe Pc PL PH inv apr hours lev skipFees).shortPnL
      = (Pe - Pc) * (calculatePosition Real.sqrt Pe Pc PL PH inv apr hours lev
          skipFees).balancedShortSize := rfl
  refine ⟨hsize, hpos, hpnl, ?_, ?_, ?_⟩
  · rw [hpnl, mul_pos_iff_of_pos_right hpos, sub_pos]
  · rw [hpnl, mul_eq_zero, sub_eq_zero]
    constructor
    · rintro (h | h)
      · exact h.symm
      · exact absurd h hpos.ne'
    · intro h
      exact Or.inl h.symm
  · rw [hpnl, mul_neg_iff]
    constructor
    · rintro (⟨-, h⟩ | ⟨h, -⟩)
      · exact absurd h (not_lt.mpr hpos.le)
      · exact sub_neg.mp h
    · intro h
      exact Or.inr ⟨sub_neg.mpr h, hpos⟩

/-- Witness for the amended C5: entry 2500, range [2000, 3000], capital 1000, current price 2400. -/
theorem short_size_pos_and_pnl_sign_witness :
    0 < (calculatePosition Real.sqrt 2500 2400 2000 3000 1000 50 24 (some 3)
      false).balancedShortSize ∧
    0 < (calculatePosition Real.sqrt 2500 2400 2000 3000 1000 50 24 (some 3) false).shortPnL :=
  have h := short_size_pos_and_pnl_sign 2500 2400 2000 3000 1000 50 24 (some 3) false
    (by norm_num) (by norm_num) (by norm_num) (by norm_num) (by norm_num)
  ⟨h.2.1, h.2.2.2.1.mpr (by norm_num)⟩

/-- The gap between the value curve and the chord through its two boundary points, in closed
form, at any target price inside the range. -/
theorem getV3Value_chord_gap (L PL PH T : ℝ) (hL : 0 < PL) (hLH : PL < PH)
    (h1 : PL ≤ T) (h2 : T ≤ PH) :
    getV3Value Real.sqrt L (Real.sqrt PL) (Real.sqrt PH) PL PH T
        - getV3Value Real.sqrt L (Real.sqrt PL) (Real.sqrt PH) PL PH PL
        - (getV3Value Real.sqrt L (Real.sqrt PL) (Real.sqrt PH) PL PH PL
            - getV3Value Real.sqrt L (Real.sqrt PL) (Real.sqrt PH) PL PH PH) / (PL - PH)
          * (T - PL)
      = 2 * L * (Real.sqrt T - Real.sqrt PL) * (Real.sqrt PH - Real.sqrt T)
          / (Real.sqrt PL + Real.sqrt PH) := by
  have hPH : 0 < PH := lt_trans hL hLH
  have hT : 0 < T := lt_of_lt_of_le hL h1
  have hd : PL - PH ≠ 0 := (sub_neg.mpr hLH).ne
  revert hd
  unfold getV3Value
  simp only [if_pos (le_refl PL), if_neg (not_le.mpr hLH), ge_iff_le, if_pos (le_refl PH)]
  obtain ⟨a, ha, haa, hsa⟩ := sqrt_repr hL
  obtain ⟨t, ht, htt, hst⟩ := sqrt_repr hT
  obtain ⟨b, hb, hbb, hsb⟩ := sqrt_repr hPH
  rw [hsa, hst, hsb]
  subst haa htt hbb
  intro hd
  have hat : a ≤ t := (mul_self_le_mul_self_iff ha.le ht.le).mpr h1
  have htb : t ≤ b := (mul_self_le_mul_self_iff ht.le hb.le).mpr h2
  have hab : a + b ≠ 0 := (add_pos ha hb).ne'
  by_cases c1 : t * t ≤ a * a
  · have hta : t = a := le_antisymm ((mul_self_le_mul_self_iff ht.le ha.le).mpr c1) hat
    subst hta
    rw [if_pos c1]
    simp
  · rw [if_neg c1]
    by_cases c2 : b * b ≤ t * t
    · have htb' : t = b := le_antisymm htb ((mul_self_le_mul_self_iff hb.le ht.le).mpr c2)
      subst htb'
      rw [if_pos c2]
      field_simp
      ring
    · rw [if_neg c2]
      field_simp
      ring

/-- Claim C6, amended (the boundary loss is the worst case inside the range).  Over real
arithmetic (exact square roots, no rounding): for `0 < PL < PH`, `PL ≤ P_entry ≤ PH`, capital `inv > 0` and every current price with `PL ≤ P_current ≤ PH`, the
fee-excluded total PnL `pnlLP + shortPnL` is at least `maxLossLow`, which equals `maxLossHigh`. -/
theorem maxLoss_is_worst_in_range (Pe Pc PL PH inv apr hours : ℝ) (lev : Option ℝ)
    (skipFees : Bool)
    (hL : 0 < PL) (hLH : PL < PH) (h1 : PL ≤ Pe) (h2 : Pe ≤ PH) (hinv : 0 < inv)
    (hc1 : PL ≤ Pc) (hc2 : Pc ≤ PH) :
    (calculatePosition Real.sqrt Pe Pc PL PH inv apr hours lev skipFees).maxLossLow
      ≤ (calculatePosition Real.sqrt Pe Pc PL PH inv apr hours lev skipFees).pnlLP
        + (calculatePosition Real.sqrt Pe Pc PL PH inv apr hours lev skipFees).shortPnL ∧
    (calculatePosition Real.sqrt Pe Pc PL PH inv apr hours lev skipFees).maxLossHigh
      = (calculatePosition Real.sqrt Pe Pc PL PH inv apr hours lev skipFees).maxLossLow := by
  have hPH : 0 < PH := lt_trans hL hLH
  have hPc : 0 < Pc := lt_of_lt_of_le hL hc1
  obtain ⟨-, hLpos⟩ := liquidity_pos hL hLH h1 h2 hinv
  have hgap := getV3Value_chord_gap (liquidity Real.sqrt Pe PL PH inv) PL PH Pc hL hLH hc1 hc2
  have hd : PL - PH ≠ 0 := (sub_neg.mpr hLH).ne
  have hnn : 0 ≤ 2 * liquidity Real.sqrt Pe PL PH inv * (Real.sqrt Pc - Real.sqrt PL)
      * (Real.sqrt PH - Real.sqrt Pc) / (Real.sqrt PL + Real.sqrt PH) := by
    have ha : 0 < Real.sqrt PL := Real.sqrt_pos.mpr hL
    have hb : 0 < Real.sqrt PH := Real.sqrt_pos.mpr hPH
    have hat : Real.sqrt PL ≤ Real.sqrt Pc := Real.sqrt_le_sqrt hc1
    have htb : Real.sqrt Pc ≤ Real.sqrt PH := Real.sqrt_le_sqrt hc2
    exact div_nonneg (mul_nonneg (mul_nonneg (mul_nonneg zero_le_two hLpos.le)
      (sub_nonneg.mpr hat)) (sub_nonneg.mpr htb)) (add_pos ha hb).le
  refine ⟨?_, (boundary_losses_coincide Pe Pc PL PH inv apr hours lev skipFees hLH).symm⟩
  rw [← hgap] at hnn
  simp only [calculatePosition, jsOr_of_ne_zero _ hd, jsOr_of_ne_zero _ hL.ne',
    jsOr_of_ne_zero _ hPH.ne']
  linarith

/-- Witness for the amended C6: entry 2500, range [2000, 3000], capital 1000, current price 2200. -/
theorem maxLoss_is_worst_in_range_witness :
    (calculatePosition Real.sqrt 2500 2200 2000 3000 1000 50 24 (some 3) false).maxLossLow
      ≤ (calculatePosition Real.sqrt 2500 2200 2000 3000 1000 50 24 (some 3) false).pnlLP
        + (calculatePosition Real.sqrt 2500 2200 2000 3000 1000 50 24 (some 3) false).shortPnL :=
  (maxLoss_is_worst_in_range 2500 2200 2000 3000 1000 50 24 (some 3) false
    (by norm_num) (by norm_num) (by norm_num) (by norm_num) (by norm_num)
    (by norm_num) (by norm_num)).1

/-- Claim C7 as stated fails: with entry price 100 and leverage `-2` the code keeps the negative
leverage (`lev || 3` only replaces a falsy value), so `liqPrice = 100 * (1 + 1/(-2)) = 50`, which
is neither `100 * 4/3` nor above the entry price. -/
theorem liqPrice_negative_leverage_counterexample :
    (calculatePosition Real.sqrt 100 100 50 200 1000 0 0 (some (-2)) false).liqPrice = 50 ∧
    (calculatePosition Real.sqrt 100 100 50 200 1000 0 0 (some (-2)) false).liqPrice
      ≠ 100 * (4 / 3) ∧
    ¬ (100 < (calculatePosition Real.sqrt 100 100 50 200 1000 0 0 (some (-2)) false).liqPrice) := by
  have h : (calculatePosition Real.sqrt 100 100 50 200 1000 0 0 (some (-2)) false).liqPrice
      = 50 := by
    simp only [calculatePosition, Option.getD_some, jsOr]
    norm_num
  rw [h]
  norm_num

/-- Claim C7, amended.  For `P_entry > 0`: a provided non-zero leverage `l` (positive or negative)
gives `liqPrice = P_entry * (1 + 1/l)`; a leverage that is not provided, or is zero, is replaced
by 3, giving `liqPrice = P_entry * 4/3`; hence `liqPrice > P_entry` when the leverage is
positive, zero or not provided, while a negative leverage gives `liqPrice < P_entry`. -/
theorem liqPrice_spec (Pe Pc PL PH inv apr hours : ℝ) (skipFees : Bool) (hPe : 0 < Pe) :
    (∀ l : ℝ, l ≠ 0 →
      (calculatePosition Real.sqrt Pe Pc PL PH inv apr hours (some l) skipFees).liqPrice
        = Pe * (1 + 1 / l)) ∧
    (calculatePosition Real.sqrt Pe Pc PL PH inv apr hours none skipFees).liqPrice
      = Pe * 4 / 3 ∧
    (calculatePosition Real.sqrt Pe Pc PL PH inv apr hours (some 0) skipFees).liqPrice
      = Pe * 4 / 3 ∧
    (∀ l : ℝ, 0 < l →
      Pe < (calculatePosition Real.sqrt Pe Pc PL PH inv apr hours (some l) skipFees).liqPrice) ∧
    Pe < (calculatePosition Real.sqrt Pe Pc PL PH inv apr hours none skipFees).liqPrice ∧
    Pe < (calculatePosition Real.sqrt Pe Pc PL PH inv apr hours (some 0) skipFees).liqPrice ∧
    (∀ l : ℝ, l < 0 →
      (calculatePosition Real.sqrt Pe Pc PL PH inv apr hours (some l) skipFees).liqPrice < Pe) := by
  have hgen : ∀ l : ℝ, l ≠ 0 →
      (calculatePosition Real.sqrt Pe Pc PL PH inv apr hours (some l) skipFees).liqPrice
        = Pe * (1 + 1 / l) := by
    intro l hl
    simp only [calculatePosition, Option.getD_some, jsOr_of_ne_zero _ hl]
  have hnone : (calculatePosition Real.sqrt Pe Pc PL PH inv apr hours none skipFees).liqPrice
      = Pe * 4 / 3 := by
    simp only [calculatePosition, Option.getD_none,
      jsOr_of_ne_zero (3 : ℝ) (three_ne_zero : (3 : ℝ) ≠ 0)]
    ring
  have hzero : (calculatePosition Real.sqrt Pe Pc PL PH inv apr hours (some 0) skipFees).liqPrice
      = Pe * 4 / 3 := by
    simp only [calculatePosition, Option.getD_some, jsOr, if_pos]
    ring
  refine ⟨hgen, hnone, hzero, ?_, ?_, ?_, ?_⟩
  · intro l hl
    rw [hgen l hl.ne']
    have : 0 < Pe * (1 / l) := mul_pos hPe (one_div_pos.mpr hl)
    linarith
  · rw [hnone]
    linarith
  · rw [hzero]
    linarith
  · intro l hl
    rw [hgen l hl.ne]
    have : Pe * (1 / l) < 0 := mul_neg_of_pos_of_neg hPe (one_div_neg.mpr hl)
    linarith

/-- Witness for the amended C7: entry price 2500, leverage 5 gives `liqPrice = 3000`. -/
theorem liqPrice_spec_witness :
    (calculatePosition Real.sqrt 2500 2500 2000 3000 1000 50 24 (some 5) false).liqPrice
      = 2500 * (1 + 1 / 5) :=
  (liqPrice_spec 2500 2500 2000 3000 1000 50 24 false (by norm_num)).1 5 (by norm_num)

/-- The break-even fee requirement in exact arithmetic.  Over any linear ordered field (and for
any square-root function), `feesToBEP = max 0 (-(pnlLP + shortPnL))`; it is non-negative, it is zero exactly when
`pnlLP + shortPnL ≥ 0`, `pnlLP + shortPnL + feesToBEP ≥ 0` with equality whenever
`pnlLP + shortPnL ≤ 0`, and its value does not depend on APR, hours, leverage or `skipFees`. -/
theorem feesToBEP_spec (sqrt : K → K) (Pe Pc PL PH inv apr hours : K) (lev : Option K)
    (skipFees : Bool) :
    (calculatePosition sqrt Pe Pc PL PH inv apr hours lev skipFees).feesToBEP
      = max 0 (-((calculatePosition sqrt Pe Pc PL PH inv apr hours lev skipFees).pnlLP
          + (calculatePosition sqrt Pe Pc PL PH inv apr hours lev skipFees).shortPnL)) ∧
    0 ≤ (calculatePosition sqrt Pe Pc PL PH inv apr hours lev skipFees).feesToBEP ∧
    ((calculatePosition sqrt Pe Pc PL PH inv apr hours lev skipFees).feesToBEP = 0 ↔
      0 ≤ (calculatePosition sqrt Pe Pc PL PH inv apr hours lev skipFees).pnlLP
          + (calculatePosition sqrt Pe Pc PL PH inv apr hours lev skipFees).shortPnL) ∧
    0 ≤ (calculatePosition sqrt Pe Pc PL PH inv apr hours lev skipFees).pnlLP
          + (calculatePosition sqrt Pe Pc PL PH inv apr hours lev skipFees).shortPnL
          + (calculatePosition sqrt Pe Pc PL PH inv apr hours lev skipFees).feesToBEP ∧
    ((calculatePosition sqrt Pe Pc PL PH inv apr hours lev skipFees).pnlLP
          + (calculatePosition sqrt Pe Pc PL PH inv apr hours lev skipFees).shortPnL ≤ 0 →
      (calculatePosition sqrt Pe Pc PL PH inv apr hours lev skipFees).pnlLP
          + (calculatePosition sqrt Pe Pc PL PH inv apr hours lev skipFees).shortPnL
          + (calculatePosition sqrt Pe Pc PL PH inv apr hours lev skipFees).feesToBEP = 0) ∧
    (∀ (apr2 hours2 : K) (lev2 : Option K) (skipFees2 : Bool),
      (calculatePosition sqrt Pe Pc PL PH inv apr2 hours2 lev2 skipFees2).feesToBEP
        = (calculatePosition sqrt Pe Pc PL PH inv apr hours lev skipFees).feesToBEP) := by
  have hfee : ∀ (apr2 hours2 : K) (lev2 : Option K) (skipFees2 : Bool),
      (calculatePosition sqrt Pe Pc PL PH inv apr2 hours2 lev2 skipFees2).feesToBEP
      = max 0 (-((calculatePosition sqrt Pe Pc PL PH inv apr hours lev skipFees).pnlLP
          + (calculatePosition sqrt Pe Pc PL PH inv apr hours lev skipFees).shortPnL)) := by
    intro apr2 hours2 lev2 skipFees2
    simp only [calculatePosition]
    split_ifs with h
    · rw [abs_of_neg h]
    · rw [max_self, max_eq_left (neg_nonpos.mpr (not_lt.mp h))]
  have h0 := hfee apr hours lev skipFees
  refine ⟨h0, ?_, ?_, ?_, ?_, ?_⟩
  · rw [h0]
    exact le_max_left _ _
  · rw [h0]
    constructor
    · intro h
      have := le_max_right (0 : K) (-((calculatePosition sqrt Pe Pc PL PH inv apr hours lev
        skipFees).pnlLP + (calculatePosition sqrt Pe Pc PL PH inv apr hours lev skipFees).shortPnL))
      rw [h] at this
      exact neg_nonpos.mp this
    · intro h
      exact max_eq_left (neg_nonpos.mpr h)
  · rw [h0]
    have := le_max_right (0 : K) (-((calculatePosition sqrt Pe Pc PL PH inv apr hours lev
      skipFees).pnlLP + (calculatePosition sqrt Pe Pc PL PH inv apr hours lev skipFees).shortPnL))
    linarith
  · intro h
    rw [h0, max_eq_right (neg_nonneg.mpr h)]
    ring
  · intro apr2 hours2 lev2 skipFees2
    rw [hfee apr2 hours2 lev2 skipFees2, h0]

/-- Instance of the exact break-even fee requirement at entry 2500, current price 2200, range
[2000, 3000], capital 1000. -/
theorem feesToBEP_spec_witness :
    0 ≤ (calculatePosition Real.sqrt 2500 2200 2000 3000 1000 50 24 (some 3) false).feesToBEP :=
  (feesToBEP_spec Real.sqrt 2500 2200 2000 3000 1000 50 24 (some 3) false).2.1

/-- Claim C9 (fee accrual).  With `skipFees = false`,
`accumulatedFees = inv * (apr/100/365/24) * hours`; this is additive and homogeneous in `hours`,
in `inv` and in `apr`, and equals `inv * apr / 36500` for `hours = 24` (APR 50, capital 1000,
24 hours give `1000 * 0.5 / 365`).  With `skipFees = true`, `accumulatedFees = 0` for every APR
and hours, and then `totalNetPnL = pnlLP + shortPnL = equityValue - inv`. -/
theorem accumulatedFees_spec (sqrt : K → K) (Pe Pc PL PH inv apr hours : K) (lev : Option K) :
    (calculatePosition sqrt Pe Pc PL PH inv apr hours lev false).accumulatedFees
      = inv * (apr / 100 / 365 / 24) * hours ∧
    (∀ h1 h2 : K,
      (calculatePosition sqrt Pe Pc PL PH inv apr (h1 + h2) lev false).accumulatedFees
        = (calculatePosition sqrt Pe Pc PL PH inv apr h1 lev false).accumulatedFees
          + (calculatePosition sqrt Pe Pc PL PH inv apr h2 lev false).accumulatedFees) ∧
    (∀ c : K,
      (calculatePosition sqrt Pe Pc PL PH inv apr (c * hours) lev false).accumulatedFees
        = c * (calculatePosition sqrt Pe Pc PL PH inv apr hours lev false).accumulatedFees) ∧
    (∀ c : K,
      (calculatePosition sqrt Pe Pc PL PH (c * inv) apr hours lev false).accumulatedFees
        = c * (calculatePosition sqrt Pe Pc PL PH inv apr hours lev false).accumulatedFees) ∧
    (∀ c : K,
      (calculatePosition sqrt Pe Pc PL PH inv (c * apr) hours lev false).accumulatedFees
        = c * (calculatePosition sqrt Pe Pc PL PH inv apr hours lev false).accumulatedFees) ∧
    (calculatePosition sqrt Pe Pc PL PH inv apr 24 lev false).accumulatedFees
      = inv * apr / 36500 ∧
    (calculatePosition sqrt Pe Pc PL PH 1000 50 24 lev false).accumulatedFees
      = 1000 * (1 / 2) / 365 ∧
    (calculatePosition sqrt Pe Pc PL PH inv apr hours lev true).accumulatedFees = 0 ∧
    (calculatePosition sqrt Pe Pc PL PH inv apr hours lev true).totalNetPnL
      = (calculatePosition sqrt Pe Pc PL PH inv apr hours lev true).pnlLP
        + (calculatePosition sqrt Pe Pc PL PH inv apr hours lev true).shortPnL ∧
    (calculatePosition sqrt Pe Pc PL PH inv apr hours lev true).pnlLP
        + (calculatePosition sqrt Pe Pc PL PH inv apr hours lev true).shortPnL
      = (calculatePosition sqrt Pe Pc PL PH inv apr hours lev true).equityValue - inv := by
  have hfee : ∀ i a h : K,
      (calculatePosition sqrt Pe Pc PL PH i a h lev false).accumulatedFees
        = i * (a / 100 / 365 / 24) * h := by
    intro i a h
    simp only [calculatePosition, Bool.false_eq_true, if_false]
  refine ⟨hfee _ _ _, ?_, ?_, ?_, ?_, ?_, ?_, ?_, ?_, ?_⟩
  · intro h1 h2
    rw [hfee, hfee, hfee]
    ring
  · intro c
    rw [hfee, hfee]
    ring
  · intro c
    rw [hfee, hfee]
    ring
  · intro c
    rw [hfee, hfee]
    ring
  · rw [hfee]
    ring
  · rw [hfee]
    norm_num
  · simp only [calculatePosition, if_true]
  · simp only [calculatePosition, if_true, add_zero]
  · simp only [calculatePosition]
    ring

/-- Instance of C9: APR 50, capital 1000, 24 hours, over the reals. -/
theorem accumulatedFees_spec_witness :
    (calculatePosition Real.sqrt 2500 2500 2000 3000 1000 50 24 (some 3) false).accumulatedFees
      = 1000 * (1 / 2) / 365 :=
  (accumulatedFees_spec Real.sqrt 2500 2500 2000 3000 1000 50 24 (some 3)).2.2.2.2.2.2.1

/-- Claim C10 (out-of-range policy).  For `0 < PL < PH` and any current price `T` (in particular
`T > 0`), `isOOR` is true exactly when `T < PL` or `T > PH` (so it is false at either bound); when `T < PL` the LP
value is `L * (1/sqrtPL - 1/sqrtPH) * T`, proportional to `T`; when `T > PH` it is
`L * (sqrtPH - sqrtPL)`, independent of `T`. -/
theorem out_of_range_policy (Pe T PL PH inv apr hours : ℝ) (lev : Option ℝ) (skipFees : Bool)
    (hL : 0 < PL) (hLH : PL < PH) :
    ((calculatePosition Real.sqrt Pe T PL PH inv apr hours lev skipFees).isOOR = true
      ↔ (T < PL ∨ T > PH)) ∧
    (calculatePosition Real.sqrt Pe PL PL PH inv apr hours lev skipFees).isOOR = false ∧
    (calculatePosition Real.sqrt Pe PH PL PH inv apr hours lev skipFees).isOOR = false ∧
    (T < PL →
      (calculatePosition Real.sqrt Pe T PL PH inv apr hours lev skipFees).v3ValueCurrent
        = liquidity Real.sqrt Pe PL PH inv * (1 / Real.sqrt PL - 1 / Real.sqrt PH) * T) ∧
    (T > PH →
      (calculatePosition Real.sqrt Pe T PL PH inv apr hours lev skipFees).v3ValueCurrent
        = liquidity Real.sqrt Pe PL PH inv * (Real.sqrt PH - Real.sqrt PL)) := by
  have hPH : 0 < PH := lt_trans hL hLH
  refine ⟨?_, ?_, ?_, ?_, ?_⟩
  · simp only [calculatePosition, Bool.or_eq_true, decide_eq_true_eq]
  · simp only [calculatePosition, lt_irrefl, decide_False, Bool.false_or, decide_eq_false_iff_not,
      not_lt, gt_iff_lt]
    exact hLH.le
  · simp only [calculatePosition, lt_irrefl, decide_False, Bool.or_false, decide_eq_false_iff_not,
      not_lt, gt_iff_lt]
    exact hLH.le
  · intro h
    simp only [calculatePosition, getV3Value, jsOr_of_ne_zero _ hL.ne',
      jsOr_of_ne_zero _ hPH.ne', if_pos h.le]
  · intro h
    have h' : ¬ T ≤ PL := not_le.mpr (lt_trans hLH h)
    simp only [calculatePosition, getV3Value, jsOr_of_ne_zero _ hL.ne',
      jsOr_of_ne_zero _ hPH.ne', if_neg h', ge_iff_le, if_pos (le_of_lt h)]

/-- Witness for C10: range [2000, 3000], current price 1900. -/
theorem out_of_range_policy_witness :
    (calculatePosition Real.sqrt 2500 1900 2000 3000 1000 50 24 (some 3) false).isOOR = true ∧
    (calculatePosition Real.sqrt 2500 1900 2000 3000 1000 50 24 (some 3) false).v3ValueCurrent
      = liquidity Real.sqrt 2500 2000 3000 1000
          * (1 / Real.sqrt 2000 - 1 / Real.sqrt 3000) * 1900 :=
  have h := out_of_range_policy 2500 1900 2000 3000 1000 50 24 (some 3) false
    (by norm_num) (by norm_num)
  ⟨h.1.mpr (Or.inl (by norm_num)), h.2.2.2.1 (by norm_num)⟩

/-- For an in-range entry, the conversion constant compared with the two boundary values:
`(1/a - 1/b) * PL < rangeConst` when `PL < P_entry`, and `rangeConst < b - a` when
`P_entry < PH` (with `a = sqrt PL`, `b = sqrt PH`). -/
theorem rangeConst_between (Pe PL PH : ℝ) (hL : 0 < PL) (hLH : PL < PH)
    (h1 : PL ≤ Pe) (h2 : Pe ≤ PH) :
    (PL < Pe → (1 / Real.sqrt PL - 1 / Real.sqrt PH) * PL < rangeConst Real.sqrt Pe PL PH) ∧
    (Pe < PH → rangeConst Real.sqrt Pe PL PH < Real.sqrt PH - Real.sqrt PL) := by
  have hPe : 0 < Pe := lt_of_lt_of_le hL h1
  have hPH : 0 < PH := lt_trans hL hLH
  unfold rangeConst
  simp only [jsOr_of_ne_zero _ hPe.ne', jsOr_of_ne_zero _ hL.ne', jsOr_of_ne_zero _ hPH.ne']
  obtain ⟨a, ha, haa, hsa⟩ := sqrt_repr hL
  obtain ⟨p, hp, hpp, hsp⟩ := sqrt_repr hPe
  obtain ⟨b, hb, hbb, hsb⟩ := sqrt_repr hPH
  rw [hsa, hsp, hsb]
  subst haa hpp hbb
  have hap : a ≤ p := (mul_self_le_mul_self_iff ha.le hp.le).mpr h1
  have hpb : p ≤ b := (mul_self_le_mul_self_iff hp.le hb.le).mpr h2
  have hab : a < b := (mul_self_lt_mul_self_iff ha.le hb.le).mpr hLH
  constructor
  · intro h
    have hap' : a < p := (mul_self_lt_mul_self_iff ha.le hp.le).mpr h
    have e : p - a + p * p * (1 / p - 1 / b) - (1 / a - 1 / b) * (a * a)
        = (p - a) * (2 * b - p - a) / b := by
      field_simp
      ring
    have hpos : 0 < (p - a) * (2 * b - p - a) / b :=
      div_pos (mul_pos (sub_pos.mpr hap') (by linarith)) hb
    linarith
  · intro h
    have hpb' : p < b := (mul_self_lt_mul_self_iff hp.le hb.le).mpr h
    have e : b - a - (p - a + p * p * (1 / p - 1 / b)) = (b - p) * (b - p) / b := by
      field_simp
      ring
    have hpos : 0 < (b - p) * (b - p) / b :=
      div_pos (mul_pos (sub_pos.mpr hpb') (sub_pos.mpr hpb')) hb
    linarith

/-- For an in-range entry with positive capital: the LP value at the lower bound is below the
capital when `PL < P_entry`, and the LP value at the upper bound is above the capital when
`P_entry < PH`. -/
theorem boundary_values_vs_capital (Pe PL PH inv : ℝ) (hL : 0 < PL) (hLH : PL < PH)
    (h1 : PL ≤ Pe) (h2 : Pe ≤ PH) (hinv : 0 < inv) :
    (PL < Pe → getV3Value Real.sqrt (liquidity Real.sqrt Pe PL PH inv) (Real.sqrt PL)
        (Real.sqrt PH) PL PH PL < inv) ∧
    (Pe < PH → inv < getV3Value Real.sqrt (liquidity Real.sqrt Pe PL PH inv) (Real.sqrt PL)
        (Real.sqrt PH) PL PH PH) := by
  obtain ⟨hLeq, hLpos⟩ := liquidity_pos hL hLH h1 h2 hinv
  have hr := rangeConst_pos hL hLH h1 h2
  obtain ⟨hlow, hhigh⟩ := rangeConst_between Pe PL PH hL hLH h1 h2
  have hinv' : liquidity Real.sqrt Pe PL PH inv * rangeConst Real.sqrt Pe PL PH = inv := by
    rw [hLeq]
    exact div_mul_cancel₀ inv hr.ne'
  have vLow : getV3Value Real.sqrt (liquidity Real.sqrt Pe PL PH inv) (Real.sqrt PL)
      (Real.sqrt PH) PL PH PL
      = liquidity Real.sqrt Pe PL PH inv * ((1 / Real.sqrt PL - 1 / Real.sqrt PH) * PL) := by
    unfold getV3Value
    simp only [if_pos (le_refl PL)]
    ring
  have vHigh : getV3Value Real.sqrt (liquidity Real.sqrt Pe PL PH inv) (Real.sqrt PL)
      (Real.sqrt PH) PL PH PH
      = liquidity Real.sqrt Pe PL PH inv * (Real.sqrt PH - Real.sqrt PL) := by
    unfold getV3Value
    simp only [if_neg (not_le.mpr hLH), ge_iff_le, if_pos (le_refl PH)]
  constructor
  · intro h
    rw [vLow]
    have := mul_lt_mul_of_pos_left (hlow h) hLpos
    linarith
  · intro h
    rw [vHigh]
    have := mul_lt_mul_of_pos_left (hhigh h) hLpos
    linarith

/-- Claim C11 as stated fails: for entry 2500, range [2000, 3000], capital 1000 the LP value at
the upper bound is above the capital, not below it. -/
theorem value_at_high_not_below_capital_counterexample :
    1000 < getV3Value Real.sqrt (liquidity Real.sqrt 2500 2000 3000 1000) (Real.sqrt 2000)
        (Real.sqrt 3000) 2000 3000 3000 ∧
    ¬ (getV3Value Real.sqrt (liquidity Real.sqrt 2500 2000 3000 1000) (Real.sqrt 2000)
        (Real.sqrt 3000) 2000 3000 3000 < 1000) := by
  have h := (boundary_values_vs_capital 2500 2000 3000 1000 (by norm_num) (by norm_num)
    (by norm_num) (by norm_num) (by norm_num)).2 (by norm_num)
  exact ⟨h, not_lt.mpr h.le⟩

/-- Claim C11, amended.  Over real arithmetic (exact square roots, no rounding): for
`0 < PL < P_entry < PH` and capital `inv > 0`, the LP value at the lower bound is below the capital and the LP value at the upper bound is above the capital:
`getV3Value PL < inv < getV3Value PH`. -/
theorem boundary_values_around_capital (Pe PL PH inv : ℝ) (hL : 0 < PL) (h1 : PL < Pe)
    (h2 : Pe < PH) (hinv : 0 < inv) :
    getV3Value Real.sqrt (liquidity Real.sqrt Pe PL PH inv) (Real.sqrt PL) (Real.sqrt PH)
        PL PH PL < inv ∧
    inv < getV3Value Real.sqrt (liquidity Real.sqrt Pe PL PH inv) (Real.sqrt PL) (Real.sqrt PH)
        PL PH PH := by
  have h := boundary_values_vs_capital Pe PL PH inv hL (lt_trans h1 h2) h1.le h2.le hinv
  exact ⟨h.1 h1, h.2 h2⟩

/-- Witness for the amended C11: entry 2500, range [2000, 3000], capital 1000. -/
theorem boundary_values_around_capital_witness :
    getV3Value Real.sqrt (liquidity Real.sqrt 2500 2000 3000 1000) (Real.sqrt 2000)
        (Real.sqrt 3000) 2000 3000 2000 < 1000 :=
  (boundary_values_around_capital 2500 2000 3000 1000 (by norm_num) (by norm_num)
    (by norm_num) (by norm_num)).1

/-! ## Price aggregator: the handler as a state machine on the cache -/

/-- A request that passes validation is served from the key computed by `requestKey`. -/
theorem handler_of_requestKey {D : Type} (cache : Cache D) (now storeNow : Int)
    (upstream : Str → UpstreamReply D) (queryIds : Option Str) (key : Str)
    (hkey : requestKey queryIds = some key) :
    handler cache now storeNow upstream queryIds = serveKey cache now storeNow upstream key := by
  unfold requestKey at hkey
  unfold handler
  by_cases h1 : (queryIds.getD []).isEmpty = true
  · simp [h1] at hkey
  · by_cases h2 : (normalizeIds (queryIds.getD [])).length = 0
    · simp [h1, h2] at hkey
    · simp only [h1, h2, if_false, Bool.false_eq_true, Option.some.injEq] at hkey ⊢
      rw [hkey]

/-- A request that fails validation is answered 400 without touching cache or upstream. -/
theorem handler_of_no_key {D : Type} (cache : Cache D) (now storeNow : Int)
    (upstream : Str → UpstreamReply D) (queryIds : Option Str)
    (hkey : requestKey queryIds = none) :
    (handler cache now storeNow upstream queryIds).response.status = 400 ∧
    (∃ msg, (handler cache now storeNow upstream queryIds).response.body = Body.error msg) ∧
    (handler cache now storeNow upstream queryIds).cache = cache ∧
    (handler cache now storeNow upstream queryIds).upstreamCalls = [] := by
  unfold requestKey at hkey
  by_cases h1 : (queryIds.getD []).isEmpty = true
  · have e : handler cache now storeNow upstream queryIds =
        { response := { status := 400, body := Body.error "missing ids query param" }
          cache := cache
          upstreamCalls := [] } := by
      unfold handler
      simp only [h1, if_true]
    rw [e]
    exact ⟨rfl, ⟨_, rfl⟩, rfl, rfl⟩
  · by_cases h2 : (normalizeIds (queryIds.getD [])).length = 0
    · have e : handler cache now storeNow upstream queryIds =
          { response := { status := 400, body := Body.error "no valid ids" }
            cache := cache
            upstreamCalls := [] } := by
        unfold handler
        simp only [h1, h2, if_true, if_false, Bool.false_eq_true]
      rw [e]
      exact ⟨rfl, ⟨_, rfl⟩, rfl, rfl⟩
    · simp [h1, h2] at hkey

/-- With a fresh entry for the key, `serveKey` answers from the cache. -/
theorem serveKey_fresh {D : Type} (cache : Cache D) (now storeNow : Int)
    (upstream : Str → UpstreamReply D) (key : Str) (e : CacheEntry D)
    (he : cache key = some e) (hfresh : now - e.ts < CACHE_TTL) :
    serveKey cache now storeNow upstream key =
      { response := { status := 200, body := Body.prices "cache" e.data none }
        cache := cache
        upstreamCalls := [] } := by
  unfold serveKey
  simp only [he, hfresh, if_true]

/-- Without a fresh entry for the key, `serveKey` runs the fetch block with the looked-up
entry. -/
theorem serveKey_not_fresh {D : Type} (cache : Cache D) (now storeNow : Int)
    (upstream : Str → UpstreamReply D) (key : Str)
    (hstale : ∀ e, cache key = some e → CACHE_TTL ≤ now - e.ts) :
    serveKey cache now storeNow upstream key
      = fetchFresh cache storeNow upstream key (cache key) := by
  unfold serveKey
  cases he : cache key with
  | none => rfl
  | some e =>
    have h := hstale e he
    simp only [not_lt.mpr h, if_false]

/-- An error thrown by `fetchFromCoinGecko` either has no status, or carries a status that is
not an ok status together with a non-empty message. -/
theorem fetch_error_status {D : Type} (upstream : Str → UpstreamReply D) (key : Str)
    (err : JsError) (h : fetchFromCoinGecko upstream key = Except.error err) :
    err.status = none ∨
      ∃ s, err.status = some s ∧ ¬ (200 ≤ s ∧ s ≤ 299) ∧ err.message ≠ "" := by
  unfold fetchFromCoinGecko at h
  cases hu : upstream key with
  | threw message =>
    rw [hu] at h
    simp only [Except.error.injEq] at h
    left
    rw [← h]
  | response status text normalized =>
    rw [hu] at h
    by_cases hs : 200 ≤ status ∧ status ≤ 299
    · simp [hs] at h
    · simp only [hs, not_false_eq_true, if_true, Except.error.injEq] at h
      right
      refine ⟨status, ?_, hs, ?_⟩
      · rw [← h]
      · rw [← h]
        intro hm
        have hlen := congrArg String.length hm
        simp only [String.length_append] at hlen
        have h20 : "CoinGecko responded ".length = 20 := by decide
        have h0 : "".length = 0 := by decide
        omega

/-- The three possible results of the fetch block. -/
theorem fetchFresh_cases {D : Type} (cache : Cache D) (storeNow : Int)
    (upstream : Str → UpstreamReply D) (key : Str) (entry : Option (CacheEntry D)) :
    (∃ data, fetchFromCoinGecko upstream key = Except.ok data ∧
      fetchFresh cache storeNow upstream key entry =
        { response := { status := 200, body := Body.prices "coingecko" data none }
          cache := cache.set key { ts := storeNow, data := data }
          upstreamCalls := [key] }) ∨
    (∃ err e, fetchFromCoinGecko upstream key = Except.error err ∧ err.status = some 429 ∧
      entry = some e ∧
      fetchFresh cache storeNow upstream key entry =
        { response := { status := 200
                        body := Body.prices "stale-cache" e.data (some "rate_limited") }
          cache := cache
          upstreamCalls := [key] }) ∨
    (∃ err, fetchFromCoinGecko upstream key = Except.error err ∧
      (err.status ≠ some 429 ∨ entry = none) ∧
      fetchFresh cache storeNow upstream key entry =
        { response := { status := statusOr500 err.status
                        body := Body.error (messageOrFailed err.message) }
          cache := cache
          upstreamCalls := [key] }) := by
  unfold fetchFresh
  cases hf : fetchFromCoinGecko upstream key with
  | ok data => exact Or.inl ⟨data, rfl, rfl⟩
  | error err =>
    right
    by_cases h429 : err.status = some 429
    · cases entry with
      | none =>
        right
        refine ⟨err, rfl, Or.inr rfl, ?_⟩
        simp only [h429, if_true]
      | some e =>
        left
        refine ⟨err, e, rfl, h429, rfl, ?_⟩
        simp only [h429, if_true]
    · right
      refine ⟨err, rfl, Or.inl h429, ?_⟩
      simp only [h429, if_false]

theorem CACHE_TTL_eq : CACHE_TTL = 10000 := by decide

/-- Claim C12 (fresh cache hit).  For every cache state and every request whose key has an
entry `e`: if `now - e.ts < 10000`, the handler responds 200 with `e.data` tagged `"cache"`,
makes no upstream fetch and leaves the whole cache unchanged; if the age is 10000 ms or more,
the entry is not served this way: the upstream is called and the response is never tagged
`"cache"`. -/
theorem fresh_cache_hit {D : Type} (cache : Cache D) (now storeNow : Int)
    (upstream : Str → UpstreamReply D) (queryIds : Option Str) (key : Str) (e : CacheEntry D)
    (hkey : requestKey queryIds = some key) (he : cache key = some e) :
    (now - e.ts < 10000 →
      handler cache now storeNow upstream queryIds =
        { response := { status := 200, body := Body.prices "cache" e.data none }
          cache := cache
          upstreamCalls := [] }) ∧
    (10000 ≤ now - e.ts →
      (handler cache now storeNow upstream queryIds).upstreamCalls = [key] ∧
      ∀ d w, (handler cache now storeNow upstream queryIds).response.body
        ≠ Body.prices "cache" d w) := by
  rw [handler_of_requestKey cache now storeNow upstream queryIds key hkey]
  constructor
  · intro hfresh
    exact serveKey_fresh cache now storeNow upstream key e he (CACHE_TTL_eq ▸ hfresh)
  · intro hold
    have hstale : ∀ e2, cache key = some e2 → CACHE_TTL ≤ now - e2.ts := by
      intro e2 he2
      rw [he] at he2
      cases he2
      exact CACHE_TTL_eq ▸ hold
    rw [serveKey_not_fresh cache now storeNow upstream key hstale]
    rcases fetchFresh_cases cache storeNow upstream key (cache key) with
      ⟨data, -, h⟩ | ⟨err, e2, -, -, -, h⟩ | ⟨err, -, -, h⟩
    · rw [h]
      refine ⟨rfl, ?_⟩
      intro d w hb
      simp at hb
    · rw [h]
      refine ⟨rfl, ?_⟩
      intro d w hb
      simp at hb
    · rw [h]
      refine ⟨rfl, ?_⟩
      intro d w hb
      simp at hb

/-- Witness for C12: an entry stored at time 0 is served from the cache at time 9999. -/
theorem fresh_cache_hit_witness :
    handler (Cache.set emptyCache "eth".toList { ts := 0, data := 7 }) 9999 9999
        (fun _ => UpstreamReply.threw "down") (some " ETH ".toList) =
      { response := { status := 200, body := Body.prices "cache" 7 none }
        cache := Cache.set emptyCache "eth".toList { ts := 0, data := 7 }
        upstreamCalls := [] } :=
  (fresh_cache_hit (Cache.set emptyCache "eth".toList { ts := 0, data := 7 }) 9999 9999
    (fun _ => UpstreamReply.threw "down") (some " ETH ".toList) "eth".toList
    { ts := 0, data := 7 } (by decide) (by decide)).1 (by decide)

/-- Claim C13 (successful refetch).  For every request whose key has no entry or an entry of
age at least 10000 ms, if the upstream fetch succeeds with `data`, the handler responds 200
with `data`, and afterwards the cache maps the key to the entry `{ ts := storeNow, data }`
(the time of the fetch; a fresh entry, served from the cache by any later call made less than
10000 ms after `storeNow`), while the entries of all other keys are unchanged. -/
theorem successful_refetch {D : Type} (cache : Cache D) (now storeNow : Int)
    (upstream : Str → UpstreamReply D) (queryIds : Option Str) (key : Str) (data : D)
    (hkey : requestKey queryIds = some key)
    (hstale : ∀ e, cache key = some e → 10000 ≤ now - e.ts)
    (hfetch : fetchFromCoinGecko upstream key = Except.ok data) :
    (handler cache now storeNow upstream queryIds).response
      = { status := 200, body := Body.prices "coingecko" data none } ∧
    (handler cache now storeNow upstream queryIds).upstreamCalls = [key] ∧
    (handler cache now storeNow upstream queryIds).cache key
      = some { ts := storeNow, data := data } ∧
    (∀ k, k ≠ key → (handler cache now storeNow upstream queryIds).cache k = cache k) ∧
    (∀ (later storeLater : Int) (upstreamLater : Str → UpstreamReply D),
      later - storeNow < 10000 →
      (handler (handler cache now storeNow upstream queryIds).cache later storeLater
          upstreamLater queryIds).response
        = { status := 200, body := Body.prices "cache" data none }) := by
  have hstale2 : ∀ e, cache key = some e → CACHE_TTL ≤ now - e.ts := by
    intro e he
    exact CACHE_TTL_eq ▸ hstale e he
  have hout : handler cache now storeNow upstream queryIds =
      { response := { status := 200, body := Body.prices "coingecko" data none }
        cache := cache.set key { ts := storeNow, data := data }
        upstreamCalls := [key] } := by
    rw [handler_of_requestKey cache now storeNow upstream queryIds key hkey,
      serveKey_not_fresh cache now storeNow upstream key hstale2]
    unfold fetchFresh
    rw [hfetch]
  rw [hout]
  have hset : (cache.set key { ts := storeNow, data := data }) key
      = some { ts := storeNow, data := data } := by
    unfold Cache.set
    simp only [if_true]
  refine ⟨rfl, rfl, hset, ?_, ?_⟩
  · intro k hk
    show (cache.set key { ts := storeNow, data := data }) k = cache k
    unfold Cache.set
    simp only [hk, if_false]
  · intro later storeLater upstreamLater hlater
    show (handler (cache.set key { ts := storeNow, data := data }) later storeLater
      upstreamLater queryIds).response = _
    rw [handler_of_requestKey _ later storeLater upstreamLater queryIds key hkey,
      serveKey_fresh _ later storeLater upstreamLater key { ts := storeNow, data := data } hset
        (CACHE_TTL_eq ▸ hlater)]

/-- Witness for C13: a cold cache and an upstream answering 200. -/
theorem successful_refetch_witness :
    (handler (emptyCache : Cache Nat) 50 60 (fun _ => UpstreamReply.response 200 "" 7)
        (some "eth,sol".toList)).cache "eth,sol".toList = some { ts := 60, data := 7 } :=
  (successful_refetch (emptyCache : Cache Nat) 50 60 (fun _ => UpstreamReply.response 200 "" 7)
    (some "eth,sol".toList) "eth,sol".toList 7 (by decide)
    (by intro e he; exact absurd he (by simp [emptyCache])) rfl).2.2.1

/-- Claim C14 (stale fallback).  For every request whose key has a prior entry `e` of any age
of at least 10000 ms (however old), if the upstream fetch fails with status 429 the handler
does not fail: it responds 200 with `e.data` and warning `"rate_limited"`, and the cache is left
unchanged (the entry is neither refreshed nor evicted). -/
theorem stale_fallback {D : Type} (cache : Cache D) (now storeNow : Int)
    (upstream : Str → UpstreamReply D) (queryIds : Option Str) (key : Str) (e : CacheEntry D)
    (err : JsError)
    (hkey : requestKey queryIds = some key) (he : cache key = some e)
    (hold : 10000 ≤ now - e.ts)
    (hfetch : fetchFromCoinGecko upstream key = Except.error err)
    (h429 : err.status = some 429) :
    handler cache now storeNow upstream queryIds =
      { response := { status := 200
                      body := Body.prices "stale-cache" e.data (some "rate_limited") }
        cache := cache
        upstreamCalls := [key] } ∧
    (handler cache now storeNow upstream queryIds).cache key = some e := by
  have hstale : ∀ e2, cache key = some e2 → CACHE_TTL ≤ now - e2.ts := by
    intro e2 he2
    rw [he] at he2
    cases he2
    exact CACHE_TTL_eq ▸ hold
  have hout : handler cache now storeNow upstream queryIds =
      { response := { status := 200
                      body := Body.prices "stale-cache" e.data (some "rate_limited") }
        cache := cache
        upstreamCalls := [key] } := by
    rw [handler_of_requestKey cache now storeNow upstream queryIds key hkey,
      serveKey_not_fresh cache now storeNow upstream key hstale]
    unfold fetchFresh
    rw [hfetch]
    simp only [h429, if_true, he]
  rw [hout]
  exact ⟨rfl, he⟩

/-- Witness for C14: an entry stored at time 0, requested at time 999999 while the upstream
answers 429. -/
theorem stale_fallback_witness :
    handler (Cache.set emptyCache "eth".toList { ts := 0, data := 7 }) 999999 999999
        (fun _ => UpstreamReply.response 429 "slow down" 0) (some "eth".toList) =
      { response := { status := 200
                      body := Body.prices "stale-cache" 7 (some "rate_limited") }
        cache := Cache.set emptyCache "eth".toList { ts := 0, data := 7 }
        upstreamCalls := ["eth".toList] } :=
  (stale_fallback (Cache.set emptyCache "eth".toList { ts := 0, data := 7 }) 999999 999999
    (fun _ => UpstreamReply.response 429 "slow down" 0) (some "eth".toList) "eth".toList
    { ts := 0, data := 7 }
    { status := some 429, message := "CoinGecko responded " ++ toString 429 ++ ": " ++ "slow down" }
    (by decide) (by decide) (by decide) rfl rfl).1

/-- Claim C15 (failure propagation).  When there is no fresh entry, the upstream fetch fails
with `err`, and either the failure status is not 429 or the key has no prior entry (a 429 with
an empty cache included), the handler responds with the error body `{ error }` and status
`err.status || 500`, never with prices, and the cache is left unchanged.  The status is the
upstream status when the error has one (a non-zero status, as every HTTP status is) and 500
when it has none; the error text is `err.message` whenever the message is non-empty, which is
always the case for an error carrying an upstream status. -/
theorem failure_propagation {D : Type} (cache : Cache D) (now storeNow : Int)
    (upstream : Str → UpstreamReply D) (queryIds : Option Str) (key : Str) (err : JsError)
    (hkey : requestKey queryIds = some key)
    (hstale : ∀ e, cache key = some e → 10000 ≤ now - e.ts)
    (hfetch : fetchFromCoinGecko upstream key = Except.error err)
    (hcase : err.status ≠ some 429 ∨ cache key = none) :
    handler cache now storeNow upstream queryIds =
      { response := { status := statusOr500 err.status
                      body := Body.error (messageOrFailed err.message) }
        cache := cache
        upstreamCalls := [key] } ∧
    (∀ s, err.status = some s → s ≠ 0 →
      (handler cache now storeNow upstream queryIds).response
        = { status := s, body := Body.error err.message }) ∧
    (err.status = none →
      (handler cache now storeNow upstream queryIds).response.status = 500) ∧
    (err.message ≠ "" →
      (handler cache now storeNow upstream queryIds).response.body = Body.error err.message) ∧
    (∀ src d w, (handler cache now storeNow upstream queryIds).response.body
      ≠ Body.prices src d w) ∧
    (handler cache now storeNow upstream queryIds).cache = cache := by
  have hstale2 : ∀ e, cache key = some e → CACHE_TTL ≤ now - e.ts := by
    intro e he
    exact CACHE_TTL_eq ▸ hstale e he
  have hout : handler cache now storeNow upstream queryIds =
      { response := { status := statusOr500 err.status
                      body := Body.error (messageOrFailed err.message) }
        cache := cache
        upstreamCalls := [key] } := by
    rw [handler_of_requestKey cache now storeNow upstream queryIds key hkey,
      serveKey_not_fresh cache now storeNow upstream key hstale2]
    unfold fetchFresh
    rw [hfetch]
    rcases hcase with h | h
    · simp only [h, if_false]
    · rw [h]
      simp only [ite_self]
  rw [hout]
  refine ⟨rfl, ?_, ?_, ?_, ?_, rfl⟩
  · intro s hs hs0
    have hmsg : err.message ≠ "" := by
      rcases fetch_error_status upstream key err hfetch with h | ⟨s2, -, -, h⟩
      · rw [hs] at h
        cases h
      · exact h
    simp only [hs, statusOr500, hs0, if_false, messageOrFailed, hmsg]
  · intro hs
    simp only [hs, statusOr500]
  · intro hmsg
    simp only [messageOrFailed, hmsg, if_false]
  · intro src d w hb
    simp at hb

/-- Witness for C15: a cold cache and an upstream answering 429. -/
theorem failure_propagation_witness :
    (handler (emptyCache : Cache Nat) 5 5 (fun _ => UpstreamReply.response 429 "slow down" 0)
        (some "eth".toList)).response
      = { status := 429
          body := Body.error
            ("CoinGecko responded " ++ toString 429 ++ ": " ++ "slow down") } :=
  (failure_propagation (emptyCache : Cache Nat) 5 5
    (fun _ => UpstreamReply.response 429 "slow down" 0) (some "eth".toList) "eth".toList
    { status := some 429, message := "CoinGecko responded " ++ toString 429 ++ ": " ++ "slow down" }
    (by decide) (by intro e he; exact absurd he (by simp [emptyCache])) rfl
    (Or.inr rfl)).2.1 429 rfl (by decide)

/-- Claim C16 (cache TTL over a sequence of requests).  Start from the empty cache with an
upstream that succeeds with `data`; the first call fetches and stores the entry at `store1`.
A second call for the same key made less than 10000 ms after `store1` issues no upstream call
(one call in total) and returns the same data; a further call made when the age of the entry
is at least 10000 ms issues a second upstream call. -/
theorem cache_ttl_sequence {D : Type} (now1 store1 now2 store2 now3 store3 : Int)
    (up1 up2 up3 : Str → UpstreamReply D) (q1 q2 q3 : Option Str) (key : Str) (data : D)
    (hk1 : requestKey q1 = some key) (hk2 : requestKey q2 = some key)
    (hk3 : requestKey q3 = some key)
    (hfetch : fetchFromCoinGecko up1 key = Except.ok data)
    (hwithin : now2 - store1 < 10000) (hafter : 10000 ≤ now3 - store1) :
    (handler emptyCache now1 store1 up1 q1).response
      = { status := 200, body := Body.prices "coingecko" data none } ∧
    (handler (handler emptyCache now1 store1 up1 q1).cache now2 store2 up2 q2).response
      = { status := 200, body := Body.prices "cache" data none } ∧
    (handler emptyCache now1 store1 up1 q1).upstreamCalls
      ++ (handler (handler emptyCache now1 store1 up1 q1).cache now2 store2 up2 q2).upstreamCalls
      = [key] ∧
    (handler (handler (handler emptyCache now1 store1 up1 q1).cache now2 store2 up2 q2).cache
      now3 store3 up3 q3).upstreamCalls = [key] := by
  have hnone : ∀ e : CacheEntry D, (emptyCache : Cache D) key = some e →
      CACHE_TTL ≤ now1 - e.ts := by
    intro e he
    simp [emptyCache] at he
  have h1 : handler emptyCache now1 store1 up1 q1 =
      { response := { status := 200, body := Body.prices "coingecko" data none }
        cache := (emptyCache : Cache D).set key { ts := store1, data := data }
        upstreamCalls := [key] } := by
    rw [handler_of_requestKey _ now1 store1 up1 q1 key hk1,
      serveKey_not_fresh _ now1 store1 up1 key hnone]
    unfold fetchFresh
    rw [hfetch]
  have hset : ((emptyCache : Cache D).set key { ts := store1, data := data }) key
      = some { ts := store1, data := data } := by
    unfold Cache.set
    simp only [if_true]
  have h2 : handler ((emptyCache : Cache D).set key { ts := store1, data := data })
      now2 store2 up2 q2 =
      { response := { status := 200, body := Body.prices "cache" data none }
        cache := (emptyCache : Cache D).set key { ts := store1, data := data }
        upstreamCalls := [] } := by
    rw [handler_of_requestKey _ now2 store2 up2 q2 key hk2,
      serveKey_fresh _ now2 store2 up2 key { ts := store1, data := data } hset
        (CACHE_TTL_eq ▸ hwithin)]
  have hstale3 : ∀ e : CacheEntry D,
      ((emptyCache : Cache D).set key { ts := store1, data := data }) key = some e →
      CACHE_TTL ≤ now3 - e.ts := by
    intro e he
    rw [hset] at he
    cases he
    exact CACHE_TTL_eq ▸ hafter
  rw [h1]
  show _ ∧ (handler ((emptyCache : Cache D).set key { ts := store1, data := data })
      now2 store2 up2 q2).response = _ ∧
    [key] ++ (handler ((emptyCache : Cache D).set key { ts := store1, data := data })
      now2 store2 up2 q2).upstreamCalls = [key] ∧
    (handler (handler ((emptyCache : Cache D).set key { ts := store1, data := data })
      now2 store2 up2 q2).cache now3 store3 up3 q3).upstreamCalls = [key]
  rw [h2]
  refine ⟨rfl, rfl, rfl, ?_⟩
  show (handler ((emptyCache : Cache D).set key { ts := store1, data := data })
      now3 store3 up3 q3).upstreamCalls = [key]
  rw [handler_of_requestKey _ now3 store3 up3 q3 key hk3,
    serveKey_not_fresh _ now3 store3 up3 key hstale3]
  rcases fetchFresh_cases ((emptyCache : Cache D).set key { ts := store1, data := data })
      store3 up3 key
      (((emptyCache : Cache D).set key { ts := store1, data := data }) key) with
    ⟨d, -, h⟩ | ⟨err, e2, -, -, -, h⟩ | ⟨err, -, -, h⟩
  · rw [h]
  · rw [h]
  · rw [h]

/-- Witness for C16: calls at times 0, 9999 and 10005 (entry stored at time 5). -/
theorem cache_ttl_sequence_witness :
    (handler (emptyCache : Cache Nat) 0 5 (fun _ => UpstreamReply.response 200 "" 7)
        (some "eth".toList)).upstreamCalls
      ++ (handler (handler (emptyCache : Cache Nat) 0 5
            (fun _ => UpstreamReply.response 200 "" 7) (some "eth".toList)).cache
          9999 9999 (fun _ => UpstreamReply.threw "down") (some "ETH".toList)).upstreamCalls
      = ["eth".toList] :=
  (cache_ttl_sequence 0 5 9999 9999 10005 10005 (fun _ => UpstreamReply.response 200 "" 7)
    (fun _ => UpstreamReply.threw "down") (fun _ => UpstreamReply.response 200 "" 8)
    (some "eth".toList) (some "ETH".toList) (some "eth".toList) "eth".toList 7
    (by decide) (by decide) (by decide) rfl (by decide) (by decide)).2.2.1

/-- Claim C17 as stated fails: after a successful upstream fetch the 200 response carries the
source tag `"coingecko"`, which is none of `"cache"`, `"fetched"`, `"stale-fallback"`. -/
theorem source_tag_counterexample :
    (handler (emptyCache : Cache Nat) 0 0 (fun _ => UpstreamReply.response 200 "" 7)
        (some "ethereum".toList)).response
      = { status := 200, body := Body.prices "coingecko" 7 none } ∧
    "coingecko" ≠ "cache" ∧ "coingecko" ≠ "fetched" ∧ "coingecko" ≠ "stale-fallback" := by
  refine ⟨?_, by decide, by decide, by decide⟩
  decide

/-- Claim C17, amended.  Every 200 response of the handler carries a source tag that is one of
`"cache"`, `"coingecko"` or `"stale-cache"`: `"cache"` for a fresh hit (no upstream call),
`"coingecko"` after a successful upstream fetch, and `"stale-cache"` together with the warning
`"rate_limited"` when prior data is served after an upstream 429. -/
theorem source_tags {D : Type} (cache : Cache D) (now storeNow : Int)
    (upstream : Str → UpstreamReply D) (queryIds : Option Str)
    (h200 : (handler cache now storeNow upstream queryIds).response.status = 200) :
    (∃ key e, requestKey queryIds = some key ∧ cache key = some e ∧ now - e.ts < 10000 ∧
      (handler cache now storeNow upstream queryIds).response.body
        = Body.prices "cache" e.data none ∧
      (handler cache now storeNow upstream queryIds).upstreamCalls = []) ∨
    (∃ key data, requestKey queryIds = some key ∧
      fetchFromCoinGecko upstream key = Except.ok data ∧
      (handler cache now storeNow upstream queryIds).response.body
        = Body.prices "coingecko" data none) ∨
    (∃ key e err, requestKey queryIds = some key ∧ cache key = some e ∧
      fetchFromCoinGecko upstream key = Except.error err ∧ err.status = some 429 ∧
      (handler cache now storeNow upstream queryIds).response.body
        = Body.prices "stale-cache" e.data (some "rate_limited")) := by
  cases hk : requestKey queryIds with
  | none =>
    have h := (handler_of_no_key cache now storeNow upstream queryIds hk).1
    rw [h] at h200
    exact absurd h200 (by decide)
  | some key =>
    rw [handler_of_requestKey cache now storeNow upstream queryIds key hk] at h200 ⊢
    by_cases hfresh : ∃ e, cache key = some e ∧ now - e.ts < CACHE_TTL
    · obtain ⟨e, he, hlt⟩ := hfresh
      left
      rw [serveKey_fresh cache now storeNow upstream key e he hlt]
      exact ⟨key, e, rfl, he, CACHE_TTL_eq ▸ hlt, rfl, rfl⟩
    · have hstale : ∀ e, cache key = some e → CACHE_TTL ≤ now - e.ts := by
        intro e he
        by_contra hcon
        exact hfresh ⟨e, he, not_le.mp hcon⟩
      rw [serveKey_not_fresh cache now storeNow upstream key hstale] at h200 ⊢
      right
      rcases fetchFresh_cases cache storeNow upstream key (cache key) with
        ⟨d, hf, h⟩ | ⟨err, e2, hf, h429, he2, h⟩ | ⟨err, hf, -, h⟩
      · left
        rw [h]
        exact ⟨key, d, rfl, hf, rfl⟩
      · right
        rw [h]
        exact ⟨key, e2, err, rfl, he2, hf, h429, rfl⟩
      · exfalso
        rw [h] at h200
        simp only [] at h200
        rcases fetch_error_status upstream key err hf with hs | ⟨s, hs, hnok, -⟩
        · rw [hs] at h200
          simp [statusOr500] at h200
        · rw [hs] at h200
          unfold statusOr500 at h200
          simp only [] at h200
          split_ifs at h200 with h0
          · omega
          · omega

/-- Witness for the amended C17: a stale entry served after an upstream 429. -/
theorem source_tags_witness :
    ∃ key e err, requestKey (some "eth".toList) = some key ∧
      (Cache.set emptyCache "eth".toList { ts := 0, data := 7 }) key = some e ∧
      fetchFromCoinGecko (fun _ => UpstreamReply.response 429 "slow down" 0) key
        = Except.error err ∧ err.status = some 429 ∧
      (handler (Cache.set emptyCache "eth".toList { ts := 0, data := 7 }) 999999 999999
        (fun _ => UpstreamReply.response 429 "slow down" 0) (some "eth".toList)).response.body
        = Body.prices "stale-cache" e.data (some "rate_limited") := by
  have h := source_tags (Cache.set emptyCache "eth".toList { ts := 0, data := 7 }) 999999 999999
    (fun _ => UpstreamReply.response 429 "slow down" 0) (some "eth".toList) (by decide)
  have hbody : (handler (Cache.set emptyCache "eth".toList { ts := 0, data := 7 }) 999999
      999999 (fun _ => UpstreamReply.response 429 "slow down" 0)
      (some "eth".toList)).response.body
      = Body.prices "stale-cache" 7 (some "rate_limited") := by decide
  rcases h with ⟨key, e, -, -, -, hb, -⟩ | ⟨key, d, -, -, hb⟩ | h
  · rw [hbody] at hb
    simp at hb
  · rw [hbody] at hb
    simp at hb
  · exact h

/-! ## Price aggregator: strings -/

/-- How `Char.toLower` acts: it fixes every character that is not an upper-case basic Latin
letter, and adds 32 to the code of one that is. -/
theorem toLower_cases (c : Char) :
    (c.toLower = c ∧ ¬ (65 ≤ c.toNat ∧ c.toNat ≤ 90)) ∨
    (65 ≤ c.toNat ∧ c.toNat ≤ 90 ∧ c.toLower.toNat = c.toNat + 32) := by
  by_cases h : 65 ≤ c.toNat ∧ c.toNat ≤ 90
  · right
    refine ⟨h.1, h.2, ?_⟩
    have e : c.toLower = Char.ofNat (c.toNat + 32) := by
      unfold Char.toLower
      simp only [ge_iff_le, h, and_self, if_true]
    rw [e]
    obtain ⟨h1, h2⟩ := h
    generalize c.toNat = n at h1 h2
    interval_cases n <;> rfl
  · left
    refine ⟨?_, h⟩
    unfold Char.toLower
    simp only [ge_iff_le, h, if_false]

theorem toLower_idem (c : Char) : c.toLower.toLower = c.toLower := by
  rcases toLower_cases c with ⟨h, -⟩ | ⟨h1, h2, h3⟩
  · rw [h, h]
  · rcases toLower_cases c.toLower with ⟨h, -⟩ | ⟨h4, h5, -⟩
    · exact h
    · omega

theorem isTrimChar_toLower (c : Char) : isTrimChar c.toLower = isTrimChar c := by
  rcases toLower_cases c with ⟨h, -⟩ | ⟨h1, h2, h3⟩
  · rw [h]
  · have a : isTrimChar c = false := by
      unfold isTrimChar
      simp only [Bool.or_eq_false_iff, decide_eq_false_iff_not, Bool.and_eq_false_imp,
        decide_eq_true_eq]
      omega
    have b : isTrimChar c.toLower = false := by
      unfold isTrimChar
      simp only [Bool.or_eq_false_iff, decide_eq_false_iff_not, Bool.and_eq_false_imp,
        decide_eq_true_eq]
      omega
    rw [a, b]

theorem toLower_eq_comma (c : Char) : c.toLower = ',' ↔ c = ',' := by
  have h44 : (',' : Char).toNat = 44 := rfl
  rcases toLower_cases c with ⟨h, -⟩ | ⟨h1, h2, h3⟩
  · rw [h]
  · constructor
    · intro h
      rw [h] at h3
      omega
    · intro h
      rw [h] at h1
      omega

theorem splitComma_cons_comma (cs : Str) : splitComma (',' :: cs) = [] :: splitComma cs := by
  simp only [splitComma, if_true]

theorem splitComma_cons_ne (c : Char) (cs : Str) (h : c ≠ ',') :
    ∃ p ps, splitComma cs = p :: ps ∧ splitComma (c :: cs) = (c :: p) :: ps := by
  cases hs : splitComma cs with
  | nil =>
    exfalso
    cases cs with
    | nil => simp [splitComma] at hs
    | cons d ds =>
      unfold splitComma at hs
      split_ifs at hs
      split at hs <;> simp at hs
  | cons p ps =>
    refine ⟨p, ps, rfl, ?_⟩
    simp only [splitComma, h, if_false, hs]

theorem splitComma_noComma (p : Str) (h : ',' ∉ p) : splitComma p = [p] := by
  induction p with
  | nil => rfl
  | cons c cs ih =>
    have hc : c ≠ ',' := fun e => h (e ▸ List.mem_cons_self _ _)
    have hcs : ',' ∉ cs := fun e => h (List.mem_cons_of_mem _ e)
    obtain ⟨q, qs, h1, h2⟩ := splitComma_cons_ne c cs hc
    rw [ih hcs] at h1
    cases h1
    exact h2

theorem splitComma_append (p rest : Str) (h : ',' ∉ p) :
    splitComma (p ++ ',' :: rest) = p :: splitComma rest := by
  induction p with
  | nil => exact splitComma_cons_comma rest
  | cons c cs ih =>
    have hc : c ≠ ',' := fun e => h (e ▸ List.mem_cons_self _ _)
    have hcs : ',' ∉ cs := fun e => h (List.mem_cons_of_mem _ e)
    obtain ⟨q, qs, h1, h2⟩ := splitComma_cons_ne c (cs ++ ',' :: rest) hc
    rw [ih hcs] at h1
    cases h1
    exact h2

theorem splitComma_joinComma (ps : List Str) (hne : ps ≠ []) (h : ∀ p ∈ ps, ',' ∉ p) :
    splitComma (joinComma ps) = ps := by
  induction ps with
  | nil => exact absurd rfl hne
  | cons p qs ih =>
    cases qs with
    | nil => exact splitComma_noComma p (h p (List.mem_cons_self _ _))
    | cons q rs =>
      have e : joinComma (p :: q :: rs) = p ++ ',' :: joinComma (q :: rs) := rfl
      rw [e, splitComma_append p _ (h p (List.mem_cons_self _ _)),
        ih (List.cons_ne_nil _ _) (fun x hx => h x (List.mem_cons_of_mem _ hx))]

theorem splitComma_pieces_noComma (s : Str) : ∀ p ∈ splitComma s, ',' ∉ p := by
  induction s with
  | nil =>
    intro p hp
    simp [splitComma] at hp
    simp [hp]
  | cons c cs ih =>
    by_cases hc : c = ','
    · subst hc
      rw [splitComma_cons_comma]
      intro p hp
      rcases List.mem_cons.mp hp with h | h
      · simp [h]
      · exact ih p h
    · obtain ⟨q, qs, h1, h2⟩ := splitComma_cons_ne c cs hc
      rw [h2]
      rw [h1] at ih
      intro p hp
      rcases List.mem_cons.mp hp with h | h
      · rw [h]
        intro hm
        rcases List.mem_cons.mp hm with h3 | h3
        · exact hc h3.symm
        · exact ih q (List.mem_cons_self _ _) h3
      · exact ih p (List.mem_cons_of_mem _ h)

theorem splitComma_mem_iff (s : Str) (c : Char) :
    (∃ p ∈ splitComma s, c ∈ p) ↔ (c ∈ s ∧ c ≠ ',') := by
  induction s with
  | nil => simp [splitComma]
  | cons d ds ih =>
    by_cases hd : d = ','
    · subst hd
      rw [splitComma_cons_comma]
      simp only [List.mem_cons, exists_eq_or_imp, List.not_mem_nil, false_or]
      rw [ih]
      constructor
      · rintro ⟨h1, h2⟩
        exact ⟨Or.inr h1, h2⟩
      · rintro ⟨h1 | h1, h2⟩
        · exact absurd h1 h2
        · exact ⟨h1, h2⟩
    · obtain ⟨q, qs, h1, h2⟩ := splitComma_cons_ne d ds hd
      rw [h2]
      rw [h1] at ih
      simp only [List.mem_cons, exists_eq_or_imp] at ih ⊢
      constructor
      · rintro ((h | h) | h)
        · exact ⟨Or.inl h, h ▸ hd⟩
        · have := ih.mp (Or.inl h)
          exact ⟨Or.inr this.1, this.2⟩
        · have := ih.mp (Or.inr h)
          exact ⟨Or.inr this.1, this.2⟩
      · rintro ⟨h | h, hne⟩
        · exact Or.inl (Or.inl h)
        · rcases ih.mpr ⟨h, hne⟩ with h3 | h3
          · exact Or.inl (Or.inr h3)
          · exact Or.inr h3

theorem splitComma_map_toLower (s : Str) :
    splitComma (s.map Char.toLower) = (splitComma s).map (List.map Char.toLower) := by
  induction s with
  | nil => rfl
  | cons c cs ih =>
    by_cases hc : c = ','
    · subst hc
      have e : (',' : Char).toLower = ',' := rfl
      rw [List.map_cons, e, splitComma_cons_comma, splitComma_cons_comma, ih, List.map_cons,
        List.map_nil]
    · have hc2 : c.toLower ≠ ',' := fun e => hc ((toLower_eq_comma c).mp e)
      obtain ⟨q, qs, h1, h2⟩ := splitComma_cons_ne c cs hc
      obtain ⟨q2, qs2, h3, h4⟩ := splitComma_cons_ne c.toLower (cs.map Char.toLower) hc2
      rw [List.map_cons, h4, h2]
      rw [ih, h1] at h3
      simp only [List.map_cons, List.cons.injEq] at h3
      obtain ⟨e1, e2⟩ := h3
      subst e1 e2
      rfl

theorem trim_eq_rdropWhile (s : Str) :
    trim s = (s.dropWhile isTrimChar).rdropWhile isTrimChar := rfl

theorem trim_eq_nil_iff (s : Str) : trim s = [] ↔ ∀ c ∈ s, isTrimChar c = true := by
  rw [trim_eq_rdropWhile, List.rdropWhile_eq_nil_iff]
  constructor
  · intro h
    have h2 : List.dropWhile isTrimChar (List.dropWhile isTrimChar s) = [] :=
      List.dropWhile_eq_nil_iff.mpr h
    rw [List.dropWhile_idempotent] at h2
    exact List.dropWhile_eq_nil_iff.mp h2
  · intro h
    rw [List.dropWhile_eq_nil_iff.mpr h]
    intro x hx
    exact absurd hx (List.not_mem_nil x)

theorem mem_of_mem_trim (s : Str) (c : Char) (h : c ∈ trim s) : c ∈ s := by
  rw [trim_eq_rdropWhile] at h
  exact (List.dropWhile_sublist isTrimChar).subset
    ((List.rdropWhile_prefix isTrimChar _).sublist.subset h)

/-- Dropping leading characters does nothing to a list that does not start with one of them. -/
theorem dropWhile_of_head {p : Char → Bool} (l : Str)
    (h : ∀ c, l.head? = some c → p c = false) : l.dropWhile p = l := by
  cases l with
  | nil => rfl
  | cons a as =>
    have ha : p a = false := h a rfl
    simp [List.dropWhile_cons, ha]

theorem head_dropWhile {p : Char → Bool} (l : Str) (c : Char)
    (h : (l.dropWhile p).head? = some c) : p c = false := by
  induction l with
  | nil => simp at h
  | cons a as ih =>
    by_cases ha : p a = true
    · rw [List.dropWhile_cons_of_pos ha] at h
      exact ih h
    · rw [List.dropWhile_cons_of_neg ha] at h
      simp only [List.head?_cons, Option.some.injEq] at h
      rw [← h]
      simpa using ha

theorem prefix_head_eq (u t : Str) (c : Char) (hp : u <+: t) (h : u.head? = some c) :
    t.head? = some c := by
  obtain ⟨v, rfl⟩ := hp
  cases u with
  | nil => simp at h
  | cons a as => simpa using h

theorem trim_trim (s : Str) : trim (trim s) = trim s := by
  have h1 : (trim s).dropWhile isTrimChar = trim s := by
    apply dropWhile_of_head
    intro c hc
    rw [trim_eq_rdropWhile] at hc
    exact head_dropWhile s c (prefix_head_eq _ _ c (List.rdropWhile_prefix isTrimChar _) hc)
  rw [trim_eq_rdropWhile (trim s), h1, trim_eq_rdropWhile, List.rdropWhile_idempotent]

theorem trim_map_toLower (s : Str) :
    trim (s.map Char.toLower) = (trim s).map Char.toLower := by
  have hcomp : (isTrimChar ∘ Char.toLower) = isTrimChar := funext isTrimChar_toLower
  unfold trim
  rw [List.dropWhile_map, hcomp, ← List.map_reverse, List.dropWhile_map, hcomp,
    ← List.map_reverse]

theorem trim_pad (w1 x w2 : Str) (h1 : ∀ c ∈ w1, isTrimChar c = true)
    (h2 : ∀ c ∈ w2, isTrimChar c = true) : trim (w1 ++ x ++ w2) = trim x := by
  have hr : ∀ c ∈ w2.reverse, isTrimChar c = true := fun c hc => h2 c (List.mem_reverse.mp hc)
  unfold trim
  rw [List.append_assoc, List.dropWhile_append_of_pos h1]
  by_cases hx : ∀ c ∈ x, isTrimChar c = true
  · have hall : ∀ c ∈ x ++ w2, isTrimChar c = true := by
      intro c hc
      rcases List.mem_append.mp hc with h | h
      · exact hx c h
      · exact h2 c h
    rw [List.dropWhile_eq_nil_iff.mpr hall, List.dropWhile_eq_nil_iff.mpr hx]
  · have hne : List.dropWhile isTrimChar x ≠ [] := fun e => hx (List.dropWhile_eq_nil_iff.mp e)
    have e : List.dropWhile isTrimChar (x ++ w2) = List.dropWhile isTrimChar x ++ w2 := by
      rw [List.dropWhile_append]
      simp [hne]
    rw [e, List.reverse_append, List.dropWhile_append_of_pos hr]

/-- The normalisation `s.trim().toLowerCase()` of one item. -/
theorem normItem_fixed (s : Str) :
    trim (toLowerCase (trim s)) = toLowerCase (trim s) ∧
    toLowerCase (toLowerCase (trim s)) = toLowerCase (trim s) := by
  unfold toLowerCase
  constructor
  · rw [trim_map_toLower, trim_trim]
  · rw [List.map_map]
    congr 1
    exact funext toLower_idem

theorem normItem_noComma (s : Str) (h : ',' ∉ s) : ',' ∉ toLowerCase (trim s) := by
  unfold toLowerCase
  intro hm
  obtain ⟨c, hc, hce⟩ := List.mem_map.mp hm
  rw [(toLower_eq_comma c).mp hce] at hc
  exact h (mem_of_mem_trim s _ hc)

theorem normItem_eq_nil_iff (s : Str) :
    toLowerCase (trim s) = [] ↔ ∀ c ∈ s, isTrimChar c = true := by
  unfold toLowerCase
  rw [List.map_eq_nil_iff, trim_eq_nil_iff]

theorem normItem_toLowerCase (s : Str) :
    toLowerCase (trim (toLowerCase s)) = toLowerCase (trim s) := by
  unfold toLowerCase
  rw [trim_map_toLower, List.map_map]
  congr 1
  exact funext toLower_idem

/-- Every identifier kept by `normalizeIds` is non-empty, lower-case, trimmed and free of
commas. -/
theorem normalizeIds_mem (s : Str) (id : Str) (h : id ∈ normalizeIds s) :
    id ≠ [] ∧ toLowerCase id = id ∧ trim id = id ∧ ',' ∉ id := by
  unfold normalizeIds at h
  obtain ⟨h1, h2⟩ := List.mem_filter.mp h
  obtain ⟨p, hp, rfl⟩ := List.mem_map.mp h1
  refine ⟨?_, (normItem_fixed p).2, (normItem_fixed p).1,
    normItem_noComma p (splitComma_pieces_noComma s p hp)⟩
  intro e
  rw [e] at h2
  simp at h2

/-- The normalised list of a comma-join of comma-free items. -/
theorem normalizeIds_joinComma (ps : List Str) (h : ∀ p ∈ ps, ',' ∉ p) :
    normalizeIds (joinComma ps)
      = (ps.map (fun s => toLowerCase (trim s))).filter (fun s => !s.isEmpty) := by
  cases ps with
  | nil => decide
  | cons p qs =>
    unfold normalizeIds
    rw [splitComma_joinComma (p :: qs) (List.cons_ne_nil _ _) h]

theorem normalizeIds_idem (s : Str) :
    normalizeIds (joinComma (normalizeIds s)) = normalizeIds s := by
  rw [normalizeIds_joinComma _ (fun p hp => (normalizeIds_mem s p hp).2.2.2)]
  have hmap : (normalizeIds s).map (fun s => toLowerCase (trim s)) = normalizeIds s := by
    conv_rhs => rw [← List.map_id (normalizeIds s)]
    apply List.map_congr_left
    intro p hp
    obtain ⟨-, h1, h2, -⟩ := normalizeIds_mem s p hp
    rw [h2, h1]
    rfl
  rw [hmap]
  apply List.filter_eq_self.mpr
  intro p hp
  have := (normalizeIds_mem s p hp).1
  cases p with
  | nil => exact absurd rfl this
  | cons a as => rfl

theorem normalizeIds_eq_nil_iff (s : Str) :
    normalizeIds s = [] ↔ ∀ c ∈ s, c = ',' ∨ isTrimChar c = true := by
  unfold normalizeIds
  rw [List.filter_eq_nil_iff]
  constructor
  · intro h c hc
    by_cases hcomma : c = ','
    · exact Or.inl hcomma
    · right
      obtain ⟨p, hp, hcp⟩ := (splitComma_mem_iff s c).mpr ⟨hc, hcomma⟩
      have h1 := h (toLowerCase (trim p)) (List.mem_map.mpr ⟨p, hp, rfl⟩)
      have h2 : toLowerCase (trim p) = [] := by
        cases hq : toLowerCase (trim p) with
        | nil => rfl
        | cons a as =>
          rw [hq] at h1
          simp at h1
      exact (normItem_eq_nil_iff p).mp h2 c hcp
  · intro h q hq
    obtain ⟨p, hp, rfl⟩ := List.mem_map.mp hq
    have h2 : toLowerCase (trim p) = [] := by
      rw [normItem_eq_nil_iff]
      intro c hc
      have hmem := (splitComma_mem_iff s c).mp ⟨p, hp, hc⟩
      rcases h c hmem.1 with h3 | h3
      · exact absurd h3 hmem.2
      · exact h3
    rw [h2]
    simp

theorem normalizeIds_toLowerCase (s : Str) : normalizeIds (toLowerCase s) = normalizeIds s := by
  unfold normalizeIds
  have e : splitComma (toLowerCase s) = (splitComma s).map (List.map Char.toLower) :=
    splitComma_map_toLower s
  rw [e, List.map_map]
  congr 1
  apply List.map_congr_left
  intro p _
  exact normItem_toLowerCase p

/-- The key of a request, in terms of the normalised identifier list. -/
theorem requestKey_some (s : Str) :
    requestKey (some s)
      = if normalizeIds s = [] then none else some (joinComma (normalizeIds s)) := by
  unfold requestKey
  cases s with
  | nil => rfl
  | cons c cs =>
    simp only [Option.getD_some, List.isEmpty_cons, Bool.false_eq_true, if_false,
      List.length_eq_zero]

theorem requestKey_none : requestKey none = none := rfl

/-- The key of a request listing the comma-free items `ps`: the comma-join, in request order,
of the trimmed and lower-cased items that are not empty. -/
theorem requestKey_joinComma (ps : List Str) (h : ∀ p ∈ ps, ',' ∉ p) :
    requestKey (some (joinComma ps))
      = if (ps.map (fun s => toLowerCase (trim s))).filter (fun s => !s.isEmpty) = [] then none
        else some (joinComma
          ((ps.map (fun s => toLowerCase (trim s))).filter (fun s => !s.isEmpty))) := by
  rw [requestKey_some, normalizeIds_joinComma ps h]

/-- The identifiers of a key are the normalised identifiers of the request. -/
theorem splitComma_requestKey (s key : Str) (h : requestKey (some s) = some key) :
    normalizeIds s ≠ [] ∧ key = joinComma (normalizeIds s) ∧ splitComma key = normalizeIds s := by
  rw [requestKey_some] at h
  by_cases hn : normalizeIds s = []
  · simp [hn] at h
  · simp only [hn, if_false, Option.some.injEq] at h
    refine ⟨hn, h.symm, ?_⟩
    rw [← h]
    exact splitComma_joinComma _ hn (fun p hp => (normalizeIds_mem s p hp).2.2.2)

/-- Claim C18 as stated fails: the key is not sorted, so 'ethereum,solana' and
'solana,ethereum' get different keys and do not share a cache entry: after the first request
has been fetched and stored, the second one calls the upstream again. -/
theorem key_order_counterexample :
    requestKey (some "ethereum,solana".toList) = some "ethereum,solana".toList ∧
    requestKey (some "solana,ethereum".toList) = some "solana,ethereum".toList ∧
    requestKey (some "ethereum,solana".toList) ≠ requestKey (some "solana,ethereum".toList) ∧
    (handler
      (handler (emptyCache : Cache Nat) 0 0 (fun _ => UpstreamReply.response 200 "" 7)
        (some "ethereum,solana".toList)).cache
      1 1 (fun _ => UpstreamReply.response 200 "" 7)
      (some "solana,ethereum".toList)).upstreamCalls = ["solana,ethereum".toList] := by
  refine ⟨by decide, by decide, by decide, by decide⟩

/-- Claim C18, amended.  The cache key computed by the handler is the comma-join, in request
order, of the trimmed, lower-cased, non-empty requested identifiers; it is neither sorted nor
de-duplicated.  Two requests with the same key share one cache entry (the second is served
from the cache entry stored by the first), while 'ethereum,solana' and 'solana,ethereum' get
different keys. -/
theorem cache_key_request_order {D : Type} (ps : List Str) (q1 q2 : Option Str) (key : Str)
    (now1 store1 now2 store2 : Int) (up1 up2 : Str → UpstreamReply D) (data : D)
    (hps : ∀ p ∈ ps, ',' ∉ p)
    (hk1 : requestKey q1 = some key) (hk2 : requestKey q2 = some key)
    (hfetch : fetchFromCoinGecko up1 key = Except.ok data)
    (hwithin : now2 - store1 < 10000) :
    requestKey (some (joinComma ps))
      = (if (ps.map (fun s => toLowerCase (trim s))).filter (fun s => !s.isEmpty) = [] then none
        else some (joinComma
          ((ps.map (fun s => toLowerCase (trim s))).filter (fun s => !s.isEmpty)))) ∧
    handler (handler emptyCache now1 store1 up1 q1).cache now2 store2 up2 q2
      = { response := { status := 200, body := Body.prices "cache" data none }
          cache := (handler emptyCache now1 store1 up1 q1).cache
          upstreamCalls := [] } ∧
    requestKey (some "ethereum,solana".toList) ≠ requestKey (some "solana,ethereum".toList) ∧
    requestKey (some "eth,eth".toList) = some "eth,eth".toList := by
  refine ⟨requestKey_joinComma ps hps, ?_, by decide, by decide⟩
  have hnone : ∀ e : CacheEntry D, (emptyCache : Cache D) key = some e →
      CACHE_TTL ≤ now1 - e.ts := by
    intro e he
    simp [emptyCache] at he
  have h1 : handler emptyCache now1 store1 up1 q1 =
      { response := { status := 200, body := Body.prices "coingecko" data none }
        cache := (emptyCache : Cache D).set key { ts := store1, data := data }
        upstreamCalls := [key] } := by
    rw [handler_of_requestKey _ now1 store1 up1 q1 key hk1,
      serveKey_not_fresh _ now1 store1 up1 key hnone]
    unfold fetchFresh
    rw [hfetch]
  have hset : ((emptyCache : Cache D).set key { ts := store1, data := data }) key
      = some { ts := store1, data := data } := by
    unfold Cache.set
    simp only [if_true]
  rw [h1]
  show handler ((emptyCache : Cache D).set key { ts := store1, data := data })
      now2 store2 up2 q2 = _
  rw [handler_of_requestKey _ now2 store2 up2 q2 key hk2,
    serveKey_fresh _ now2 store2 up2 key { ts := store1, data := data } hset
      (CACHE_TTL_eq ▸ hwithin)]

/-- Witness for the amended C18: ' ETH , sol,' and 'eth,sol' share the entry of key
'eth,sol'. -/
theorem cache_key_request_order_witness :
    handler (handler (emptyCache : Cache Nat) 0 5 (fun _ => UpstreamReply.response 200 "" 7)
        (some " ETH , sol,".toList)).cache 100 100 (fun _ => UpstreamReply.threw "down")
        (some "eth,sol".toList)
      = { response := { status := 200, body := Body.prices "cache" 7 none }
          cache := (handler (emptyCache : Cache Nat) 0 5
            (fun _ => UpstreamReply.response 200 "" 7) (some " ETH , sol,".toList)).cache
          upstreamCalls := [] } :=
  (cache_key_request_order [] (some " ETH , sol,".toList) (some "eth,sol".toList)
    "eth,sol".toList 0 5 100 100 (fun _ => UpstreamReply.response 200 "" 7)
    (fun _ => UpstreamReply.threw "down") 7 (by intro p hp; cases hp)
    (by decide) (by decide) rfl (by decide)).2.1

/-- Claim C19 as stated fails: a request with the non-blank identifier 'eth' is answered 400
when the upstream itself answers 400, because the handler forwards the upstream status. -/
theorem upstream_400_counterexample :
    (handler (emptyCache : Cache Nat) 0 0 (fun _ => UpstreamReply.response 400 "bad" 0)
        (some "eth".toList)).response.status = 400 ∧
    requestKey (some "eth".toList) = some "eth".toList := by
  refine ⟨by decide, by decide⟩

/-- Claim C19, amended.  A request whose `ids` parameter is missing, empty, or made only of
commas and white space is answered 400 with an error body, without upstream fetch and with the
cache unchanged.  A request with at least one non-blank identifier passes the validation (it
has a key and is served from it), and it is answered 400 only when the upstream fetch itself
fails with status 400. -/
theorem bad_request {D : Type} (cache : Cache D) (now storeNow : Int)
    (upstream : Str → UpstreamReply D) (queryIds : Option Str) :
    ((queryIds = none ∨ ∃ s, queryIds = some s ∧ ∀ c ∈ s, c = ',' ∨ isTrimChar c = true) →
      (handler cache now storeNow upstream queryIds).response.status = 400 ∧
      (∃ msg, (handler cache now storeNow upstream queryIds).response.body = Body.error msg) ∧
      (handler cache now storeNow upstream queryIds).cache = cache ∧
      (handler cache now storeNow upstream queryIds).upstreamCalls = []) ∧
    ((∃ s, queryIds = some s ∧ ∃ c ∈ s, c ≠ ',' ∧ isTrimChar c = false) →
      ∃ key, requestKey queryIds = some key ∧
        handler cache now storeNow upstream queryIds
          = serveKey cache now storeNow upstream key ∧
        ((handler cache now storeNow upstream queryIds).response.status = 400 →
          (handler cache now storeNow upstream queryIds).upstreamCalls = [key] ∧
          ∃ err, fetchFromCoinGecko upstream key = Except.error err ∧
            err.status = some 400)) := by
  constructor
  · intro h
    apply handler_of_no_key
    rcases h with h | ⟨s, hs, hall⟩
    · rw [h]
      rfl
    · rw [hs, requestKey_some, (normalizeIds_eq_nil_iff s).mpr hall]
      rfl
  · rintro ⟨s, hs, c, hc, hcomma, hws⟩
    have hn : normalizeIds s ≠ [] := by
      intro e
      rcases (normalizeIds_eq_nil_iff s).mp e c hc with h | h
      · exact hcomma h
      · rw [hws] at h
        cases h
    have hk : requestKey queryIds = some (joinComma (normalizeIds s)) := by
      rw [hs, requestKey_some]
      simp only [hn, if_false]
    refine ⟨joinComma (normalizeIds s), hk,
      handler_of_requestKey cache now storeNow upstream queryIds _ hk, ?_⟩
    rw [handler_of_requestKey cache now storeNow upstream queryIds _ hk]
    generalize joinComma (normalizeIds s) = key
    intro h400
    by_cases hfresh : ∃ e, cache key = some e ∧ now - e.ts < CACHE_TTL
    · obtain ⟨e, he, hlt⟩ := hfresh
      rw [serveKey_fresh cache now storeNow upstream key e he hlt] at h400
      have h' : (200 : Nat) = 400 := h400
      exact absurd h' (by decide)
    · have hstale : ∀ e, cache key = some e → CACHE_TTL ≤ now - e.ts := by
        intro e he
        by_contra hcon
        exact hfresh ⟨e, he, not_le.mp hcon⟩
      rw [serveKey_not_fresh cache now storeNow upstream key hstale] at h400 ⊢
      rcases fetchFresh_cases cache storeNow upstream key (cache key) with
        ⟨d, hf, h⟩ | ⟨err, e2, hf, h429, he2, h⟩ | ⟨err, hf, -, h⟩
      · rw [h] at h400
        have h' : (200 : Nat) = 400 := h400
        exact absurd h' (by decide)
      · rw [h] at h400
        have h' : (200 : Nat) = 400 := h400
        exact absurd h' (by decide)
      · rw [h] at h400 ⊢
        refine ⟨rfl, err, hf, ?_⟩
        have h400b : statusOr500 err.status = 400 := h400
        unfold statusOr500 at h400b
        cases hst : err.status with
        | none =>
          rw [hst] at h400b
          exact absurd h400b (by decide)
        | some st =>
          rw [hst] at h400b
          simp only [] at h400b
          split_ifs at h400b with h0
          · exact absurd h400b (by decide)
          · rw [h400b]

/-- Witness for the amended C19: the parameter ' , ,' is rejected. -/
theorem bad_request_witness :
    (handler (emptyCache : Cache Nat) 0 0 (fun _ => UpstreamReply.response 200 "" 7)
        (some " , ,".toList)).response.status = 400 :=
  ((bad_request (emptyCache : Cache Nat) 0 0 (fun _ => UpstreamReply.response 200 "" 7)
    (some " , ,".toList)).1 (Or.inr ⟨" , ,".toList, rfl, by decide⟩)).1

/-- Padding items with white space does not change their normalisation. -/
theorem map_normItem_of_padded (ps qs : List Str)
    (h : List.Forall₂ (fun p q => ∃ w1 w2 : Str, (∀ c ∈ w1, isTrimChar c = true) ∧
      (∀ c ∈ w2, isTrimChar c = true) ∧ q = w1 ++ p ++ w2) ps qs) :
    qs.map (fun s => toLowerCase (trim s)) = ps.map (fun s => toLowerCase (trim s)) := by
  induction h with
  | nil => rfl
  | cons hpq _ ih =>
    obtain ⟨w1, w2, h1, h2, rfl⟩ := hpq
    rw [List.map_cons, List.map_cons, ih, trim_pad _ _ _ h1 h2]

/-- Padding comma-free items with white space keeps them comma-free. -/
theorem noComma_of_padded (ps qs : List Str) (hps : ∀ p ∈ ps, ',' ∉ p)
    (h : List.Forall₂ (fun p q => ∃ w1 w2 : Str, (∀ c ∈ w1, isTrimChar c = true) ∧
      (∀ c ∈ w2, isTrimChar c = true) ∧ q = w1 ++ p ++ w2) ps qs) :
    ∀ q ∈ qs, ',' ∉ q := by
  induction h with
  | nil =>
    intro q hq
    cases hq
  | @cons p q ps2 qs2 hpq _ ih =>
    obtain ⟨w1, w2, h1, h2, rfl⟩ := hpq
    intro x hx
    rcases List.mem_cons.mp hx with hx | hx
    · rw [hx]
      intro hm
      have hcomma : isTrimChar ',' = false := by decide
      rcases List.mem_append.mp hm with hm | hm
      · rcases List.mem_append.mp hm with hm | hm
        · rw [h1 _ hm] at hcomma
          cases hcomma
        · exact hps p (List.mem_cons_self _ _) hm
      · rw [h2 _ hm] at hcomma
        cases hcomma
    · exact ih (fun y hy => hps y (List.mem_cons_of_mem _ hy)) x hx

/-- Identifier normalisation in the basic Latin model (`toLowerCase` acting on `A`-`Z` only).
The handler's key is the comma-join, in request
order, of the requested items after trimming, lower-casing and dropping the empty ones.
Hence `ids` parameters that differ only in letter case, in white space around the items, or in
empty items yield the same key (for instance ' ETH , sol,' and 'eth,sol'); every identifier in
a key is non-empty, lower-case and trimmed; and normalising a key returns it unchanged. -/
theorem identifier_normalisation :
    (∀ ps : List Str, (∀ p ∈ ps, ',' ∉ p) →
      requestKey (some (joinComma ps))
        = (if (ps.map (fun s => toLowerCase (trim s))).filter (fun s => !s.isEmpty) = []
          then none
          else some (joinComma
            ((ps.map (fun s => toLowerCase (trim s))).filter (fun s => !s.isEmpty))))) ∧
    (∀ s t : Str, toLowerCase s = toLowerCase t → requestKey (some s) = requestKey (some t)) ∧
    (∀ ps qs : List Str, (∀ p ∈ ps, ',' ∉ p) →
      List.Forall₂ (fun p q => ∃ w1 w2 : Str, (∀ c ∈ w1, isTrimChar c = true) ∧
        (∀ c ∈ w2, isTrimChar c = true) ∧ q = w1 ++ p ++ w2) ps qs →
      requestKey (some (joinComma qs)) = requestKey (some (joinComma ps))) ∧
    (∀ ps qs : List Str, (∀ p ∈ ps, ',' ∉ p) → (∀ q ∈ qs, ',' ∉ q) →
      requestKey (some (joinComma (ps ++ [] :: qs)))
        = requestKey (some (joinComma (ps ++ qs)))) ∧
    (requestKey (some " ETH , sol,".toList) = some "eth,sol".toList ∧
      requestKey (some "eth,sol".toList) = some "eth,sol".toList) ∧
    (∀ (queryIds : Option Str) (key : Str), requestKey queryIds = some key →
      (∀ id ∈ splitComma key, id ≠ [] ∧ toLowerCase id = id ∧ trim id = id) ∧
      requestKey (some key) = some key ∧
      ∀ (D : Type) (cache : Cache D) (now storeNow : Int) (upstream : Str → UpstreamReply D),
        handler cache now storeNow upstream queryIds
          = serveKey cache now storeNow upstream key) := by
  refine ⟨requestKey_joinComma, ?_, ?_, ?_, ⟨by decide, by decide⟩, ?_⟩
  · intro s t h
    rw [requestKey_some, requestKey_some, ← normalizeIds_toLowerCase s,
      ← normalizeIds_toLowerCase t, h]
  · intro ps qs hps h
    rw [requestKey_joinComma ps hps, requestKey_joinComma qs (noComma_of_padded ps qs hps h),
      map_normItem_of_padded ps qs h]
  · intro ps qs hps hqs
    have h1 : ∀ p ∈ ps ++ [] :: qs, ',' ∉ p := by
      intro p hp
      rcases List.mem_append.mp hp with h | h
      · exact hps p h
      · rcases List.mem_cons.mp h with h | h
        · rw [h]
          exact List.not_mem_nil _
        · exact hqs p h
    have h2 : ∀ p ∈ ps ++ qs, ',' ∉ p := by
      intro p hp
      rcases List.mem_append.mp hp with h | h
      · exact hps p h
      · exact hqs p h
    have e : ((ps ++ [] :: qs).map (fun s => toLowerCase (trim s))).filter (fun s => !s.isEmpty)
        = ((ps ++ qs).map (fun s => toLowerCase (trim s))).filter (fun s => !s.isEmpty) := by
      have hnil : toLowerCase (trim []) = [] := by decide
      simp only [List.map_append, List.map_cons, List.filter_append]
      rw [hnil]
      rfl
    rw [requestKey_joinComma _ h1, requestKey_joinComma _ h2, e]
  · intro queryIds key hk
    cases queryIds with
    | none => cases hk
    | some s =>
      obtain ⟨hn, hkey, hsplit⟩ := splitComma_requestKey s key hk
      refine ⟨?_, ?_, ?_⟩
      · intro id hid
        rw [hsplit] at hid
        obtain ⟨h1, h2, h3, -⟩ := normalizeIds_mem s id hid
        exact ⟨h1, h2, h3⟩
      · rw [requestKey_some, hkey, normalizeIds_idem]
        simp only [hn, if_false]
      · intro D cache now storeNow upstream
        exact handler_of_requestKey cache now storeNow upstream (some s) key hk

/-- Instance in the basic Latin model: 'ETH,Sol' and 'eth,sol' have the same key. -/
theorem identifier_normalisation_witness :
    requestKey (some "ETH,Sol".toList) = requestKey (some "eth,sol".toList) :=
  identifier_normalisation.2.1 "ETH,Sol".toList "eth,sol".toList (by decide)

/-! ## Calculator: closed forms, monotonicity, entries outside the range -/

/-- From the lower bound upwards the LP value is `L * (2 τ - a - τ² / b)`, where `a = sqrt PL`,
`b = sqrt PH` and `τ` is `sqrt T` capped at `b`. -/
theorem getV3Value_from_low (L PL PH T : ℝ) (hL : 0 < PL) (hLH : PL < PH) (hT : PL ≤ T) :
    getV3Value Real.sqrt L (Real.sqrt PL) (Real.sqrt PH) PL PH T
      = L * (2 * min (Real.sqrt T) (Real.sqrt PH) - Real.sqrt PL
          - min (Real.sqrt T) (Real.sqrt PH) * min (Real.sqrt T) (Real.sqrt PH)
            / Real.sqrt PH) := by
  have hPH : 0 < PH := lt_trans hL hLH
  have hT0 : 0 < T := lt_of_lt_of_le hL hT
  rw [getV3Value_eq_aux L PL PH hL T]
  obtain ⟨a, ha, haa, hsa⟩ := sqrt_repr hL
  obtain ⟨t, ht, htt, hst⟩ := sqrt_repr hT0
  obtain ⟨b, hb, hbb, hsb⟩ := sqrt_repr hPH
  rw [hsa, hst, hsb]
  subst haa htt hbb
  have hat : a ≤ t := (mul_self_le_mul_self_iff ha.le ht.le).mpr hT
  have hab : a < b := (mul_self_lt_mul_self_iff ha.le hb.le).mpr hLH
  by_cases c1 : t * t ≤ a * a
  · have hta : t = a := le_antisymm ((mul_self_le_mul_self_iff ht.le ha.le).mpr c1) hat
    subst hta
    rw [if_pos c1, min_eq_left hab.le]
    field_simp
    ring
  · rw [if_neg c1]
    by_cases c2 : b * b ≤ t * t
    · have hbt : b ≤ t := (mul_self_le_mul_self_iff hb.le ht.le).mpr c2
      rw [if_pos c2, min_eq_right hbt]
      have e : b * b / b = b := mul_div_cancel_right₀ b hb.ne'
      rw [e]
      ring
    · have htb : t < b := by
        by_contra hcon
        exact c2 ((mul_self_le_mul_self_iff hb.le ht.le).mp (not_lt.mp hcon))
      rw [if_neg c2, min_eq_left htb.le]
      ring

/-- For a positive entry price the conversion constant is `2 p - a - p² / b` with
`p = sqrt P_entry`, `a = sqrt PL`, `b = sqrt PH`. -/
theorem rangeConst_closed (Pe PL PH : ℝ) (hPe : 0 < Pe) (hL : 0 < PL) (hPH : 0 < PH) :
    rangeConst Real.sqrt Pe PL PH
      = 2 * Real.sqrt Pe - Real.sqrt PL - Real.sqrt Pe * Real.sqrt Pe / Real.sqrt PH := by
  unfold rangeConst
  simp only [jsOr_of_ne_zero _ hPe.ne', jsOr_of_ne_zero _ hL.ne', jsOr_of_ne_zero _ hPH.ne']
  obtain ⟨p, hp, hpp, hsp⟩ := sqrt_repr hPe
  rw [hsp]
  subst hpp
  have hb : 0 < Real.sqrt PH := Real.sqrt_pos.mpr hPH
  field_simp
  ring

/-- The LP value at an in-range entry price is the capital. -/
theorem getV3Value_at_entry (Pe PL PH inv : ℝ) (hL : 0 < PL) (hLH : PL < PH)
    (h1 : PL ≤ Pe) (h2 : Pe ≤ PH) (hinv : 0 < inv) :
    getV3Value Real.sqrt (liquidity Real.sqrt Pe PL PH inv) (Real.sqrt PL) (Real.sqrt PH)
      PL PH Pe = inv := by
  have hPe : 0 < Pe := lt_of_lt_of_le hL h1
  have hPH : 0 < PH := lt_trans hL hLH
  obtain ⟨hLeq, -⟩ := liquidity_pos hL hLH h1 h2 hinv
  have hr := rangeConst_pos hL hLH h1 h2
  rw [getV3Value_from_low _ PL PH Pe hL hLH h1, min_eq_left (Real.sqrt_le_sqrt h2),
    ← rangeConst_closed Pe PL PH hPe hL hPH, hLeq]
  exact div_mul_cancel₀ inv hr.ne'

/-- Claim C21, amended (sign and closed form of the boundary max loss).  Over real arithmetic
(exact square roots, no rounding): for `0 < PL < PH`, `PL ≤ P_entry ≤ PH` and capital `inv > 0`, with `a = sqrt PL`, `b = sqrt PH`,
`p = sqrt P_entry`: `maxLossLow = maxLossHigh = -2 * L * (b - p) * (p - a) / (a + b)`, which is
at most 0 and is 0 exactly when the entry price equals one of the bounds. -/
theorem maxLoss_closed_form (Pe Pc PL PH inv apr hours : ℝ) (lev : Option ℝ) (skipFees : Bool)
    (hL : 0 < PL) (hLH : PL < PH) (h1 : PL ≤ Pe) (h2 : Pe ≤ PH) (hinv : 0 < inv) :
    (calculatePosition Real.sqrt Pe Pc PL PH inv apr hours lev skipFees).maxLossLow
      = -2 * liquidity Real.sqrt Pe PL PH inv * (Real.sqrt PH - Real.sqrt Pe)
          * (Real.sqrt Pe - Real.sqrt PL) / (Real.sqrt PL + Real.sqrt PH) ∧
    (calculatePosition Real.sqrt Pe Pc PL PH inv apr hours lev skipFees).maxLossHigh
      = -2 * liquidity Real.sqrt Pe PL PH inv * (Real.sqrt PH - Real.sqrt Pe)
          * (Real.sqrt Pe - Real.sqrt PL) / (Real.sqrt PL + Real.sqrt PH) ∧
    (calculatePosition Real.sqrt Pe Pc PL PH inv apr hours lev skipFees).maxLossLow ≤ 0 ∧
    ((calculatePosition Real.sqrt Pe Pc PL PH inv apr hours lev skipFees).maxLossLow = 0
      ↔ (Pe = PL ∨ Pe = PH)) := by
  have hPe : 0 < Pe := lt_of_lt_of_le hL h1
  have hPH : 0 < PH := lt_trans hL hLH
  obtain ⟨-, hLpos⟩ := liquidity_pos hL hLH h1 h2 hinv
  have hgap := getV3Value_chord_gap (liquidity Real.sqrt Pe PL PH inv) PL PH Pe hL hLH h1 h2
  have hV := getV3Value_at_entry Pe PL PH inv hL hLH h1 h2 hinv
  have hd : PL - PH ≠ 0 := (sub_neg.mpr hLH).ne
  have ha : 0 < Real.sqrt PL := Real.sqrt_pos.mpr hL
  have hb : 0 < Real.sqrt PH := Real.sqrt_pos.mpr hPH
  have hap : Real.sqrt PL ≤ Real.sqrt Pe := Real.sqrt_le_sqrt h1
  have hpb : Real.sqrt Pe ≤ Real.sqrt PH := Real.sqrt_le_sqrt h2
  have hab : 0 < Real.sqrt PL + Real.sqrt PH := add_pos ha hb
  have hlow : (calculatePosition Real.sqrt Pe Pc PL PH inv apr hours lev skipFees).maxLossLow
      = -2 * liquidity Real.sqrt Pe PL PH inv * (Real.sqrt PH - Real.sqrt Pe)
          * (Real.sqrt Pe - Real.sqrt PL) / (Real.sqrt PL + Real.sqrt PH) := by
    have e : -2 * liquidity Real.sqrt Pe PL PH inv * (Real.sqrt PH - Real.sqrt Pe)
          * (Real.sqrt Pe - Real.sqrt PL) / (Real.sqrt PL + Real.sqrt PH)
        = -(2 * liquidity Real.sqrt Pe PL PH inv * (Real.sqrt Pe - Real.sqrt PL)
          * (Real.sqrt PH - Real.sqrt Pe) / (Real.sqrt PL + Real.sqrt PH)) := by
      ring
    rw [e, ← hgap, hV]
    simp only [calculatePosition, jsOr_of_ne_zero _ hd, jsOr_of_ne_zero _ hL.ne',
      jsOr_of_ne_zero _ hPH.ne']
    ring
  have hnum : 0 ≤ liquidity Real.sqrt Pe PL PH inv * (Real.sqrt PH - Real.sqrt Pe)
      * (Real.sqrt Pe - Real.sqrt PL) :=
    mul_nonneg (mul_nonneg hLpos.le (sub_nonneg.mpr hpb)) (sub_nonneg.mpr hap)
  have e2 : -2 * liquidity Real.sqrt Pe PL PH inv * (Real.sqrt PH - Real.sqrt Pe)
        * (Real.sqrt Pe - Real.sqrt PL) / (Real.sqrt PL + Real.sqrt PH)
      = -(2 * (liquidity Real.sqrt Pe PL PH inv * (Real.sqrt PH - Real.sqrt Pe)
        * (Real.sqrt Pe - Real.sqrt PL)) / (Real.sqrt PL + Real.sqrt PH)) := by
    ring
  refine ⟨hlow, ?_, ?_, ?_⟩
  · rw [← boundary_losses_coincide Pe Pc PL PH inv apr hours lev skipFees hLH]
    exact hlow
  · rw [hlow, e2, neg_nonpos]
    exact div_nonneg (mul_nonneg zero_le_two hnum) hab.le
  · rw [hlow, e2, neg_eq_zero, div_eq_zero_iff]
    constructor
    · rintro (h | h)
      · have h3 : liquidity Real.sqrt Pe PL PH inv * (Real.sqrt PH - Real.sqrt Pe)
            * (Real.sqrt Pe - Real.sqrt PL) = 0 := by linarith
        rcases mul_eq_zero.mp h3 with h4 | h4
        · rcases mul_eq_zero.mp h4 with h5 | h5
          · exact absurd h5 hLpos.ne'
          · right
            exact ((Real.sqrt_inj hPH.le hPe.le).mp (sub_eq_zero.mp h5)).symm
        · left
          exact (Real.sqrt_inj hPe.le hL.le).mp (sub_eq_zero.mp h4)
      · exact absurd h hab.ne'
    · rintro (h | h)
      · left
        rw [h, sub_self, mul_zero, mul_zero]
      · left
        rw [h, sub_self, mul_zero, zero_mul, mul_zero]

/-- Witness for the amended C21: entry 2500, range [2000, 3000], capital 1000. -/
theorem maxLoss_closed_form_witness :
    (calculatePosition Real.sqrt 2500 2500 2000 3000 1000 50 24 (some 3) false).maxLossLow ≤ 0 :=
  (maxLoss_closed_form 2500 2500 2000 3000 1000 50 24 (some 3) false
    (by norm_num) (by norm_num) (by norm_num) (by norm_num) (by norm_num)).2.2.1

/-- The in-range value `L * (2 t - a - t² / b)` is non-decreasing in `t` up to `b`. -/
theorem inRange_mono (L a b t1 t2 : ℝ) (hLnn : 0 ≤ L) (hb : 0 < b) (h12 : t1 ≤ t2)
    (h2b : t2 ≤ b) :
    L * (2 * t1 - a - t1 * t1 / b) ≤ L * (2 * t2 - a - t2 * t2 / b) := by
  have e : L * (2 * t2 - a - t2 * t2 / b) - L * (2 * t1 - a - t1 * t1 / b)
      = L * ((t2 - t1) * (2 * b - t1 - t2) / b) := by
    field_simp
    ring
  have hnn : 0 ≤ L * ((t2 - t1) * (2 * b - t1 - t2) / b) :=
    mul_nonneg hLnn (div_nonneg (mul_nonneg (sub_nonneg.mpr h12) (by linarith)) hb.le)
  linarith

/-- At and above the upper bound the LP value is `L * (sqrtPH - sqrtPL)`. -/
theorem getV3Value_above (L PL PH T : ℝ) (hLH : PL < PH) (hT : PH ≤ T) :
    getV3Value Real.sqrt L (Real.sqrt PL) (Real.sqrt PH) PL PH T
      = L * (Real.sqrt PH - Real.sqrt PL) := by
  unfold getV3Value
  simp only [if_neg (not_le.mpr (lt_of_lt_of_le hLH hT)), ge_iff_le, if_pos hT]

/-- With non-negative liquidity the LP value is non-decreasing in the target price. -/
theorem getV3Value_mono_aux (L PL PH T1 T2 : ℝ) (hL : 0 < PL) (hLH : PL < PH) (hLnn : 0 ≤ L)
    (h12 : T1 ≤ T2) :
    getV3Value Real.sqrt L (Real.sqrt PL) (Real.sqrt PH) PL PH T1
      ≤ getV3Value Real.sqrt L (Real.sqrt PL) (Real.sqrt PH) PL PH T2 := by
  have hPH : 0 < PH := lt_trans hL hLH
  have ha : 0 < Real.sqrt PL := Real.sqrt_pos.mpr hL
  have hb : 0 < Real.sqrt PH := Real.sqrt_pos.mpr hPH
  have hab : Real.sqrt PL ≤ Real.sqrt PH := Real.sqrt_le_sqrt hLH.le
  have hc : 0 ≤ L * (1 / Real.sqrt PL - 1 / Real.sqrt PH) :=
    mul_nonneg hLnn (sub_nonneg.mpr (one_div_le_one_div_of_le ha hab))
  have hbelow : ∀ T, T ≤ PL → getV3Value Real.sqrt L (Real.sqrt PL) (Real.sqrt PH) PL PH T
      = L * (1 / Real.sqrt PL - 1 / Real.sqrt PH) * T := by
    intro T hT
    unfold getV3Value
    simp only [if_pos hT]
  have hupper : ∀ U V, PL ≤ U → U ≤ V →
      getV3Value Real.sqrt L (Real.sqrt PL) (Real.sqrt PH) PL PH U
        ≤ getV3Value Real.sqrt L (Real.sqrt PL) (Real.sqrt PH) PL PH V := by
    intro U V hU hUV
    rw [getV3Value_from_low L PL PH U hL hLH hU,
      getV3Value_from_low L PL PH V hL hLH (le_trans hU hUV)]
    exact inRange_mono L _ _ _ _ hLnn hb
      (min_le_min (Real.sqrt_le_sqrt hUV) (le_refl _)) (min_le_right _ _)
  by_cases c2 : T2 ≤ PL
  · rw [hbelow T1 (le_trans h12 c2), hbelow T2 c2]
    exact mul_le_mul_of_nonneg_left h12 hc
  · have hPL2 : PL ≤ T2 := (not_le.mp c2).le
    by_cases c1 : T1 ≤ PL
    · have step1 : getV3Value Real.sqrt L (Real.sqrt PL) (Real.sqrt PH) PL PH T1
          ≤ getV3Value Real.sqrt L (Real.sqrt PL) (Real.sqrt PH) PL PH PL := by
        rw [hbelow T1 c1, hbelow PL (le_refl PL)]
        exact mul_le_mul_of_nonneg_left c1 hc
      exact le_trans step1 (hupper PL T2 (le_refl PL) hPL2)
    · exact hupper T1 T2 (not_le.mp c1).le h12

/-- Claim C22, amended (monotone valuation).  Over real arithmetic (exact square roots, no
rounding): for `0 < PL < PH` and `L ≥ 0`, `getV3Value` is
non-decreasing in the target price: for all `T1 ≤ T2` (in particular for `0 < T1 ≤ T2`),
`getV3Value T1 ≤ getV3Value T2`; it is bounded above by `L * (sqrtPH - sqrtPL)`, the value
reached at and above `PH`. -/
theorem getV3Value_monotone (L PL PH T1 T2 : ℝ) (hL : 0 < PL) (hLH : PL < PH) (hLnn : 0 ≤ L)
    (h12 : T1 ≤ T2) :
    getV3Value Real.sqrt L (Real.sqrt PL) (Real.sqrt PH) PL PH T1
      ≤ getV3Value Real.sqrt L (Real.sqrt PL) (Real.sqrt PH) PL PH T2 ∧
    getV3Value Real.sqrt L (Real.sqrt PL) (Real.sqrt PH) PL PH T1
      ≤ L * (Real.sqrt PH - Real.sqrt PL) ∧
    getV3Value Real.sqrt L (Real.sqrt PL) (Real.sqrt PH) PL PH T2
      ≤ L * (Real.sqrt PH - Real.sqrt PL) ∧
    (PH ≤ T2 → getV3Value Real.sqrt L (Real.sqrt PL) (Real.sqrt PH) PL PH T2
      = L * (Real.sqrt PH - Real.sqrt PL)) := by
  have hbound : ∀ T, getV3Value Real.sqrt L (Real.sqrt PL) (Real.sqrt PH) PL PH T
      ≤ L * (Real.sqrt PH - Real.sqrt PL) := by
    intro T
    rw [← getV3Value_above L PL PH (max T PH) hLH (le_max_right T PH)]
    exact getV3Value_mono_aux L PL PH T (max T PH) hL hLH hLnn (le_max_left T PH)
  exact ⟨getV3Value_mono_aux L PL PH T1 T2 hL hLH hLnn h12, hbound T1, hbound T2,
    fun h => getV3Value_above L PL PH T2 hLH h⟩

/-- Witness for the amended C22: the liquidity of an in-range entry (2500 in [2000, 3000], capital 1000),
valued at 1900 and at 2500. -/
theorem getV3Value_monotone_witness :
    getV3Value Real.sqrt (liquidity Real.sqrt 2500 2000 3000 1000) (Real.sqrt 2000)
        (Real.sqrt 3000) 2000 3000 1900
      ≤ getV3Value Real.sqrt (liquidity Real.sqrt 2500 2000 3000 1000) (Real.sqrt 2000)
        (Real.sqrt 3000) 2000 3000 2500 :=
  (getV3Value_monotone (liquidity Real.sqrt 2500 2000 3000 1000) 2000 3000 1900 2500
    (by norm_num) (by norm_num)
    (liquidity_pos (by norm_num) (by norm_num) (by norm_num) (by norm_num) (by norm_num)).2.le
    (by norm_num)).1

/-- Claim C23 as stated fails at entry price 0 (range [4, 9], capital 1): the guard
`P_entry || 1` makes `sqrtP = 1`, so `rangeConst = -1`, `L = -1` and the LP value at the entry
price minus the capital is `-1`, while the claimed closed form
`L * (sqrt P_entry - sqrtPL)^2 / sqrtPL` is `-2`. -/
theorem entry_zero_counterexample :
    rangeConst Real.sqrt 0 4 9 = -1 ∧
    liquidity Real.sqrt 0 4 9 1 = -1 ∧
    (calculatePosition Real.sqrt 0 0 4 9 1 0 0 none true).pnlLP = -1 ∧
    getV3Value Real.sqrt (liquidity Real.sqrt 0 4 9 1) (Real.sqrt 4) (Real.sqrt 9) 4 9 0 - 1
      = -1 ∧
    liquidity Real.sqrt 0 4 9 1 * (Real.sqrt 0 - Real.sqrt 4) ^ 2 / Real.sqrt 4 = -2 ∧
    getV3Value Real.sqrt (liquidity Real.sqrt 0 4 9 1) (Real.sqrt 4) (Real.sqrt 9) 4 9 0 - 1
      ≠ liquidity Real.sqrt 0 4 9 1 * (Real.sqrt 0 - Real.sqrt 4) ^ 2 / Real.sqrt 4 := by
  have h1 : Real.sqrt 1 = 1 := Real.sqrt_one
  have h0 : Real.sqrt 0 = 0 := Real.sqrt_zero
  have h4 : Real.sqrt 4 = 2 := by
    rw [show (4 : ℝ) = 2 * 2 by norm_num]
    exact Real.sqrt_mul_self (by norm_num)
  have h9 : Real.sqrt 9 = 3 := by
    rw [show (9 : ℝ) = 3 * 3 by norm_num]
    exact Real.sqrt_mul_self (by norm_num)
  have hR : rangeConst Real.sqrt 0 4 9 = -1 := by
    simp only [rangeConst, jsOr, if_true]
    norm_num [h1, h4, h9]
  have hLq : liquidity Real.sqrt 0 4 9 1 = -1 := by
    simp only [liquidity, hR, jsOr]
    norm_num
  have hV : getV3Value Real.sqrt (liquidity Real.sqrt 0 4 9 1) (Real.sqrt 4) (Real.sqrt 9)
      4 9 0 = 0 := by
    simp only [getV3Value]
    norm_num
  have hP : (calculatePosition Real.sqrt 0 0 4 9 1 0 0 none true).pnlLP = -1 := by
    have e4 : jsOr (4 : ℝ) (1 / 10) = 4 := jsOr_of_ne_zero _ (by norm_num)
    have e9 : jsOr (9 : ℝ) 100000 = 9 := jsOr_of_ne_zero _ (by norm_num)
    simp only [calculatePosition, e4, e9]
    rw [hV]
    norm_num
  have hF : liquidity Real.sqrt 0 4 9 1 * (Real.sqrt 0 - Real.sqrt 4) ^ 2 / Real.sqrt 4
      = -2 := by
    rw [hLq, h0, h4]
    norm_num
  refine ⟨hR, hLq, hP, ?_, hF, ?_⟩
  · rw [hV]
    norm_num
  · rw [hV, hF]
    norm_num

/-- Claim C23, amended.  Over real arithmetic (exact square roots, no rounding): for
`0 < PL < PH`, capital `inv > 0` and an entry price `P_entry > 0` with `rangeConst ≠ 0`, `calculatePosition` computes `L = inv / rangeConst` and the LP value at
the entry price minus the capital is `L * (sqrt P_entry - sqrtPL)^2 / sqrtPL` when
`P_entry < PL` and `L * (sqrtPH - sqrt P_entry)^2 / sqrtPH` when `P_entry > PH`; so for an
entry strictly outside the range `pnlLP` is non-zero at `P_current = P_entry`. -/
theorem entry_outside_range (Pe PL PH inv apr hours : ℝ) (lev : Option ℝ) (skipFees : Bool)
    (hL : 0 < PL) (hLH : PL < PH) (hinv : 0 < inv) (hPe : 0 < Pe)
    (hr : rangeConst Real.sqrt Pe PL PH ≠ 0) :
    liquidity Real.sqrt Pe PL PH inv = inv / rangeConst Real.sqrt Pe PL PH ∧
    (calculatePosition Real.sqrt Pe Pe PL PH inv apr hours lev skipFees).pnlLP
      = getV3Value Real.sqrt (liquidity Real.sqrt Pe PL PH inv) (Real.sqrt PL) (Real.sqrt PH)
          PL PH Pe - inv ∧
    (Pe < PL →
      getV3Value Real.sqrt (liquidity Real.sqrt Pe PL PH inv) (Real.sqrt PL) (Real.sqrt PH)
          PL PH Pe - inv
        = liquidity Real.sqrt Pe PL PH inv * (Real.sqrt Pe - Real.sqrt PL) ^ 2
            / Real.sqrt PL) ∧
    (PH < Pe →
      getV3Value Real.sqrt (liquidity Real.sqrt Pe PL PH inv) (Real.sqrt PL) (Real.sqrt PH)
          PL PH Pe - inv
        = liquidity Real.sqrt Pe PL PH inv * (Real.sqrt PH - Real.sqrt Pe) ^ 2
            / Real.sqrt PH) ∧
    ((Pe < PL ∨ PH < Pe) →
      (calculatePosition Real.sqrt Pe Pe PL PH inv apr hours lev skipFees).pnlLP ≠ 0) := by
  have hPH : 0 < PH := lt_trans hL hLH
  have ha : 0 < Real.sqrt PL := Real.sqrt_pos.mpr hL
  have hb : 0 < Real.sqrt PH := Real.sqrt_pos.mpr hPH
  have hp : 0 < Real.sqrt Pe := Real.sqrt_pos.mpr hPe
  have hLeq : liquidity Real.sqrt Pe PL PH inv = inv / rangeConst Real.sqrt Pe PL PH := by
    unfold liquidity
    rw [jsOr_of_ne_zero _ hr]
  have hLne : liquidity Real.sqrt Pe PL PH inv ≠ 0 := by
    rw [hLeq]
    exact div_ne_zero hinv.ne' hr
  have hinvL : inv = liquidity Real.sqrt Pe PL PH inv
      * (2 * Real.sqrt Pe - Real.sqrt PL - Real.sqrt Pe * Real.sqrt Pe / Real.sqrt PH) := by
    rw [← rangeConst_closed Pe PL PH hPe hL hPH, hLeq]
    exact (div_mul_cancel₀ inv hr).symm
  have hsq : Real.sqrt Pe * Real.sqrt Pe = Pe := Real.mul_self_sqrt hPe.le
  have hpnl : (calculatePosition Real.sqrt Pe Pe PL PH inv apr hours lev skipFees).pnlLP
      = getV3Value Real.sqrt (liquidity Real.sqrt Pe PL PH inv) (Real.sqrt PL) (Real.sqrt PH)
          PL PH Pe - inv := by
    simp only [calculatePosition, jsOr_of_ne_zero _ hL.ne', jsOr_of_ne_zero _ hPH.ne']
  have hbelow : Pe < PL →
      getV3Value Real.sqrt (liquidity Real.sqrt Pe PL PH inv) (Real.sqrt PL) (Real.sqrt PH)
          PL PH Pe - inv
        = liquidity Real.sqrt Pe PL PH inv * (Real.sqrt Pe - Real.sqrt PL) ^ 2
            / Real.sqrt PL := by
    intro h
    have hv : getV3Value Real.sqrt (liquidity Real.sqrt Pe PL PH inv) (Real.sqrt PL)
        (Real.sqrt PH) PL PH Pe
        = liquidity Real.sqrt Pe PL PH inv * (1 / Real.sqrt PL - 1 / Real.sqrt PH)
          * (Real.sqrt Pe * Real.sqrt Pe) := by
      unfold getV3Value
      simp only [if_pos h.le, hsq]
    rw [hv]
    have hinvL2 := hinvL
    generalize liquidity Real.sqrt Pe PL PH inv = Lq at hinvL2 ⊢
    generalize Real.sqrt Pe = p at hinvL2 ⊢
    rw [hinvL2]
    field_simp
    ring
  have habove : PH < Pe →
      getV3Value Real.sqrt (liquidity Real.sqrt Pe PL PH inv) (Real.sqrt PL) (Real.sqrt PH)
          PL PH Pe - inv
        = liquidity Real.sqrt Pe PL PH inv * (Real.sqrt PH - Real.sqrt Pe) ^ 2
            / Real.sqrt PH := by
    intro h
    rw [getV3Value_above _ PL PH Pe hLH h.le]
    have hinvL2 := hinvL
    generalize liquidity Real.sqrt Pe PL PH inv = Lq at hinvL2 ⊢
    generalize Real.sqrt Pe = p at hinvL2 ⊢
    rw [hinvL2]
    field_simp
    ring
  refine ⟨hLeq, hpnl, hbelow, habove, ?_⟩
  rintro (h | h)
  · rw [hpnl, hbelow h]
    have hne : Real.sqrt Pe - Real.sqrt PL ≠ 0 :=
      (sub_neg.mpr (Real.sqrt_lt_sqrt hPe.le h)).ne
    exact div_ne_zero (mul_ne_zero hLne (pow_ne_zero 2 hne)) ha.ne'
  · rw [hpnl, habove h]
    have hne : Real.sqrt PH - Real.sqrt Pe ≠ 0 :=
      (sub_neg.mpr (Real.sqrt_lt_sqrt hPH.le h)).ne
    exact div_ne_zero (mul_ne_zero hLne (pow_ne_zero 2 hne)) hb.ne'

/-- Witness for the amended C23: entry 16 above the range [4, 9], capital 1; there
`rangeConst = 2 * 4 - 2 - 16 / 3 = 2 / 3`. -/
theorem entry_outside_range_witness :
    (calculatePosition Real.sqrt 16 16 4 9 1 0 0 none true).pnlLP ≠ 0 := by
  have h4 : Real.sqrt 4 = 2 := by
    rw [show (4 : ℝ) = 2 * 2 by norm_num]
    exact Real.sqrt_mul_self (by norm_num)
  have h9 : Real.sqrt 9 = 3 := by
    rw [show (9 : ℝ) = 3 * 3 by norm_num]
    exact Real.sqrt_mul_self (by norm_num)
  have h16 : Real.sqrt 16 = 4 := by
    rw [show (16 : ℝ) = 4 * 4 by norm_num]
    exact Real.sqrt_mul_self (by norm_num)
  have hR : rangeConst Real.sqrt 16 4 9 ≠ 0 := by
    rw [rangeConst_closed 16 4 9 (by norm_num) (by norm_num) (by norm_num), h4, h9, h16]
    norm_num
  exact (entry_outside_range 16 4 9 1 0 0 none true (by norm_num) (by norm_num) (by norm_num)
    (by norm_num) hR).2.2.2.2 (Or.inr (by norm_num))

/-! ## The calculator in binary64 arithmetic: where the exact identities fail -/

/-- Claim C3 as stated fails on the program.  At range `[1, 1 + 2^-52]`, entry 1 (the lower
bound) and capital 1000, `Math.sqrt` of the upper bound rounds to 1, so `rangeConst` is 0, the
guard `rangeConst || 1` is taken, `L = 1000`, and both amounts are 0: they add up to 0, not to
the capital. -/
theorem entry_split_double_counterexample :
    Double.lt 0 1 = true ∧ Double.lt 1 (Double.ofRat (1 + 1 / 2 ^ 52)) = true ∧
    Double.le 1 1 = true ∧ Double.le 1 (Double.ofRat (1 + 1 / 2 ^ 52)) = true ∧
    Double.lt 0 1000 = true ∧
    Double.sqrt (Double.ofRat (1 + 1 / 2 ^ 52)) = Double.fin false 1 ∧
    Double.rangeConst 1 1 (Double.ofRat (1 + 1 / 2 ^ 52)) = Double.fin false 0 ∧
    Double.liquidity 1 1 (Double.ofRat (1 + 1 / 2 ^ 52)) 1000 = Double.fin false 1000 ∧
    (Double.calculatePosition 1 1 1 (Double.ofRat (1 + 1 / 2 ^ 52)) 1000 0 0 none
      false).tokenAmount = Double.fin false 0 ∧
    (Double.calculatePosition 1 1 1 (Double.ofRat (1 + 1 / 2 ^ 52)) 1000 0 0 none
      false).usdcAmount = Double.fin false 0 ∧
    Double.eq
      ((Double.calculatePosition 1 1 1 (Double.ofRat (1 + 1 / 2 ^ 52)) 1000 0 0 none
          false).tokenAmount * 1
        + (Double.calculatePosition 1 1 1 (Double.ofRat (1 + 1 / 2 ^ 52)) 1000 0 0 none
          false).usdcAmount)
      1000 = false := by
  decide!

/-- Claim C4 as stated fails on the program.  At entry 16, range `[4, 64]`, capital 1024 (all
square roots exact) the hedge size `1152 / 60` is rounded, and the two boundary losses differ in
the last bit: `-409.6` and `-409.5999999999999`. -/
theorem maxLoss_double_counterexample :
    (Double.calculatePosition 16 16 4 64 1024 0 0 none false).maxLossLow
      = Double.fin true (3602879701896397 / 8796093022208) ∧
    (Double.calculatePosition 16 16 4 64 1024 0 0 none false).maxLossHigh
      = Double.fin true (900719925474099 / 2199023255552) ∧
    Double.eq (Double.calculatePosition 16 16 4 64 1024 0 0 none false).maxLossLow
      (Double.calculatePosition 16 16 4 64 1024 0 0 none false).maxLossHigh = false := by
  decide!

/-- Claim C5 as stated fails on the program.  At range `[1 - 2^-53, 1 + 2^-52]`, entry 1 and
capital 1000 the square roots of the entry and of the upper bound both round to 1, the value
at the lower bound comes out above the value at the upper bound, and the hedge size is
negative: about `-3.0e18`. -/
theorem short_size_double_counterexample :
    Double.lt 0 (Double.ofRat (1 - 1 / 2 ^ 53)) = true ∧
    Double.lt (Double.ofRat (1 - 1 / 2 ^ 53)) (Double.ofRat (1 + 1 / 2 ^ 52)) = true ∧
    Double.le (Double.ofRat (1 - 1 / 2 ^ 53)) 1 = true ∧
    Double.le 1 (Double.ofRat (1 + 1 / 2 ^ 52)) = true ∧
    (Double.calculatePosition 1 1 (Double.ofRat (1 - 1 / 2 ^ 53)) (Double.ofRat (1 + 1 / 2 ^ 52))
      1000 0 0 none false).balancedShortSize = Double.fin true 3002399751580329984 ∧
    Double.lt 0
      (Double.calculatePosition 1 1 (Double.ofRat (1 - 1 / 2 ^ 53))
        (Double.ofRat (1 + 1 / 2 ^ 52)) 1000 0 0 none false).balancedShortSize = false := by
  decide!

/-- Claim C6 as stated fails on the program.  At the same input, with the current price equal
to the entry price 1 (inside the range), the fee-excluded total PnL is 0 while `maxLossLow` is
about `666.67`: the total is below the boundary figure. -/
theorem worst_case_double_counterexample :
    Double.le (Double.ofRat (1 - 1 / 2 ^ 53)) 1 = true ∧
    Double.le 1 (Double.ofRat (1 + 1 / 2 ^ 52)) = true ∧
    (Double.calculatePosition 1 1 (Double.ofRat (1 - 1 / 2 ^ 53)) (Double.ofRat (1 + 1 / 2 ^ 52))
        1000 0 0 none false).pnlLP
      + (Double.calculatePosition 1 1 (Double.ofRat (1 - 1 / 2 ^ 53))
        (Double.ofRat (1 + 1 / 2 ^ 52)) 1000 0 0 none false).shortPnL = Double.fin false 0 ∧
    (Double.calculatePosition 1 1 (Double.ofRat (1 - 1 / 2 ^ 53)) (Double.ofRat (1 + 1 / 2 ^ 52))
      1000 0 0 none false).maxLossLow
      = Double.fin false (1466015503701333 / 2199023255552) ∧
    Double.le
      (Double.calculatePosition 1 1 (Double.ofRat (1 - 1 / 2 ^ 53))
        (Double.ofRat (1 + 1 / 2 ^ 52)) 1000 0 0 none false).maxLossLow
      ((Double.calculatePosition 1 1 (Double.ofRat (1 - 1 / 2 ^ 53))
          (Double.ofRat (1 + 1 / 2 ^ 52)) 1000 0 0 none false).pnlLP
        + (Double.calculatePosition 1 1 (Double.ofRat (1 - 1 / 2 ^ 53))
          (Double.ofRat (1 + 1 / 2 ^ 52)) 1000 0 0 none false).shortPnL) = false := by
  decide!

/-- Claim C8 as stated fails on the program.  At entry 16, range `[4, 64]` and capital
`3 * 2^1022` (about `1.35e308`) the value at the upper bound overflows to `Infinity`, the hedge
size is `Infinity`, `shortPnL = 0 * Infinity` is `NaN`, and `feesToBEP` is 0 although
`pnlLP + shortPnL` is not `>= 0`; nor is `pnlLP + shortPnL + feesToBEP >= 0`. -/
theorem feesToBEP_double_counterexample :
    Double.lt 0 (Double.ofRat (3 * 2 ^ 1022)) = true ∧
    Double.isFinite (Double.ofRat (3 * 2 ^ 1022)) = true ∧
    (Double.calculatePosition 16 16 4 64 (Double.ofRat (3 * 2 ^ 1022)) 0 0 none
      false).balancedShortSize = Double.inf false ∧
    (Double.calculatePosition 16 16 4 64 (Double.ofRat (3 * 2 ^ 1022)) 0 0 none false).pnlLP
      + (Double.calculatePosition 16 16 4 64 (Double.ofRat (3 * 2 ^ 1022)) 0 0 none
        false).shortPnL = Double.nan ∧
    (Double.calculatePosition 16 16 4 64 (Double.ofRat (3 * 2 ^ 1022)) 0 0 none false).feesToBEP
      = Double.fin false 0 ∧
    Double.le 0
      ((Double.calculatePosition 16 16 4 64 (Double.ofRat (3 * 2 ^ 1022)) 0 0 none false).pnlLP
        + (Double.calculatePosition 16 16 4 64 (Double.ofRat (3 * 2 ^ 1022)) 0 0 none
          false).shortPnL) = false ∧
    Double.le 0
      ((Double.calculatePosition 16 16 4 64 (Double.ofRat (3 * 2 ^ 1022)) 0 0 none false).pnlLP
        + (Double.calculatePosition 16 16 4 64 (Double.ofRat (3 * 2 ^ 1022)) 0 0 none
          false).shortPnL
        + (Double.calculatePosition 16 16 4 64 (Double.ofRat (3 * 2 ^ 1022)) 0 0 none
          false).feesToBEP) = false := by
  decide!

/-- Claim C21 as stated fails on the program.  At range `[1 - 2^-53, 1 + 2^-52]`, entry 1 and
capital 1000 the figure shown as max loss is a gain: `maxLossLow = maxLossHigh`, about
`+666.67`. -/
theorem maxLoss_sign_double_counterexample :
    (Double.calculatePosition 1 1 (Double.ofRat (1 - 1 / 2 ^ 53)) (Double.ofRat (1 + 1 / 2 ^ 52))
      1000 0 0 none false).maxLossLow
      = Double.fin false (1466015503701333 / 2199023255552) ∧
    (Double.calculatePosition 1 1 (Double.ofRat (1 - 1 / 2 ^ 53)) (Double.ofRat (1 + 1 / 2 ^ 52))
      1000 0 0 none false).maxLossHigh
      = Double.fin false (1466015503701333 / 2199023255552) ∧
    Double.le
      (Double.calculatePosition 1 1 (Double.ofRat (1 - 1 / 2 ^ 53))
        (Double.ofRat (1 + 1 / 2 ^ 52)) 1000 0 0 none false).maxLossLow 0 = false := by
  decide!

/-- Claim C22 as stated fails on the program.  At range `[1 - 2^-53, 1 + 2^-52]` with the
liquidity of entry 1 and capital 1000 (`L = 2^53 * 1000`, positive), the value at the lower bound
is about 2000 and the value at the upper bound is 1000: the valuation decreases from `PL` to
`PH` and exceeds the cap `L * (sqrtPH - sqrtPL)`. -/
theorem monotone_double_counterexample :
    Double.liquidity 1 (Double.ofRat (1 - 1 / 2 ^ 53)) (Double.ofRat (1 + 1 / 2 ^ 52)) 1000
      = Double.fin false 9007199254740992000 ∧
    Double.getV3Value
        (Double.liquidity 1 (Double.ofRat (1 - 1 / 2 ^ 53)) (Double.ofRat (1 + 1 / 2 ^ 52)) 1000)
        (Double.sqrt (Double.ofRat (1 - 1 / 2 ^ 53))) (Double.sqrt (Double.ofRat (1 + 1 / 2 ^ 52)))
        (Double.ofRat (1 - 1 / 2 ^ 53)) (Double.ofRat (1 + 1 / 2 ^ 52))
        (Double.ofRat (1 - 1 / 2 ^ 53))
      = Double.fin false (8796093022207999 / 4398046511104) ∧
    Double.getV3Value
        (Double.liquidity 1 (Double.ofRat (1 - 1 / 2 ^ 53)) (Double.ofRat (1 + 1 / 2 ^ 52)) 1000)
        (Double.sqrt (Double.ofRat (1 - 1 / 2 ^ 53))) (Double.sqrt (Double.ofRat (1 + 1 / 2 ^ 52)))
        (Double.ofRat (1 - 1 / 2 ^ 53)) (Double.ofRat (1 + 1 / 2 ^ 52))
        (Double.ofRat (1 + 1 / 2 ^ 52))
      = Double.fin false 1000 ∧
    Double.le
      (Double.getV3Value
        (Double.liquidity 1 (Double.ofRat (1 - 1 / 2 ^ 53)) (Double.ofRat (1 + 1 / 2 ^ 52)) 1000)
        (Double.sqrt (Double.ofRat (1 - 1 / 2 ^ 53))) (Double.sqrt (Double.ofRat (1 + 1 / 2 ^ 52)))
        (Double.ofRat (1 - 1 / 2 ^ 53)) (Double.ofRat (1 + 1 / 2 ^ 52))
        (Double.ofRat (1 - 1 / 2 ^ 53)))
      (Double.getV3Value
        (Double.liquidity 1 (Double.ofRat (1 - 1 / 2 ^ 53)) (Double.ofRat (1 + 1 / 2 ^ 52)) 1000)
        (Double.sqrt (Double.ofRat (1 - 1 / 2 ^ 53))) (Double.sqrt (Double.ofRat (1 + 1 / 2 ^ 52)))
        (Double.ofRat (1 - 1 / 2 ^ 53)) (Double.ofRat (1 + 1 / 2 ^ 52))
        (Double.ofRat (1 + 1 / 2 ^ 52))) = false := by
  decide!

/-! ## The break-even fee figure in binary64 arithmetic -/

theorem Double.zero_eq : (0 : Double) = Double.fin false 0 := by decide!

theorem Double.pow2_pos (k : Int) : 0 < Double.pow2 k := by
  unfold Double.pow2
  split_ifs with h
  · rw [Rat.mkRat_eq_div]
    positivity
  · rw [Rat.mkRat_eq_div]
    positivity

/-- A rounded magnitude is non-negative. -/
theorem Double.roundMag_nonneg (a r : ℚ) (h : Double.roundMag a = some r) : 0 ≤ r := by
  unfold Double.roundMag at h
  simp only [] at h
  split_ifs at h with hlt
  simp only [Option.some.injEq] at h
  rw [← h]
  exact mul_nonneg (Nat.cast_nonneg _) (Double.pow2_pos _).le

/-- Rounding never produces `NaN`, keeps the sign, and gives a non-negative magnitude. -/
theorem Double.round_cases (s : Bool) (a : ℚ) :
    (∃ r, 0 ≤ r ∧ Double.round s a = Double.fin s r) ∨ Double.round s a = Double.inf s := by
  unfold Double.round
  split_ifs with h0
  · exact Or.inl ⟨0, le_refl 0, rfl⟩
  · cases hr : Double.roundMag a with
    | none => exact Or.inr rfl
    | some r => exact Or.inl ⟨r, Double.roundMag_nonneg a r hr, rfl⟩

/-- A finite sum has a non-negative magnitude. -/
theorem Double.add_mag_nonneg (x y : Double) (s : Bool) (a : ℚ)
    (h : x + y = Double.fin s a) : 0 ≤ a := by
  change Double.add x y = Double.fin s a at h
  cases x with
  | nan => simp [Double.add] at h
  | inf sx =>
    cases y with
    | nan => simp [Double.add] at h
    | inf sy =>
      simp only [Double.add] at h
      split_ifs at h
    | fin sy b => simp [Double.add] at h
  | fin sx c =>
    cases y with
    | nan => simp [Double.add] at h
    | inf sy => simp [Double.add] at h
    | fin sy b =>
      simp only [Double.add] at h
      split_ifs at h with hz
      · simp only [Double.fin.injEq] at h
        rw [← h.2]
      · rcases Double.round_cases (decide (Double.signed sx c + Double.signed sy b < 0))
          |Double.signed sx c + Double.signed sy b| with ⟨r, hr, he⟩ | he
        · rw [he] at h
          simp only [Double.fin.injEq] at h
          rw [← h.2]
          exact hr
        · rw [he] at h
          cases h

/-- The value of the fee figure for a finite price PnL `r = ± a`: the magnitude `a` when `r`
is negative, `+0` otherwise. -/
theorem Double.fee_value (s : Bool) (a : ℚ) (ha : 0 ≤ a) :
    Double.max 0 (if Double.lt (Double.fin s a) 0 then Double.abs (Double.fin s a) else 0)
      = (if s = true ∧ 0 < a then Double.fin false a else Double.fin false 0) ∧
    Double.max 0 (-(Double.fin s a))
      = (if s = true ∧ 0 < a then Double.fin false a else Double.fin false 0) := by
  have hneg : -(Double.fin s a) = Double.fin (!s) a := rfl
  rw [hneg, Double.zero_eq]
  rcases eq_or_lt_of_le ha with h0 | hpos
  · subst h0
    cases s <;> decide!
  · have hna : ¬ a < 0 := not_lt.mpr ha
    have hne : ¬ a = 0 := hpos.ne'
    cases s
    · simp [Double.max, Double.lt, Double.signed, Double.abs, hpos, hna, hne]
    · simp [Double.max, Double.lt, Double.signed, Double.abs, hpos, hna, hne]

/-- With `f` the fee figure of a finite price PnL `r = ± a`: `f ≥ 0`, `f` is zero exactly when
`r ≥ 0`, `r + f ≥ 0`, and `r + f` is zero whenever `r ≤ 0`. -/
theorem Double.fee_sum (s : Bool) (a : ℚ) (ha : 0 ≤ a) :
    Double.le 0 (if s = true ∧ 0 < a then Double.fin false a else Double.fin false 0) = true ∧
    (Double.eq (if s = true ∧ 0 < a then Double.fin false a else Double.fin false 0) 0 = true
      ↔ Double.le 0 (Double.fin s a) = true) ∧
    Double.le 0 (Double.fin s a
      + (if s = true ∧ 0 < a then Double.fin false a else Double.fin false 0)) = true ∧
    (Double.le (Double.fin s a) 0 = true →
      Double.eq (Double.fin s a
        + (if s = true ∧ 0 < a then Double.fin false a else Double.fin false 0)) 0 = true) := by
  rw [Double.zero_eq]
  have hadd : ∀ x y : Double, x + y = Double.add x y := fun _ _ => rfl
  rcases eq_or_lt_of_le ha with h0 | hpos
  · subst h0
    cases s <;> decide!
  · have hna : ¬ a < 0 := not_lt.mpr ha
    have hne : ¬ a = 0 := hpos.ne'
    have hnle : ¬ a ≤ 0 := not_le.mpr hpos
    cases s
    · -- positive price PnL: the fee figure is `+0`
      have hsum : Double.fin false a + Double.fin false 0 = Double.round false a := by
        rw [hadd]
        simp [Double.add, Double.signed, hne, hna, abs_of_pos hpos]
      simp only [Bool.false_eq_true, false_and, if_false, hsum]
      refine ⟨by decide!, ?_, ?_, ?_⟩
      · simp [Double.eq, Double.le, Double.signed, ha]
      · rcases Double.round_cases false a with ⟨r, hr, he⟩ | he
        · rw [he]
          simp [Double.le, Double.signed, hr]
        · rw [he]
          rfl
      · intro h
        simp [Double.le, Double.signed, hnle] at h
    · -- negative price PnL: the fee figure is the magnitude
      have hsum : Double.fin true a + Double.fin false a = Double.fin false 0 := by
        rw [hadd]
        simp [Double.add, Double.signed]
      simp only [true_and, hpos, if_true, hsum]
      refine ⟨?_, ?_, by decide!, ?_⟩
      · simp [Double.le, Double.signed, ha]
      · simp [Double.eq, Double.le, Double.signed, hne, hnle]
      · intro _
        decide!

/-- Claim C8, amended.  In the binary64 arithmetic of the program, for all inputs for which
`pnlLP + shortPnL` is finite (neither `NaN` nor an infinity), `calculatePosition` returns
`feesToBEP = Math.max(0, -(pnlLP + shortPnL))`; hence `feesToBEP >= 0`, `feesToBEP` is zero
exactly when `pnlLP + shortPnL >= 0`, and `pnlLP + shortPnL + feesToBEP >= 0`, with equality
to zero whenever `pnlLP + shortPnL <= 0`.  The value does not depend on APR, hours, leverage
or `skipFees`. -/
theorem feesToBEP_double_spec (Pe Pc PL PH inv apr hours : Double) (lev : Option Double)
    (skipFees : Bool)
    (hfin : Double.isFinite
      ((Double.calculatePosition Pe Pc PL PH inv apr hours lev skipFees).pnlLP
        + (Double.calculatePosition Pe Pc PL PH inv apr hours lev skipFees).shortPnL) = true) :
    (Double.calculatePosition Pe Pc PL PH inv apr hours lev skipFees).feesToBEP
      = Double.max 0 (-((Double.calculatePosition Pe Pc PL PH inv apr hours lev skipFees).pnlLP
          + (Double.calculatePosition Pe Pc PL PH inv apr hours lev skipFees).shortPnL)) ∧
    Double.le 0 (Double.calculatePosition Pe Pc PL PH inv apr hours lev skipFees).feesToBEP
      = true ∧
    (Double.eq (Double.calculatePosition Pe Pc PL PH inv apr hours lev skipFees).feesToBEP 0
        = true ↔
      Double.le 0 ((Double.calculatePosition Pe Pc PL PH inv apr hours lev skipFees).pnlLP
        + (Double.calculatePosition Pe Pc PL PH inv apr hours lev skipFees).shortPnL) = true) ∧
    Double.le 0 ((Double.calculatePosition Pe Pc PL PH inv apr hours lev skipFees).pnlLP
        + (Double.calculatePosition Pe Pc PL PH inv apr hours lev skipFees).shortPnL
        + (Double.calculatePosition Pe Pc PL PH inv apr hours lev skipFees).feesToBEP) = true ∧
    (Double.le ((Double.calculatePosition Pe Pc PL PH inv apr hours lev skipFees).pnlLP
        + (Double.calculatePosition Pe Pc PL PH inv apr hours lev skipFees).shortPnL) 0 = true →
      Double.eq ((Double.calculatePosition Pe Pc PL PH inv apr hours lev skipFees).pnlLP
        + (Double.calculatePosition Pe Pc PL PH inv apr hours lev skipFees).shortPnL
        + (Double.calculatePosition Pe Pc PL PH inv apr hours lev skipFees).feesToBEP) 0
        = true) ∧
    (∀ (apr2 hours2 : Double) (lev2 : Option Double) (skipFees2 : Bool),
      (Double.calculatePosition Pe Pc PL PH inv apr2 hours2 lev2 skipFees2).feesToBEP
        = (Double.calculatePosition Pe Pc PL PH inv apr hours lev skipFees).feesToBEP) := by
  have hfee : ∀ (apr2 hours2 : Double) (lev2 : Option Double) (skipFees2 : Bool),
      (Double.calculatePosition Pe Pc PL PH inv apr2 hours2 lev2 skipFees2).feesToBEP
        = Double.max 0
          (if Double.lt ((Double.calculatePosition Pe Pc PL PH inv apr hours lev skipFees).pnlLP
              + (Double.calculatePosition Pe Pc PL PH inv apr hours lev skipFees).shortPnL) 0
            then Double.abs
              ((Double.calculatePosition Pe Pc PL PH inv apr hours lev skipFees).pnlLP
                + (Double.calculatePosition Pe Pc PL PH inv apr hours lev skipFees).shortPnL)
            else 0) := fun _ _ _ _ => rfl
  have hindep : ∀ (apr2 hours2 : Double) (lev2 : Option Double) (skipFees2 : Bool),
      (Double.calculatePosition Pe Pc PL PH inv apr2 hours2 lev2 skipFees2).feesToBEP
        = (Double.calculatePosition Pe Pc PL PH inv apr hours lev skipFees).feesToBEP :=
    fun a h l k => (hfee a h l k).trans (hfee apr hours lev skipFees).symm
  refine ⟨?_, ?_, ?_, ?_, ?_, hindep⟩ <;> rw [hfee apr hours lev skipFees]
  all_goals
    cases hr : (Double.calculatePosition Pe Pc PL PH inv apr hours lev skipFees).pnlLP
        + (Double.calculatePosition Pe Pc PL PH inv apr hours lev skipFees).shortPnL with
    | nan =>
      rw [hr] at hfin
      cases hfin
    | inf t =>
      rw [hr] at hfin
      cases hfin
    | fin s a =>
      have ha := Double.add_mag_nonneg _ _ s a hr
      rw [(Double.fee_value s a ha).1]
      first
        | exact (Double.fee_value s a ha).2.symm
        | exact (Double.fee_sum s a ha).1
        | exact (Double.fee_sum s a ha).2.1
        | exact (Double.fee_sum s a ha).2.2.1
        | exact (Double.fee_sum s a ha).2.2.2

/-- Witness for the amended C8: entry 16, current price 20, range [4, 64], capital 1024. -/
theorem feesToBEP_double_spec_witness :
    Double.le 0 (Double.calculatePosition 16 20 4 64 1024 50 24 (some 3) false).feesToBEP
      = true :=
  (feesToBEP_double_spec 16 20 4 64 1024 50 24 (some 3) false (by decide!)).2.1

/-! ## Identifier normalisation for an arbitrary lower-casing function -/

/-- The basic Latin model is the instance `lower := toLowerCase` of the parametrised handler. -/
theorem handler_eq_handlerWith {D : Type} (cache : Cache D) (now storeNow : Int)
    (upstream : Str → UpstreamReply D) (queryIds : Option Str) :
    handler cache now storeNow upstream queryIds
      = handlerWith toLowerCase cache now storeNow upstream queryIds ∧
    requestKey queryIds = requestKeyWith toLowerCase queryIds :=
  ⟨rfl, rfl⟩

/-- The function `toLowerCase` of the basic Latin model has the four properties of a
lower-casing function used below. -/
theorem toLowerCase_properties :
    (∀ s : Str, toLowerCase (toLowerCase s) = toLowerCase s) ∧
    (∀ s : Str, trim (toLowerCase s) = toLowerCase (trim s)) ∧
    (∀ s : Str, toLowerCase s = [] ↔ s = []) ∧
    (∀ s : Str, ',' ∉ s → ',' ∉ toLowerCase s) := by
  refine ⟨?_, ?_, ?_, ?_⟩
  · intro s
    unfold toLowerCase
    rw [List.map_map]
    congr 1
    exact funext toLower_idem
  · intro s
    exact trim_map_toLower s
  · intro s
    unfold toLowerCase
    exact List.map_eq_nil_iff
  · intro s hs hm
    unfold toLowerCase at hm
    obtain ⟨c, hc, hce⟩ := List.mem_map.mp hm
    rw [(toLower_eq_comma c).mp hce] at hc
    exact hs hc

/-- Every identifier kept by `normalizeIdsWith lower` is non-empty, fixed by `lower`, trimmed
and free of commas. -/
theorem normalizeIdsWith_mem (lower : Str → Str)
    (hidem : ∀ s, lower (lower s) = lower s) (htrim : ∀ s, trim (lower s) = lower (trim s))
    (hcomma : ∀ s, ',' ∉ s → ',' ∉ lower s)
    (s : Str) (id : Str) (h : id ∈ normalizeIdsWith lower s) :
    id ≠ [] ∧ lower id = id ∧ trim id = id ∧ ',' ∉ id := by
  unfold normalizeIdsWith at h
  obtain ⟨h1, h2⟩ := List.mem_filter.mp h
  obtain ⟨p, hp, rfl⟩ := List.mem_map.mp h1
  refine ⟨?_, hidem _, ?_, ?_⟩
  · intro e
    rw [e] at h2
    simp at h2
  · rw [htrim, trim_trim]
  · exact hcomma _ (fun hm => splitComma_pieces_noComma s p hp (mem_of_mem_trim p _ hm))

/-- The normalised list of a comma-join of comma-free items, for any `lower`. -/
theorem normalizeIdsWith_joinComma (lower : Str → Str) (hnil : ∀ s, lower s = [] ↔ s = [])
    (ps : List Str) (h : ∀ p ∈ ps, ',' ∉ p) :
    normalizeIdsWith lower (joinComma ps)
      = (ps.map (fun s => lower (trim s))).filter (fun s => !s.isEmpty) := by
  cases ps with
  | nil =>
    have e : lower (trim []) = [] := (hnil _).mpr rfl
    simp [normalizeIdsWith, joinComma, splitComma, e]
  | cons p qs =>
    unfold normalizeIdsWith
    rw [splitComma_joinComma (p :: qs) (List.cons_ne_nil _ _) h]

/-- Normalising the join of a normalised list gives the list back. -/
theorem normalizeIdsWith_idem (lower : Str → Str)
    (hidem : ∀ s, lower (lower s) = lower s) (htrim : ∀ s, trim (lower s) = lower (trim s))
    (hnil : ∀ s, lower s = [] ↔ s = []) (hcomma : ∀ s, ',' ∉ s → ',' ∉ lower s) (s : Str) :
    normalizeIdsWith lower (joinComma (normalizeIdsWith lower s)) = normalizeIdsWith lower s := by
  rw [normalizeIdsWith_joinComma lower hnil _
    (fun p hp => (normalizeIdsWith_mem lower hidem htrim hcomma s p hp).2.2.2)]
  have hmap : (normalizeIdsWith lower s).map (fun s => lower (trim s))
      = normalizeIdsWith lower s := by
    conv_rhs => rw [← List.map_id (normalizeIdsWith lower s)]
    apply List.map_congr_left
    intro p hp
    obtain ⟨-, h1, h2, -⟩ := normalizeIdsWith_mem lower hidem htrim hcomma s p hp
    rw [h2, h1]
    rfl
  rw [hmap]
  apply List.filter_eq_self.mpr
  intro p hp
  have := (normalizeIdsWith_mem lower hidem htrim hcomma s p hp).1
  cases p with
  | nil => exact absurd rfl this
  | cons a as => rfl

/-- The key of a request, in terms of the normalised identifier list, for any `lower`. -/
theorem requestKeyWith_some (lower : Str → Str) (hnil : ∀ s, lower s = [] ↔ s = []) (s : Str) :
    requestKeyWith lower (some s)
      = if normalizeIdsWith lower s = [] then none
        else some (joinComma (normalizeIdsWith lower s)) := by
  unfold requestKeyWith
  cases s with
  | nil =>
    have e : lower (trim []) = [] := (hnil _).mpr rfl
    simp [normalizeIdsWith, splitComma, e]
  | cons c cs =>
    simp only [Option.getD_some, List.isEmpty_cons, Bool.false_eq_true, if_false,
      List.length_eq_zero]

/-- The key of a request listing the comma-free items `ps`, for any `lower`. -/
theorem requestKeyWith_joinComma (lower : Str → Str) (hnil : ∀ s, lower s = [] ↔ s = [])
    (ps : List Str) (h : ∀ p ∈ ps, ',' ∉ p) :
    requestKeyWith lower (some (joinComma ps))
      = if (ps.map (fun s => lower (trim s))).filter (fun s => !s.isEmpty) = [] then none
        else some (joinComma
          ((ps.map (fun s => lower (trim s))).filter (fun s => !s.isEmpty))) := by
  rw [requestKeyWith_some lower hnil, normalizeIdsWith_joinComma lower hnil ps h]

/-- A request that passes validation is served from the key computed by `requestKeyWith`. -/
theorem handlerWith_of_requestKeyWith {D : Type} (lower : Str → Str) (cache : Cache D)
    (now storeNow : Int) (upstream : Str → UpstreamReply D) (queryIds : Option Str) (key : Str)
    (hkey : requestKeyWith lower queryIds = some key) :
    handlerWith lower cache now storeNow upstream queryIds
      = serveKey cache now storeNow upstream key := by
  unfold requestKeyWith at hkey
  unfold handlerWith
  by_cases h1 : (queryIds.getD []).isEmpty = true
  · simp [h1] at hkey
  · by_cases h2 : (normalizeIdsWith lower (queryIds.getD [])).length = 0
    · simp [h1, h2] at hkey
    · simp only [h1, h2, if_false, Bool.false_eq_true, Option.some.injEq] at hkey ⊢
      rw [hkey]

/-- Padding items with white space does not change their normalisation, for any `lower`. -/
theorem map_normItemWith_of_padded (lower : Str → Str) (ps qs : List Str)
    (h : List.Forall₂ (fun p q => ∃ w1 w2 : Str, (∀ c ∈ w1, isTrimChar c = true) ∧
      (∀ c ∈ w2, isTrimChar c = true) ∧ q = w1 ++ p ++ w2) ps qs) :
    qs.map (fun s => lower (trim s)) = ps.map (fun s => lower (trim s)) := by
  induction h with
  | nil => rfl
  | cons hpq _ ih =>
    obtain ⟨w1, w2, h1, h2, rfl⟩ := hpq
    rw [List.map_cons, List.map_cons, ih, trim_pad _ _ _ h1 h2]

/-- Items that are equal after lower-casing have the same normalisation. -/
theorem map_normItemWith_of_sameCase (lower : Str → Str)
    (htrim : ∀ s, trim (lower s) = lower (trim s)) (ps qs : List Str)
    (h : List.Forall₂ (fun p q => lower p = lower q) ps qs) :
    qs.map (fun s => lower (trim s)) = ps.map (fun s => lower (trim s)) := by
  induction h with
  | nil => rfl
  | cons hpq _ ih =>
    rw [List.map_cons, List.map_cons, ih, ← htrim, ← htrim, hpq]

/-- Claim C20 (identifier normalisation), for the lower-casing function of the runtime.  Let
`lower` be `String.prototype.toLowerCase`, of which only this is used: it is idempotent, it
commutes with `trim`, it maps only the empty string to the empty string, and it creates no
comma.  Then the handler's key is the comma-join, in request order, of the requested items
after trimming, lower-casing and dropping the empty ones.  Hence `ids` parameters whose items
differ only in letter case, in white space around them, or in empty items yield the same key;
every identifier in a key is non-empty, lower-case and trimmed; and normalising a key returns
it unchanged. -/
theorem identifier_normalisation_general (lower : Str → Str)
    (hidem : ∀ s, lower (lower s) = lower s) (htrim : ∀ s, trim (lower s) = lower (trim s))
    (hnil : ∀ s, lower s = [] ↔ s = []) (hcomma : ∀ s, ',' ∉ s → ',' ∉ lower s) :
    (∀ ps : List Str, (∀ p ∈ ps, ',' ∉ p) →
      requestKeyWith lower (some (joinComma ps))
        = (if (ps.map (fun s => lower (trim s))).filter (fun s => !s.isEmpty) = []
          then none
          else some (joinComma
            ((ps.map (fun s => lower (trim s))).filter (fun s => !s.isEmpty))))) ∧
    (∀ ps qs : List Str, (∀ p ∈ ps, ',' ∉ p) → (∀ q ∈ qs, ',' ∉ q) →
      List.Forall₂ (fun p q => lower p = lower q) ps qs →
      requestKeyWith lower (some (joinComma qs)) = requestKeyWith lower (some (joinComma ps))) ∧
    (∀ ps qs : List Str, (∀ p ∈ ps, ',' ∉ p) →
      List.Forall₂ (fun p q => ∃ w1 w2 : Str, (∀ c ∈ w1, isTrimChar c = true) ∧
        (∀ c ∈ w2, isTrimChar c = true) ∧ q = w1 ++ p ++ w2) ps qs →
      requestKeyWith lower (some (joinComma qs)) = requestKeyWith lower (some (joinComma ps))) ∧
    (∀ ps qs : List Str, (∀ p ∈ ps, ',' ∉ p) → (∀ q ∈ qs, ',' ∉ q) →
      requestKeyWith lower (some (joinComma (ps ++ [] :: qs)))
        = requestKeyWith lower (some (joinComma (ps ++ qs)))) ∧
    (∀ (queryIds : Option Str) (key : Str), requestKeyWith lower queryIds = some key →
      (∀ id ∈ splitComma key, id ≠ [] ∧ lower id = id ∧ trim id = id) ∧
      requestKeyWith lower (some key) = some key ∧
      ∀ (D : Type) (cache : Cache D) (now storeNow : Int) (upstream : Str → UpstreamReply D),
        handlerWith lower cache now storeNow upstream queryIds
          = serveKey cache now storeNow upstream key) := by
  refine ⟨requestKeyWith_joinComma lower hnil, ?_, ?_, ?_, ?_⟩
  · intro ps qs hps hqs h
    rw [requestKeyWith_joinComma lower hnil ps hps, requestKeyWith_joinComma lower hnil qs hqs,
      map_normItemWith_of_sameCase lower htrim ps qs h]
  · intro ps qs hps h
    rw [requestKeyWith_joinComma lower hnil ps hps,
      requestKeyWith_joinComma lower hnil qs (noComma_of_padded ps qs hps h),
      map_normItemWith_of_padded lower ps qs h]
  · intro ps qs hps hqs
    have h1 : ∀ p ∈ ps ++ [] :: qs, ',' ∉ p := by
      intro p hp
      rcases List.mem_append.mp hp with h | h
      · exact hps p h
      · rcases List.mem_cons.mp h with h | h
        · rw [h]
          exact List.not_mem_nil _
        · exact hqs p h
    have h2 : ∀ p ∈ ps ++ qs, ',' ∉ p := by
      intro p hp
      rcases List.mem_append.mp hp with h | h
      · exact hps p h
      · exact hqs p h
    have e : ((ps ++ [] :: qs).map (fun s => lower (trim s))).filter (fun s => !s.isEmpty)
        = ((ps ++ qs).map (fun s => lower (trim s))).filter (fun s => !s.isEmpty) := by
      have hempty : lower (trim []) = [] := (hnil _).mpr rfl
      simp only [List.map_append, List.map_cons, List.filter_append]
      rw [hempty]
      rfl
    rw [requestKeyWith_joinComma lower hnil _ h1, requestKeyWith_joinComma lower hnil _ h2, e]
  · intro queryIds key hk
    cases queryIds with
    | none => cases hk
    | some s =>
      have hk2 := hk
      rw [requestKeyWith_some lower hnil] at hk2
      by_cases hn : normalizeIdsWith lower s = []
      · simp [hn] at hk2
      · simp only [hn, if_false, Option.some.injEq] at hk2
        have hsplit : splitComma key = normalizeIdsWith lower s := by
          rw [← hk2]
          exact splitComma_joinComma _ hn
            (fun p hp => (normalizeIdsWith_mem lower hidem htrim hcomma s p hp).2.2.2)
        refine ⟨?_, ?_, ?_⟩
        · intro id hid
          rw [hsplit] at hid
          obtain ⟨h1, h2, h3, -⟩ := normalizeIdsWith_mem lower hidem htrim hcomma s id hid
          exact ⟨h1, h2, h3⟩
        · rw [requestKeyWith_some lower hnil, ← hk2,
            normalizeIdsWith_idem lower hidem htrim hnil hcomma]
          simp only [hn, if_false]
        · intro D cache now storeNow upstream
          exact handlerWith_of_requestKeyWith lower cache now storeNow upstream (some s) key hk

/-- Witness for C20 at the basic Latin instance: ' ETH , sol,' has the key 'eth,sol', which is
its own key. -/
theorem identifier_normalisation_general_witness :
    requestKeyWith toLowerCase (some " ETH , sol,".toList) = some "eth,sol".toList ∧
    requestKeyWith toLowerCase (some "eth,sol".toList) = some "eth,sol".toList :=
  ⟨by decide,
    ((identifier_normalisation_general toLowerCase toLowerCase_properties.1
      toLowerCase_properties.2.1 toLowerCase_properties.2.2.1 toLowerCase_properties.2.2.2).2.2.2.2
      (some " ETH , sol,".toList) "eth,sol".toList (by decide)).2.1⟩

/-! ## Why C11 and C23 are amended to real arithmetic -/

/-- In binary64 arithmetic the ordering of C11 is not kept on a narrow range: at range
`[1 - 2^-53, 1 + 2^-52]`, entry 1 and capital 1000 the value at the lower bound is above the
capital and the value at the upper bound is not. -/
theorem boundary_values_double_example :
    Double.lt (Double.ofRat (1 - 1 / 2 ^ 53)) 1 = true ∧
    Double.lt 1 (Double.ofRat (1 + 1 / 2 ^ 52)) = true ∧
    Double.lt 1000
      (Double.getV3Value
        (Double.liquidity 1 (Double.ofRat (1 - 1 / 2 ^ 53)) (Double.ofRat (1 + 1 / 2 ^ 52)) 1000)
        (Double.sqrt (Double.ofRat (1 - 1 / 2 ^ 53))) (Double.sqrt (Double.ofRat (1 + 1 / 2 ^ 52)))
        (Double.ofRat (1 - 1 / 2 ^ 53)) (Double.ofRat (1 + 1 / 2 ^ 52))
        (Double.ofRat (1 - 1 / 2 ^ 53))) = true ∧
    Double.lt 1000
      (Double.getV3Value
        (Double.liquidity 1 (Double.ofRat (1 - 1 / 2 ^ 53)) (Double.ofRat (1 + 1 / 2 ^ 52)) 1000)
        (Double.sqrt (Double.ofRat (1 - 1 / 2 ^ 53))) (Double.sqrt (Double.ofRat (1 + 1 / 2 ^ 52)))
        (Double.ofRat (1 - 1 / 2 ^ 53)) (Double.ofRat (1 + 1 / 2 ^ 52))
        (Double.ofRat (1 + 1 / 2 ^ 52))) = false := by
  decide!

/-- In binary64 arithmetic the closed form of C23 is not kept on a narrow range: at range
`[1, 1 + 2^-52]`, entry `1 + 2^-51` (above the range) and capital 1000, `rangeConst` is rounded
to `-2^-103`, `L` is negative, the value at the entry price is `-0` and `pnlLP = -1000`, whereas
the exact `pnlLP` is positive. -/
theorem entry_outside_double_example :
    Double.lt (Double.ofRat (1 + 1 / 2 ^ 52)) (Double.ofRat (1 + 1 / 2 ^ 51)) = true ∧
    Double.rangeConst (Double.ofRat (1 + 1 / 2 ^ 51)) 1 (Double.ofRat (1 + 1 / 2 ^ 52))
      = Double.fin true (1 / 2 ^ 103) ∧
    (Double.calculatePosition (Double.ofRat (1 + 1 / 2 ^ 51)) (Double.ofRat (1 + 1 / 2 ^ 51)) 1
      (Double.ofRat (1 + 1 / 2 ^ 52)) 1000 0 0 none false).v3ValueCurrent
      = Double.fin true 0 ∧
    (Double.calculatePosition (Double.ofRat (1 + 1 / 2 ^ 51)) (Double.ofRat (1 + 1 / 2 ^ 51)) 1
      (Double.ofRat (1 + 1 / 2 ^ 52)) 1000 0 0 none false).pnlLP
      = Double.fin true 1000 := by
  decide!

end DeltaNeutral
